import Mathlib

set_option maxHeartbeats 1000000

/-!
Shallow embedding of the LSM-tree storage engine of this repository
(`src/lsm/engine.cpp`, `src/iterator/iterator.cpp`,
`src/redis_wrapper/redis_wrapper.cpp`) together with models of the
in-memory and on-disk components (`MemTable`, `SkipList`, `SST`,
merge iterators) whose sources are not part of the distribution; those
models are written from the specification and are marked as such in
their doc comments.

Keys are opaque byte strings in the source; the code only ever compares
them, so the embedding is generic over a linearly ordered key type `K`.
Values are byte strings modelled as `List Char`; the empty value is the
tombstone.  All recursion is structural (with explicit fuel where the
C++ uses unbounded loops or recursion) so that every definition
evaluates inside the kernel.
-/

namespace LsmModel

/-- Byte-string values; `[]` is the tombstone. -/
abbrev Value := List Char

/-- Tombstone reading of a raw stored value: the engine returns a hit
with `value.size() > 0` as the value and a hit with an empty value as
not-present (`std::nullopt`), at every layer of `LSMEngine::get`. -/
def liveValue (v : Value) : Option Value := if 0 < v.length then some v else none

section Engine

variable {K : Type} [LinearOrder K]

/-- One key/value record. -/
abbrev Entry (K : Type) := K × Value

/-- Keys of a record list, in stored order. -/
def keysOf (l : List (Entry K)) : List K := l.map Prod.fst

/-- Strictly ascending key order of a record list (keys pairwise `<` in
list order). -/
def SortedKeys (l : List (Entry K)) : Prop :=
  List.Pairwise (fun a b : Entry K => a.1 < b.1) l

instance (l : List (Entry K)) : Decidable (SortedKeys l) := by
  unfold SortedKeys
  infer_instance

/-- Configuration constants of the engine (`include/consts.h` is not in
the distribution; the spec lists `LSM_PER_MEM_SIZE_LIMIT`,
`LSM_TOL_MEM_SIZE_LIMIT` and `LSM_SST_LEVEL_RATIO` as tunable positive
constants).  `keyBytes` gives the byte length of an opaque key, used
only for the spec's size accounting `|k| + |v|`. -/
structure LsmConf (K : Type) where
  perMemSizeLimit : Nat
  tolMemSizeLimit : Nat
  sstLevelRatio : Nat
  keyBytes : K → Nat

/-- Skiplist lookup.  Modelled from the spec: the skiplist is an ordered
map from keys to values; `get(k)` returns the value if present. -/
def slGet : List (Entry K) → K → Option Value
  | [], _ => none
  | (k0, v0) :: rest, k => if k = k0 then some v0 else slGet rest k

/-- Skiplist insert-or-overwrite.  Modelled from the spec: `put(k,v)`
inserts or overwrites; the skiplist keeps its entries in ascending key
order (`begin()/end()` yield an ascending sequence). -/
def slPut : List (Entry K) → K → Value → List (Entry K)
  | [], k, v => [(k, v)]
  | (k0, v0) :: rest, k, v =>
    if k < k0 then (k, v) :: (k0, v0) :: rest
    else if k = k0 then (k, v) :: rest
    else (k0, v0) :: slPut rest k v

/-- Byte size of one record, `|k| + |v|`, as in the spec's skiplist size
accounting. -/
def entryBytes (C : LsmConf K) (e : Entry K) : Nat := C.keyBytes e.1 + e.2.length

/-- Byte size of a skiplist: sum of the record sizes. -/
def slSize (C : LsmConf K) (l : List (Entry K)) : Nat := (l.map (entryBytes C)).sum

/-- The MemTable: one active skiplist receiving writes and a list of
frozen skiplists, newest-frozen first (reads scan them in this order;
`flush_last` pops the last one, the oldest).  Modelled from the spec. -/
structure MemTable (K : Type) where
  active : List (Entry K)
  frozen : List (List (Entry K))

/-- The fresh, empty MemTable. -/
def MemTable.empty : MemTable K := ⟨[], []⟩

/-- Total bytes across all skiplists of the MemTable.  The spec's
invariant (v) says the tracked `total_size` equals this sum, so the
model computes it. -/
def mtTotalSize (C : LsmConf K) (mt : MemTable K) : Nat :=
  slSize C mt.active + (mt.frozen.map (slSize C)).sum

/-- MemTable freeze: moves the active skiplist to the front of the
frozen list and installs a new empty active one.  Modelled from the
spec (`freeze_current`). -/
def mtFreeze (mt : MemTable K) : MemTable K := ⟨[], mt.active :: mt.frozen⟩

/-- MemTable write.  Modelled from the spec: the write goes to the
active skiplist, and when the active skiplist alone reaches the
per-memtable watermark `LSM_PER_MEM_SIZE_LIMIT` the MemTable freezes it
(before accepting more data). -/
def mtPut (C : LsmConf K) (mt : MemTable K) (k : K) (v : Value) : MemTable K :=
  let a := slPut mt.active k v
  if C.perMemSizeLimit ≤ slSize C a then ⟨[], a :: mt.frozen⟩ else ⟨a, mt.frozen⟩

/-- MemTable delete: equivalent to `put(k, "")`, a tombstone (spec
§4.2). -/
def mtRemove (C : LsmConf K) (mt : MemTable K) (k : K) : MemTable K :=
  mtPut C mt k []

/-- Search a list of skiplists in order, returning the first hit. -/
def slGetFirst : List (List (Entry K)) → K → Option Value
  | [], _ => none
  | t :: ts, k =>
    match slGet t k with
    | some v => some v
    | none => slGetFirst ts k

/-- MemTable read: search the active skiplist first, then the frozen
ones from newest-frozen to oldest; return the first hit as-is (a hit
with an empty value is returned and the engine interprets it as
deleted).  Modelled from the spec. -/
def mtGet (mt : MemTable K) (k : K) : Option Value :=
  slGetFirst (mt.active :: mt.frozen) k

/-- Heap element used by the merging iterators
(`include/memtable/iterator.h`, spec §3): key, value, recency index and
ancillary level. -/
structure SearchItem (K : Type) where
  key : K
  value : Value
  idx : Int
  level : Nat

/-- Heap order on `SearchItem` from `src/iterator/iterator.cpp`
(`operator<`): by key, ties broken by `idx` ascending.  Stated as the
reflexive order used for sorting the heap's pop sequence. -/
def itemLE (a b : SearchItem K) : Prop :=
  a.key < b.key ∨ (a.key = b.key ∧ a.idx ≤ b.idx)

instance : DecidableRel (itemLE (K := K)) := fun a b => by
  unfold itemLE; infer_instance

instance : IsTotal (SearchItem K) itemLE where
  total a b := by
    rcases lt_trichotomy a.key b.key with h | h | h
    · exact Or.inl (Or.inl h)
    · rcases le_total a.idx b.idx with h2 | h2
      · exact Or.inl (Or.inr ⟨h, h2⟩)
      · exact Or.inr (Or.inr ⟨h.symm, h2⟩)
    · exact Or.inr (Or.inl h)

instance : IsTrans (SearchItem K) itemLE where
  trans a b c hab hbc := by
    rcases hab with h1 | ⟨e1, i1⟩
    · rcases hbc with h2 | ⟨e2, _⟩
      · exact Or.inl (h1.trans h2)
      · exact Or.inl (e2 ▸ h1)
    · rcases hbc with h2 | ⟨e2, i2⟩
      · exact Or.inl (e1 ▸ h2)
      · exact Or.inr ⟨e1.trans e2, i1.trans i2⟩

/-- Tail of the heap pop sequence: after emitting a key, the heap pops
and discards every following item with the same key (the older
duplicates), then emits the next strictly greater key.  Modelled from
the spec (§4.5, heap iterator). -/
def emitSkip (k : K) : List (SearchItem K) → List (Entry K)
  | [] => []
  | y :: ys => if y.key = k then emitSkip k ys else (y.key, y.value) :: emitSkip y.key ys

/-- Output sequence of the heap iterator over an already sorted pop
sequence: first of each equal-key run wins. -/
def emitDedup : List (SearchItem K) → List (Entry K)
  | [] => []
  | x :: xs => (x.key, x.value) :: emitSkip x.key xs

/-- Key/value sequence produced by a heap merge (`HeapIterator`) over a
bag of `SearchItem`s: the min-heap pops items in `itemLE` order (key
ascending, then `idx` ascending), and equal-key duplicates after the
first are discarded.  Modelled from the spec (§4.5). -/
def heapMergePairs (items : List (SearchItem K)) : List (Entry K) :=
  emitDedup (List.insertionSort itemLE items)

/-- Two-way merge with explicit fuel (the C++ iterator advances two
cursors; fuel `|a| + |b|` always suffices). -/
def twoMergeF : Nat → List (Entry K) → List (Entry K) → List (Entry K)
  | 0, _, _ => []
  | _ + 1, [], ys => ys
  | _ + 1, x :: xs, [] => x :: xs
  | f + 1, a :: xs, b :: ys =>
    if a.1 = b.1 then a :: twoMergeF f xs ys
    else if a.1 < b.1 then a :: twoMergeF f xs (b :: ys)
    else b :: twoMergeF f (a :: xs) ys

/-- Output sequence of `TwoMergeIterator` merging child A (memtable
side) against child B (SST side): ascending by key, and when the keys
are equal A wins and both children advance.  Modelled from the spec
(§4.5). -/
def twoMerge (a b : List (Entry K)) : List (Entry K) :=
  twoMergeF (a.length + b.length) a b

/-- Model of an on-disk SST: its id and its records in ascending key
order.  Modelled from the spec (§4.3): an SST is an immutable sorted
run; `get(k)` finds the record for `k` if present, `first_key` and
`last_key` are the first and last stored keys. -/
structure SSTm (K : Type) where
  sstId : Nat
  entries : List (Entry K)

/-- The default object a `std::map` lookup produces for an unregistered
id; the engine's invariants keep it unreachable. -/
def sstDefault : SSTm K := ⟨0, []⟩

/-- First stored key of the SST. -/
def SSTm.firstKey [Inhabited K] (s : SSTm K) : K := (s.entries.headD (default, [])).1

/-- Last stored key of the SST. -/
def SSTm.lastKey [Inhabited K] (s : SSTm K) : K := (s.entries.getLastD (default, [])).1

/-- SST point read. -/
def SSTm.get (s : SSTm K) (k : K) : Option Value := slGet s.entries k

/-- The probe condition of the read path:
`sst->get_first_key() <= key && key <= sst->get_last_key()`
(engine.cpp:130). -/
def sstContains [Inhabited K] (s : SSTm K) (k : K) : Prop :=
  s.firstKey ≤ k ∧ k ≤ s.lastKey

instance [Inhabited K] (s : SSTm K) (k : K) : Decidable (sstContains s k) := by
  unfold sstContains; infer_instance

/-- Builder size estimate of one record.  Modelled from the spec
(§4.3): a block stores `(klen, key, vlen, value)` plus an offset-table
slot per record, so every record contributes its key and value bytes
plus a positive per-record overhead, abstracted here to one byte. -/
def sstEntrySize (C : LsmConf K) (e : Entry K) : Nat := entryBytes C e + 1

/-- Size of a chunk of records under a size estimate. -/
def chunkSize (sz : Entry K → Nat) (c : List (Entry K)) : Nat := (c.map sz).sum

/-- Loop body of `LSMEngine::gen_sst_from_iter` (engine.cpp:413-439):
stream records into the current builder (`acc`, kept reversed, with
running size `accSz`); after each `add`, if the estimated size reached
`target_sst_size`, finalize the builder into an SST and start a new
one; at the end, finalize a last SST if the open builder is
non-empty. -/
def genChunksAux (sz : Entry K → Nat) (target : Nat) (acc : List (Entry K)) (accSz : Nat) :
    List (Entry K) → List (List (Entry K))
  | [] => if 0 < accSz then [acc.reverse] else []
  | e :: rest =>
    if target ≤ accSz + sz e then (e :: acc).reverse :: genChunksAux sz target [] 0 rest
    else genChunksAux sz target (e :: acc) (accSz + sz e) rest

/-- Record chunks produced by `gen_sst_from_iter` from a record
stream. -/
def genChunks (sz : Entry K → Nat) (target : Nat) (l : List (Entry K)) :
    List (List (Entry K)) :=
  genChunksAux sz target [] 0 l

/-- Mint consecutive sst ids (`cur_max_sst_id++` per built SST) for the
chunks, in production order. -/
def assignIds : Nat → List (List (Entry K)) → List (SSTm K)
  | _, [] => []
  | i, c :: cs => ⟨i, c⟩ :: assignIds (i + 1) cs

/-- `LSMEngine::get_sst_size` (engine.cpp:441-448): target SST size
`LSM_PER_MEM_SIZE_LIMIT` at level 0 and
`LSM_PER_MEM_SIZE_LIMIT * LSM_SST_LEVEL_RATIO ^ level` at deeper
levels (`std::pow` on these small naturals is exact). -/
def getSstSize (C : LsmConf K) (level : Nat) : Nat :=
  if level = 0 then C.perMemSizeLimit
  else C.perMemSizeLimit * C.sstLevelRatio ^ level

/-- In-memory state of `LSMEngine`: the MemTable, the `ssts` map
(`sst_id -> SST`, a total function returning `sstDefault` for
unregistered ids, mirroring `std::map::operator[]`), the level map
`level -> deque of sst_id` (absent levels read as empty), the id and
level counters, and the set of sst files on disk (by id). -/
structure EngineState (K : Type) where
  memtable : MemTable K
  ssts : Nat → SSTm K
  levels : Nat → List Nat
  curMaxSstId : Nat
  curMaxLevel : Nat
  files : List Nat

/-- Pointwise update of a total map. -/
def updFn {α β : Type} [DecidableEq α] (f : α → β) (a : α) (b : β) : α → β :=
  fun x => if x = a then b else f x

/-- The engine opened on an empty data directory. -/
def freshEngine : EngineState K :=
  ⟨MemTable.empty, fun _ => sstDefault, fun _ => [], 0, 0, []⟩

/-- Error outcomes of the model: `frozenEmpty` is the `flush_last`
invariant panic (spec §4.2/§7: asserting failure when the frozen list
is empty); `fuelOut` marks exhausted recursion fuel, unreachable from
well-formed states. -/
inductive LsmErr where
  | frozenEmpty
  | fuelOut
deriving DecidableEq

/-- Level-0 scan of `LSMEngine::get` (engine.cpp:105-119): probe the
level-0 SSTs in stored order; on the first SST containing the key,
return its value (tombstone-mapped); `some r` means the whole `get`
returns `r`. -/
def l0GetScan (st : EngineState K) : List Nat → K → Option (Option Value)
  | [], _ => none
  | id :: rest, k =>
    match SSTm.get (st.ssts id) k with
    | some v => some (liveValue v)
    | none => l0GetScan st rest k

/-- Binary search of `LSMEngine::get` within one level's id list
(engine.cpp:124-149), with fuel (the C++ `while (left < right)` loop
shrinks `right - left`, so fuel `right - left` suffices): probe the mid
SST; if its `[first_key, last_key]` range contains the key, return
`sst.get` tombstone-mapped, or `none` (the C++ `break`, continue with
the next level) when the key is absent from that SST; otherwise narrow
the window. -/
def levelSearchF [Inhabited K] (st : EngineState K) (ids : List Nat) (k : K) :
    Nat → Nat → Nat → Option (Option Value)
  | 0, _, _ => none
  | f + 1, left, right =>
    if left < right then
      let mid := left + (right - left) / 2
      let sst := st.ssts (ids.getD mid 0)
      if sstContains sst k then
        match sst.get k with
        | some v => some (liveValue v)
        | none => none
      else if sst.lastKey < k then
        levelSearchF st ids k f (mid + 1) right
      else
        levelSearchF st ids k f left mid
    else none

/-- Per-level binary search over the whole id list. -/
def levelSearch [Inhabited K] (st : EngineState K) (ids : List Nat) (k : K) :
    Option (Option Value) :=
  levelSearchF st ids k ids.length 0 ids.length

/-- The `for (level = 1; level <= cur_max_level; level++)` loop of
`LSMEngine::get`: a hit at a level (live or tombstone) returns
immediately; otherwise continue with the next level. -/
def levelsGet [Inhabited K] (st : EngineState K) (k : K) : List Nat → Option Value
  | [] => none
  | l :: ls =>
    match levelSearch st (st.levels l) k with
    | some r => r
    | none => levelsGet st k ls

/-- `LSMEngine::get` (engine.cpp:89-153): (1) the MemTable, a hit with
an empty value reported as deleted; (2) the level-0 SSTs in stored
order; (3) levels `1..cur_max_level` by per-level binary search. -/
def lsmGet [Inhabited K] (st : EngineState K) (k : K) : Option Value :=
  match mtGet st.memtable k with
  | some v => liveValue v
  | none =>
    match l0GetScan st (st.levels 0) k with
    | some r => r
    | none => levelsGet st k (List.range' 1 st.curMaxLevel)

/-- `SearchItem`s of a set of level-0 SSTs for a heap merge: every
record of `ssts[id]` with `idx = -sst_id`, so that among equal keys the
larger (newer) `sst_id` pops first (engine.cpp:258-261 states this sign
convention; `SstIterator::merge_sst_iterator` is modelled from the
spec). -/
def sstItemsOfL0 (st : EngineState K) (ids : List Nat) : List (SearchItem K) :=
  (ids.map (fun id =>
    (st.ssts id).entries.map (fun e => SearchItem.mk e.1 e.2 (-(id : Int)) 0))).flatten

/-- Record stream of `ConcactIterator` over the listed SSTs in list
order.  Modelled from the spec (§4.5): the runs are non-overlapping and
ascending, so concatenation is the merged sequence. -/
def concatEntries (st : EngineState K) (ids : List Nat) : List (Entry K) :=
  (ids.map (fun id => (st.ssts id).entries)).flatten

/-- Target SST size used by a compaction from `src_level`:
`full_l0_l1_compact` passes `LSM_PER_MEM_SIZE_LIMIT *
LSM_SST_LEVEL_RATIO` (engine.cpp:381-382), `full_common_compact` passes
`get_sst_size(level_y)` (engine.cpp:409). -/
def compactTargetSize (C : LsmConf K) (src : Nat) : Nat :=
  if src = 0 then C.perMemSizeLimit * C.sstLevelRatio
  else getSstSize C (src + 1)

/-- Merged record stream of a compaction from `src_level`
(engine.cpp:327-332): at level 0 a heap merge of the overlapping L0
SSTs two-way-merged against a concat cursor over level 1; at deeper
levels two concat cursors two-way-merged (x side newer). -/
def compactMerged (st : EngineState K) (src : Nat) (xIds yIds : List Nat) :
    List (Entry K) :=
  if src = 0 then
    twoMerge (heapMergePairs (sstItemsOfL0 st xIds)) (concatEntries st yIds)
  else
    twoMerge (concatEntries st xIds) (concatEntries st yIds)

/-- Ascending sort of an id list (`std::sort`). -/
def sortNatAsc (l : List Nat) : List Nat := List.insertionSort (· ≤ ·) l

/-- The record chunks `gen_sst_from_iter` cuts from the merged stream
of a compaction from `src` (engine.cpp:381-382 and 409 fix the target
size). -/
def compactChunks (C : LsmConf K) (src : Nat) (st1 : EngineState K) :
    List (List (Entry K)) :=
  genChunks (sstEntrySize C) (compactTargetSize C src)
    (compactMerged st1 src (st1.levels src) (st1.levels (src + 1)))

/-- The replacement SSTs of a compaction from `src`, with consecutive
ids minted from `cur_max_sst_id`. -/
def compactNewSsts (C : LsmConf K) (src : Nat) (st1 : EngineState K) : List (SSTm K) :=
  assignIds st1.curMaxSstId (compactChunks C src st1)

/-- Ids of the replacement SSTs. -/
def compactNewIds (C : LsmConf K) (src : Nat) (st1 : EngineState K) : List Nat :=
  (compactNewSsts C src st1).map SSTm.sstId

/-- Body of `LSMEngine::full_compact` (engine.cpp:321-355) applied to
the state after the optional recursive compaction: merge the `src` and
`src+1` SSTs into replacement SSTs; `del_sst` the old SSTs' files and
erase them from `ssts`; clear both level lists; bump `cur_max_level`;
register the replacements at `src + 1` sorted ascending by id.  (The
replacement files are written by the builder before the old files are
deleted; the resulting state is the same.) -/
def compactBody (C : LsmConf K) (src : Nat) (st1 : EngineState K) : EngineState K :=
  let xIds := st1.levels src
  let yIds := st1.levels (src + 1)
  let newSsts := compactNewSsts C src st1
  let newIds := compactNewIds C src st1
  let ssts1 := fun id => if id ∈ xIds ∨ id ∈ yIds then sstDefault else st1.ssts id
  { memtable := st1.memtable
    ssts := newSsts.foldl (fun f s => updFn f s.sstId s) ssts1
    levels := updFn (updFn st1.levels src []) (src + 1) (sortNatAsc newIds)
    curMaxSstId := st1.curMaxSstId + newSsts.length
    curMaxLevel := max st1.curMaxLevel (src + 1)
    files := (st1.files.filter (fun id => !(decide (id ∈ xIds) || decide (id ∈ yIds))))
      ++ newIds }

/-- `LSMEngine::full_compact` (engine.cpp:313-355), with fuel for the
C++ recursion into `src_level + 1` (any fuel of at least the number of
occupied levels above `src` gives the C++ behaviour): recursively
compact the next level if it is over the fan-out threshold, then run
the compaction body. -/
def fullCompact (C : LsmConf K) : Nat → Nat → EngineState K → EngineState K
  | 0, _, st => st
  | fuel + 1, src, st =>
    compactBody C src (if C.sstLevelRatio ≤ (st.levels (src + 1)).length then
      fullCompact C fuel (src + 1) st else st)

/-- Success state of `LSMEngine::flush` (engine.cpp:207-223): the
oldest frozen skiplist is popped and becomes the SST with the freshly
minted id `new_sst_id = cur_max_sst_id++` (the builder streams it in
ascending key order), registered in `ssts` and push-fronted onto level
0; its file is written. -/
def flushResult (st1 : EngineState K) (oldest : List (Entry K)) : EngineState K :=
  { memtable := ⟨st1.memtable.active, st1.memtable.frozen.dropLast⟩
    ssts := updFn st1.ssts st1.curMaxSstId ⟨st1.curMaxSstId, oldest⟩
    levels := updFn st1.levels 0 (st1.curMaxSstId :: st1.levels 0)
    curMaxSstId := st1.curMaxSstId + 1
    curMaxLevel := st1.curMaxLevel
    files := st1.curMaxSstId :: st1.files }

/-- The `flush_last` step of `LSMEngine::flush`:
`MemTable::flush_last` pops the oldest frozen skiplist and panics when
the frozen list is empty (spec §4.2/§7). -/
def lsmFlushBody (st1 : EngineState K) : Except LsmErr (EngineState K) :=
  match st1.memtable.frozen.getLast? with
  | none => .error .frozenEmpty
  | some oldest => .ok (flushResult st1 oldest)

/-- `LSMEngine::flush` (engine.cpp:194-224): no-op on an empty
MemTable; compact level 0 first when it holds at least
`LSM_SST_LEVEL_RATIO` SSTs; then build an SST from the oldest frozen
skiplist and register it. -/
def lsmFlush (C : LsmConf K) (st : EngineState K) : Except LsmErr (EngineState K) :=
  if mtTotalSize C st.memtable = 0 then .ok st
  else
    lsmFlushBody (if C.sstLevelRatio ≤ (st.levels 0).length then
      fullCompact C (st.curMaxLevel + 2) 0 st else st)

/-- `LSMEngine::put` (engine.cpp:155-162): write to the MemTable, then
flush if the total size reached `LSM_TOL_MEM_SIZE_LIMIT`. -/
def lsmPut (C : LsmConf K) (st : EngineState K) (k : K) (v : Value) :
    Except LsmErr (EngineState K) :=
  let st1 : EngineState K := { st with memtable := mtPut C st.memtable k v }
  if C.tolMemSizeLimit ≤ mtTotalSize C st1.memtable then lsmFlush C st1 else .ok st1

/-- `LSMEngine::remove` (engine.cpp:172-175): insert a tombstone via
the MemTable; no flush check. -/
def lsmRemove (C : LsmConf K) (st : EngineState K) (k : K) : EngineState K :=
  { st with memtable := mtRemove C st.memtable k }

/-- `LSMEngine::put_batch` (engine.cpp:164-171): all writes go to the
MemTable, then a single flush check. -/
def lsmPutBatch (C : LsmConf K) (st : EngineState K) (kvs : List (Entry K)) :
    Except LsmErr (EngineState K) :=
  let st1 : EngineState K :=
    { st with memtable := kvs.foldl (fun mt e => mtPut C mt e.1 e.2) st.memtable }
  if C.tolMemSizeLimit ≤ mtTotalSize C st1.memtable then lsmFlush C st1 else .ok st1

/-- `LSMEngine::remove_batch` (engine.cpp:177-179): tombstones for all
keys, no flush check. -/
def lsmRemoveBatch (C : LsmConf K) (st : EngineState K) (ks : List K) : EngineState K :=
  { st with memtable := ks.foldl (mtRemove C) st.memtable }

/-- `LSMEngine::flush_all` loop body (engine.cpp:226-230), with fuel:
flush while the MemTable holds bytes.  Fuel `frozen.length + 1` always
covers the C++ behaviour (each successful flush pops one frozen
skiplist, and with none left `flush` either stops or panics). -/
def lsmFlushAllGo (C : LsmConf K) : Nat → EngineState K → Except LsmErr (EngineState K)
  | 0, st => if mtTotalSize C st.memtable = 0 then .ok st else .error .fuelOut
  | n + 1, st =>
    if mtTotalSize C st.memtable = 0 then .ok st
    else
      match lsmFlush C st with
      | .error e => .error e
      | .ok st1 => lsmFlushAllGo C n st1

/-- `LSMEngine::flush_all` (engine.cpp:226-230). -/
def lsmFlushAll (C : LsmConf K) (st : EngineState K) : Except LsmErr (EngineState K) :=
  lsmFlushAllGo C (st.memtable.frozen.length + 1) st

/-- `LSMEngine::clear` (engine.cpp:181-192): drop the MemTable, the
level lists and the `ssts` map, and remove every file in the data
directory; the id and level counters are not reset. -/
def lsmClear (st : EngineState K) : EngineState K :=
  { memtable := MemTable.empty
    ssts := fun _ => sstDefault
    levels := fun _ => []
    curMaxSstId := st.curMaxSstId
    curMaxLevel := st.curMaxLevel
    files := [] }

/-- The constructor's directory scan (engine.cpp:16-82), fed with the
files found (as `(sst_id, level, records)` triples in directory order):
for each file record the maxima of `cur_max_sst_id` and
`cur_max_level`, open the SST into `ssts`, and append its id to its
level's list; afterwards sort every level's id list ascending and
reverse level 0 only. -/
def initFromScan (found : List (Nat × Nat × List (Entry K))) : EngineState K :=
  let st1 := found.foldl (fun (st : EngineState K) f =>
    { memtable := st.memtable
      ssts := updFn st.ssts f.1 ⟨f.1, f.2.2⟩
      levels := updFn st.levels f.2.1 (st.levels f.2.1 ++ [f.1])
      curMaxSstId := max f.1 st.curMaxSstId
      curMaxLevel := max f.2.1 st.curMaxLevel
      files := st.files ++ [f.1] }) freshEngine
  { st1 with levels := fun l =>
      if l = 0 then (sortNatAsc (st1.levels 0)).reverse else sortNatAsc (st1.levels l) }

/-- Public mutating operations of the engine (spec §6). -/
inductive PubOp (K : Type) where
  | put (k : K) (v : Value)
  | putBatch (kvs : List (Entry K))
  | remove (k : K)
  | removeBatch (ks : List K)
  | flush
  | flushAll
  | clear

/-- One public operation applied to the engine. -/
def stepOp (C : LsmConf K) (st : EngineState K) : PubOp K → Except LsmErr (EngineState K)
  | .put k v => lsmPut C st k v
  | .putBatch kvs => lsmPutBatch C st kvs
  | .remove k => .ok (lsmRemove C st k)
  | .removeBatch ks => .ok (lsmRemoveBatch C st ks)
  | .flush => lsmFlush C st
  | .flushAll => lsmFlushAll C st
  | .clear => .ok (lsmClear st)

/-- A sequence of public operations applied to the engine. -/
def runOps (C : LsmConf K) : List (PubOp K) → EngineState K → Except LsmErr (EngineState K)
  | [], st => .ok st
  | op :: ops, st =>
    match stepOp C st op with
    | .error e => .error e
    | .ok st1 => runOps C ops st1

/-- Heap items of a MemTable merge (`MemTableIterator`,
`include/memtable/iterator.h`).  Modelled from the spec (§3): entries
drawn from the active skiplist get `idx = 0` and older (frozen) tables
get larger `idx`, so that among equal keys the newest table pops
first. -/
def skItems : Int → List (List (Entry K)) → List (SearchItem K)
  | _, [] => []
  | i, t :: ts => t.map (fun e => SearchItem.mk e.1 e.2 i 0) ++ skItems (i + 1) ts

/-- All heap items of a MemTable: active table at `idx 0`, frozen
tables (newest first) at increasing `idx`. -/
def mtItems (mt : MemTable K) : List (SearchItem K) :=
  skItems 0 (mt.active :: mt.frozen)

/-- `MemTable::begin()`: merged ascending cursor across all skiplists
with newest-wins semantics.  Modelled from the spec (§4.2). -/
def mtPairs (mt : MemTable K) : List (Entry K) := heapMergePairs (mtItems mt)

/-- `LSMEngine::begin` (engine.cpp:290-309): a two-merge of the
MemTable's merged cursor (side A, newer) against a heap merge over all
level-0 SST records (side B). -/
def lsmBegin (st : EngineState K) : List (Entry K) :=
  twoMerge (mtPairs st.memtable) (heapMergePairs (sstItemsOfL0 st (st.levels 0)))

/-! Write-only operation sequences, for the claim about sequential
read-your-writes behaviour. -/

/-- A point write: `put(k, v)` or `remove(k)`. -/
inductive WriteOp (K : Type) where
  | wput (k : K) (v : Value)
  | wremove (k : K)

/-- The key a write touches. -/
def WriteOp.opKey : WriteOp K → K
  | .wput k _ => k
  | .wremove k => k

/-- The raw value a write stores: `remove` stores the empty
tombstone. -/
def WriteOp.written : WriteOp K → Value
  | .wput _ v => v
  | .wremove _ => []

/-- The write as a public engine operation. -/
def WriteOp.toPub : WriteOp K → PubOp K
  | .wput k v => .put k v
  | .wremove k => .remove k

/-- Raw stored contents after a write sequence over pairwise distinct
keys, as a map from keys to the raw stored value. -/
def wOf [DecidableEq K] (ops : List (WriteOp K)) : K → Option Value :=
  ops.foldl (fun w op => updFn w op.opKey (some op.written)) (fun _ => none)

/-- Operations that do not call `flush` explicitly (`flush` and
`flush_all` are still reachable through `put`'s size check). -/
def PubOp.flushFree : PubOp K → Prop
  | .flush => False
  | .flushAll => False
  | _ => True

instance : DecidablePred (PubOp.flushFree (K := K)) := fun op => by
  cases op <;> simp only [PubOp.flushFree] <;> infer_instance

/-- A write that is not a put of the empty value (a `put(k, "")` is a
tombstone and reads back as absent, so the read-your-writes claim holds
for puts of non-empty values). -/
def WriteOp.liveWrite : WriteOp K → Prop
  | .wput _ v => v ≠ []
  | .wremove _ => True

instance : DecidablePred (WriteOp.liveWrite (K := K)) := fun op => by
  cases op <;> simp only [WriteOp.liveWrite] <;> infer_instance

/-- What a read of the written key should yield after the write: the
put value, or nullopt after a remove. -/
def WriteOp.readback : WriteOp K → Option Value
  | .wput _ v => some v
  | .wremove _ => none

/-- Invariant tying an engine state to the raw stored map `w` of a
distinct-key write history: every skiplist and SST record agrees with
`w`; every written key is present somewhere; the structural
well-formedness the read path needs (sorted skiplists and SSTs,
sorted/disjoint levels `≥ 1`, ids below the counter, levels above
`cur_max_level` empty, pairwise disjoint level lists); and the active
skiplist is below the freeze watermark. -/
structure EngineInv (C : LsmConf K) (w : K → Option Value) (st : EngineState K) : Prop where
  activeSorted : SortedKeys st.memtable.active
  frozenSorted : ∀ t ∈ st.memtable.frozen, SortedKeys t
  activeSmall : slSize C st.memtable.active < C.perMemSizeLimit
  mtConsistent : ∀ t ∈ st.memtable.active :: st.memtable.frozen, ∀ e ∈ t, w e.1 = some e.2
  sstConsistent : ∀ l : Nat, ∀ id ∈ st.levels l, ∀ e ∈ (st.ssts id).entries, w e.1 = some e.2
  complete : ∀ k v, w k = some v →
    (∃ t ∈ st.memtable.active :: st.memtable.frozen, k ∈ keysOf t) ∨
    (∃ l : Nat, ∃ id ∈ st.levels l, k ∈ keysOf (st.ssts id).entries)
  levelSorted : ∀ l : Nat, 1 ≤ l → SortedKeys (concatEntries st (st.levels l))
  levelNonempty : ∀ l : Nat, 1 ≤ l → ∀ id ∈ st.levels l, (st.ssts id).entries ≠ []
  l0Sorted : ∀ id ∈ st.levels 0, SortedKeys (st.ssts id).entries
  idsBelow : ∀ l : Nat, ∀ id ∈ st.levels l, id < st.curMaxSstId
  hiEmpty : ∀ l : Nat, st.curMaxLevel < l → st.levels l = []
  levelsDisjoint : ∀ l l' : Nat, l ≠ l' → ∀ id ∈ st.levels l, id ∉ st.levels l'

/-- The small invariant behind the level-0 ordering claim: the level-0
id list is strictly descending and every listed id is below the mint
counter. -/
structure L0Inv (st : EngineState K) : Prop where
  desc : List.Pairwise (· > ·) (st.levels 0)
  below : ∀ l : Nat, ∀ id ∈ st.levels l, id < st.curMaxSstId

/-! Spec-side description of `get`, used for the refinement claim about
the read path: identical layering, but the SST of a deeper level is
located by a linear scan for the (unique) SST whose
`[first_key, last_key]` range contains the key, following the spec's
words instead of the code's binary search. -/

/-- First SST in the list whose key range contains `k` (the spec's
"find the SST whose `[first_key, last_key]` contains `k`"; at a
well-formed level it is unique). -/
def findContaining [Inhabited K] (st : EngineState K) (k : K) : List Nat → Option (SSTm K)
  | [] => none
  | id :: rest =>
    let s := st.ssts id
    if sstContains s k then some s else findContaining st k rest

/-- Spec-side read of one level `≥ 1`: probe the range-containing SST
if any; a hit is tombstone-mapped; no hit means the level is passed
over. -/
def specLevelGet [Inhabited K] (st : EngineState K) (ids : List Nat) (k : K) :
    Option (Option Value) :=
  match findContaining st k ids with
  | none => none
  | some s =>
    match s.get k with
    | some v => some (liveValue v)
    | none => none

/-- The spec-side level loop. -/
def specLevelsGet [Inhabited K] (st : EngineState K) (k : K) : List Nat → Option Value
  | [] => none
  | l :: ls =>
    match specLevelGet st (st.levels l) k with
    | some r => r
    | none => specLevelsGet st k ls

/-- Spec-side `get` (spec §4.6 "get"): (1) MemTable, empty value
meaning deleted; (2) level-0 SSTs in stored order; (3) levels
`1..cur_max_level`, each consulted through the SST whose range contains
the key. -/
def specGet [Inhabited K] (st : EngineState K) (k : K) : Option Value :=
  match mtGet st.memtable k with
  | some v => liveValue v
  | none =>
    match l0GetScan st (st.levels 0) k with
    | some r => r
    | none => specLevelsGet st k (List.range' 1 st.curMaxLevel)

/-! Effect trace of `full_compact`, in source order, for the claims
about compaction failure atomicity. -/

/-- Observable effects of one `full_compact` call, in program order:
`buildNew id` is `SSTBuilder::build` writing the file of a replacement
SST (inside `gen_sst_from_iter`), `delOld id` is `del_sst` unlinking an
old SST's file followed by `ssts.erase` (engine.cpp:334-341), and
`registerNew id` is the insertion of a replacement SST into
`level_sst_ids[src+1]` and `ssts` (engine.cpp:348-351). -/
inductive CompEff where
  | buildNew (id : Nat)
  | delOld (id : Nat)
  | registerNew (id : Nat)
deriving DecidableEq

/-- Effects of the body of `full_compact(src)` on state `st1` (the
state after the optional recursive compaction), in source order: all
builds, then all old-file deletions (level `src` then `src+1`), then
all registrations of the new SSTs. -/
def compactOwnEffects (C : LsmConf K) (src : Nat) (st1 : EngineState K) : List CompEff :=
  let xIds := st1.levels src
  let yIds := st1.levels (src + 1)
  let newIds := compactNewIds C src st1
  newIds.map .buildNew ++ xIds.map .delOld ++ yIds.map .delOld
    ++ newIds.map .registerNew

/-- Full effect trace of `full_compact(src)` including the optional
recursive compaction of `src + 1`, which runs first
(engine.cpp:317-319). -/
def compactTrace (C : LsmConf K) : Nat → Nat → EngineState K → List CompEff
  | 0, _, _ => []
  | fuel + 1, src, st =>
    if C.sstLevelRatio ≤ (st.levels (src + 1)).length then
      compactTrace C fuel (src + 1) st
        ++ compactOwnEffects C src (fullCompact C fuel (src + 1) st)
    else compactOwnEffects C src st

/-- Effect of one compaction step on the set of on-disk files:
building adds a file, `del_sst` unlinks one, registration touches only
the in-memory maps. -/
def applyEffFiles (fs : List Nat) : CompEff → List Nat
  | .buildNew id => fs ++ [id]
  | .delOld id => fs.filter (fun j => j != id)
  | .registerNew _ => fs

/-- On-disk files after a (possibly partial) run of a compaction effect
trace. -/
def runEffFiles (fs : List Nat) (effs : List CompEff) : List Nat :=
  effs.foldl applyEffFiles fs

/-- Effect of one compaction step on the set of ids registered in the
engine's maps: `ssts.erase`/list-clearing removes an old id,
registration adds a new one, building touches only the disk. -/
def applyEffRegs (rs : List Nat) : CompEff → List Nat
  | .buildNew _ => rs
  | .delOld id => rs.filter (fun j => j != id)
  | .registerNew id => rs ++ [id]

/-- Registered ids after a (possibly partial) run of a compaction
effect trace. -/
def runEffRegs (rs : List Nat) (effs : List CompEff) : List Nat :=
  effs.foldl applyEffRegs rs

/-- Whether an effect is an old-file deletion. -/
def CompEff.isDel : CompEff → Bool
  | .delOld _ => true
  | _ => false

/-- Whether an effect is a replacement-SST build. -/
def CompEff.isBuild : CompEff → Bool
  | .buildNew _ => true
  | _ => false

/-- Whether an effect is a replacement-SST registration. -/
def CompEff.isReg : CompEff → Bool
  | .registerNew _ => true
  | _ => false

/-- Number of build effects of a trace. -/
def buildCount (effs : List CompEff) : Nat := (effs.filter CompEff.isBuild).length

end Engine

/-! Model of the Redis command layer (`src/redis_wrapper/redis_wrapper.cpp`)
over the engine's KV interface.  The wrapper only uses `get`, `put`,
`remove`, `put_batch` and `remove_batch`, so the store is modelled by
their observable behaviour: a newest-first association list where an
empty stored value reads as not-present (the engine's tombstone
contract).  Expiry bookkeeping (`expire_zset_clean`) depends on
wall-clock time; the modelled commands cover stores with no expiry
entry for the queried key, for which the cleanup is a no-op. -/

/-- The KV store as seen through the engine interface: newest write
first. -/
abbrev KV := List (String × String)

/-- `lsm->get`: first (newest) record for the key; an empty value reads
as not-present. -/
def kvGet : KV → String → Option String
  | [], _ => none
  | (k0, v0) :: rest, k =>
    if k = k0 then (if 0 < v0.length then some v0 else none) else kvGet rest k

/-- `lsm->put`. -/
def kvPut (st : KV) (k v : String) : KV := (k, v) :: st

/-- `lsm->remove`: a tombstone. -/
def kvRemove (st : KV) (k : String) : KV := (k, "") :: st

/-- `lsm->put_batch`, in order (later pairs win). -/
def kvPutBatch (st : KV) (kvs : List (String × String)) : KV :=
  kvs.foldl (fun s e => kvPut s e.1 e.2) st

/-- `lsm->remove_batch`, in order. -/
def kvRemoveBatch (st : KV) (ks : List String) : KV :=
  ks.foldl kvRemove st

/-- Wire-format constants of the wrapper (`include/consts.h` is not in
the distribution): the sorted-set key prefix `REDIS_SORTED_SET_PREFIX`
and the zero-padded score width `REDIS_SORTED_SET_SCORE_LEN`. -/
structure RedisConf where
  zsetPrefixStr : String
  scoreLen : Nat

/-- Left-pad a score with zeros to the configured width
(`std::setw(REDIS_SORTED_SET_SCORE_LEN) << std::setfill('0')`,
redis_wrapper.cpp:62-68). -/
def padScore (R : RedisConf) (s : String) : String :=
  if s.length < R.scoreLen then
    String.mk (List.replicate (R.scoreLen - s.length) '0') ++ s
  else s

/-- `get_zset_key_socre` (redis_wrapper.cpp:62-71). -/
def zsetKeyScore (R : RedisConf) (key score : String) : String :=
  R.zsetPrefixStr ++ key ++ "_SCORE_" ++ padScore R score

/-- `get_zset_key_elem` (redis_wrapper.cpp:73-76). -/
def zsetKeyElem (R : RedisConf) (key elem : String) : String :=
  R.zsetPrefixStr ++ key ++ "_ELEM_" ++ elem

/-- `get_zset_key_preffix` (redis_wrapper.cpp:78-80). -/
def zsetKeyPrefixOf (R : RedisConf) (key : String) : String :=
  R.zsetPrefixStr ++ key ++ "_"

/-- Accumulator of the `redis_zadd` loop: the pending put batch, the
collected `remove_keys`, and `added_count`. -/
structure ZaddAcc where
  putKvs : List (String × String)
  removeKeys : List String
  added : Nat
deriving DecidableEq

/-- One iteration of the `redis_zadd` loop (redis_wrapper.cpp:797-820)
for a `(score, elem)` argument pair: look up the element's current
score in the store (all lookups precede the batched writes); an
unchanged score is skipped; a changed score pushes the old score key
onto `remove_keys`; in both writing branches the new `(key_score,
elem)` and `(key_elem, score)` records join `put_kvs` and
`added_count` increments. -/
def zaddStep (R : RedisConf) (st : KV) (key : String) (acc : ZaddAcc)
    (p : String × String) : ZaddAcc :=
  let score := p.1
  let elem := p.2
  let keyScore := zsetKeyScore R key score
  let keyElem := zsetKeyElem R key elem
  match kvGet st keyElem with
  | some originalScore =>
    if originalScore = score then acc
    else
      { putKvs := acc.putKvs ++ [(keyScore, elem), (keyElem, score)]
        removeKeys := acc.removeKeys ++ [zsetKeyScore R key originalScore]
        added := acc.added + 1 }
  | none =>
    { putKvs := acc.putKvs ++ [(keyScore, elem), (keyElem, score)]
      removeKeys := acc.removeKeys
      added := acc.added + 1 }

/-- `redis_zadd` (redis_wrapper.cpp:772-823) on the KV store, returning
the new store together with the loop accumulator and the `del_keys`
vector: the zset marker record is queued if the prefix key is absent;
the argument pairs are folded through the loop; then the source calls
`lsm->remove_batch(del_keys)` — on `del_keys`, which nothing ever
appended to, not on `remove_keys` — followed by
`lsm->put_batch(put_kvs)`. -/
def redisZadd (R : RedisConf) (st : KV) (key : String)
    (pairs : List (String × String)) : KV × ZaddAcc × List String :=
  let initPut : List (String × String) :=
    if (kvGet st (zsetKeyPrefixOf R key)).isSome then []
    else [(key, zsetKeyPrefixOf R key)]
  let acc := pairs.foldl (zaddStep R st key) ⟨initPut, [], 0⟩
  let delKeys : List String := []
  (kvPutBatch (kvRemoveBatch st delKeys) acc.putKvs, acc, delKeys)

/-- Numeric value of a decimal digit character. -/
def digitVal (c : Char) : Nat := c.toNat - 48

/-- Value of a digit run, most significant first. -/
def digitsVal (l : List Char) : Nat := l.foldl (fun n c => n * 10 + digitVal c) 0

/-- Model of `std::stol` on the strings this code stores (an optional
minus sign followed by digits): the longest digit prefix, negated under
a leading minus.  (The exceptional behaviour of `std::stol` on
non-numeric or out-of-long-range input is outside the model.) -/
def stolModel (s : String) : Int :=
  match s.data with
  | '-' :: rest => -(digitsVal (rest.takeWhile Char.isDigit) : Int)
  | l => (digitsVal (l.takeWhile Char.isDigit) : Int)

/-- An exact decimal number `num / 10 ^ pow10`, the value
`std::stod` parses from a plain decimal literal.  (IEEE-754 rounding of
a `double` is not modelled; on inputs whose value is representable —
all inputs used below — the parsed `double` equals this exact
value.) -/
structure DecimalQ where
  num : Int
  pow10 : Nat
deriving DecidableEq

/-- Digits of a decimal literal after the sign: integer part, optional
point, fraction part. -/
def decimalOfDigits (l : List Char) : DecimalQ :=
  let intPart := l.takeWhile Char.isDigit
  let rest := l.dropWhile Char.isDigit
  match rest with
  | '.' :: fs =>
    let fd := fs.takeWhile Char.isDigit
    ⟨(digitsVal intPart : Int) * (10 ^ fd.length : Nat) + (digitsVal fd : Int), fd.length⟩
  | _ => ⟨(digitsVal intPart : Int), 0⟩

/-- Model of `std::stod` on plain decimal literals. -/
def stodModel (s : String) : DecimalQ :=
  match s.data with
  | '-' :: rest => let d := decimalOfDigits rest; ⟨-d.num, d.pow10⟩
  | l => decimalOfDigits l

/-- The exact value of `long + double` for `redis_zincrby`: the stored
score (a signed long, exact as a `double` in the stored range) plus the
parsed increment, as an exact decimal. -/
def addIntDecimal (z : Int) (d : DecimalQ) : DecimalQ :=
  ⟨z * ((10 : Int) ^ d.pow10) + d.num, d.pow10⟩

/-- Truncation of the decimal toward zero, the `double`-to-integer
conversion step. -/
def decTruncToZero (d : DecimalQ) : Int := Int.tdiv d.num ((10 : Int) ^ d.pow10)

/-- Storing an integer into a `uint64_t`: reduction modulo `2 ^ 64`
(the hardware behaviour of the conversion; for negative values the
C++ conversion from `double` is not defined by the standard, and this
models the two's-complement wrap the claim describes). -/
def toUInt64Wrap (z : Int) : Nat := (Int.emod z ((2 : Int) ^ 64)).toNat

/-- Decimal rendering of the `uint64_t` result (`std::to_string`). -/
def natDecString (n : Nat) : String := Nat.repr n

/-- `redis_zincrby` (redis_wrapper.cpp:960-992) on the KV store,
returning the new store and `new_score_str`: for an existing element,
`new_score = std::stol(original_score) + std::stod(increment)` stored
into a `uint64_t`, and the old score record is removed; otherwise
`new_score = std::stod(increment)` likewise stored; finally the element
and new score records are written. -/
def redisZincrby (R : RedisConf) (st : KV) (key increment elem : String) :
    KV × String :=
  let keyElem := zsetKeyElem R key elem
  match kvGet st keyElem with
  | some originalScore =>
    let newScore := toUInt64Wrap
      (decTruncToZero (addIntDecimal (stolModel originalScore) (stodModel increment)))
    let newStr := natDecString newScore
    let st1 := kvRemove st (zsetKeyScore R key originalScore)
    (kvPut (kvPut st1 keyElem newStr) (zsetKeyScore R key newStr) elem, newStr)
  | none =>
    let newScore := toUInt64Wrap (decTruncToZero (stodModel increment))
    let newStr := natDecString newScore
    (kvPut (kvPut st keyElem newStr) (zsetKeyScore R key newStr) elem, newStr)

/-! Theorems.  First the basic facts about the ordered record lists
backing the skiplist model, then the merge-layer lemmas, then the
engine invariants, and finally the claim theorems. -/

section EngineLemmas

variable {K : Type} [LinearOrder K]

theorem slGet_eq_some_mem {l : List (Entry K)} {k : K} {v : Value}
    (h : slGet l k = some v) : (k, v) ∈ l := by
  induction l with
  | nil => simp [slGet] at h
  | cons e rest ih =>
    obtain ⟨k0, v0⟩ := e
    by_cases hk : k = k0
    · simp [slGet, hk] at h
      simp [hk, ← h]
    · simp [slGet, hk] at h
      exact List.mem_cons_of_mem _ (ih h)

theorem slGet_eq_none_iff {l : List (Entry K)} {k : K} :
    slGet l k = none ↔ k ∉ keysOf l := by
  induction l with
  | nil => simp [slGet, keysOf]
  | cons e rest ih =>
    obtain ⟨k0, v0⟩ := e
    by_cases hk : k = k0
    · subst hk
      simp [slGet, keysOf]
    · simp only [slGet, if_neg hk, ih, keysOf, List.map_cons, List.mem_cons]
      constructor
      · intro h hmem
        rcases hmem with h' | h'
        · exact hk h'
        · exact h h'
      · intro h h'
        exact h (Or.inr h')

theorem slGet_isSome_of_mem {l : List (Entry K)} {k : K} (h : k ∈ keysOf l) :
    ∃ v, slGet l k = some v := by
  cases hg : slGet l k with
  | none => exact absurd h (slGet_eq_none_iff.mp hg)
  | some v => exact ⟨v, rfl⟩

theorem mem_slPut {l : List (Entry K)} {k : K} {v : Value} {e : Entry K}
    (h : e ∈ slPut l k v) : e = (k, v) ∨ e ∈ l := by
  induction l with
  | nil => simp [slPut] at h; simp [h]
  | cons e0 rest ih =>
    obtain ⟨k0, v0⟩ := e0
    by_cases h1 : k < k0
    · simp only [slPut, if_pos h1, List.mem_cons] at h
      rcases h with h | h | h
      · exact Or.inl h
      · exact Or.inr (by simp [h])
      · exact Or.inr (List.mem_cons_of_mem _ h)
    · by_cases h2 : k = k0
      · simp only [slPut, if_neg h1, if_pos h2, List.mem_cons] at h
        rcases h with h | h
        · exact Or.inl h
        · exact Or.inr (List.mem_cons_of_mem _ h)
      · simp only [slPut, if_neg h1, if_neg h2, List.mem_cons] at h
        rcases h with h | h
        · exact Or.inr (by simp [h])
        · rcases ih h with h | h
          · exact Or.inl h
          · exact Or.inr (List.mem_cons_of_mem _ h)

theorem keysOf_slPut_self {l : List (Entry K)} (k : K) (v : Value) :
    k ∈ keysOf (slPut l k v) := by
  induction l with
  | nil => simp [slPut, keysOf]
  | cons e0 rest ih =>
    obtain ⟨k0, v0⟩ := e0
    by_cases h1 : k < k0
    · simp [slPut, if_pos h1, keysOf]
    · by_cases h2 : k = k0
      · subst h2
        simp [slPut, if_neg h1, keysOf]
      · simp only [slPut, if_neg h1, if_neg h2, keysOf, List.map_cons, List.mem_cons]
        simp only [keysOf] at ih
        exact Or.inr ih

theorem keysOf_slPut_mono {l : List (Entry K)} {k' : K} (k : K) (v : Value)
    (h : k' ∈ keysOf l) : k' ∈ keysOf (slPut l k v) := by
  induction l with
  | nil => simp [keysOf] at h
  | cons e0 rest ih =>
    obtain ⟨k0, v0⟩ := e0
    simp only [keysOf, List.map_cons, List.mem_cons] at h
    by_cases h1 : k < k0
    · simp only [slPut, if_pos h1, keysOf, List.map_cons, List.mem_cons]
      tauto
    · by_cases h2 : k = k0
      · subst h2
        have hput : slPut ((k, v0) :: rest) k v = (k, v) :: rest := by
          simp [slPut, if_neg h1]
        rw [hput]
        simp only [keysOf, List.map_cons, List.mem_cons]
        exact h
      · simp only [slPut, if_neg h1, if_neg h2, keysOf, List.map_cons, List.mem_cons]
        simp only [keysOf] at ih
        tauto

theorem keysOf_slPut_subset {l : List (Entry K)} {k k' : K} {v : Value}
    (h : k' ∈ keysOf (slPut l k v)) : k' = k ∨ k' ∈ keysOf l := by
  simp only [keysOf] at h
  rcases List.mem_map.mp h with ⟨e, he, rfl⟩
  rcases mem_slPut he with h | h
  · exact Or.inl (by simp [h])
  · exact Or.inr (List.mem_map_of_mem _ h)

theorem sortedKeys_slPut {l : List (Entry K)} {k : K} {v : Value}
    (h : SortedKeys l) : SortedKeys (slPut l k v) := by
  induction l with
  | nil => simp [slPut, SortedKeys]
  | cons e0 rest ih =>
    obtain ⟨k0, v0⟩ := e0
    rcases (List.pairwise_cons.mp h) with ⟨hhead, htail⟩
    by_cases h1 : k < k0
    · simp only [SortedKeys, slPut, if_pos h1]
      refine List.pairwise_cons.mpr ⟨?_, h⟩
      intro e he
      rcases List.mem_cons.mp he with rfl | he
      · exact h1
      · exact h1.trans (hhead e he)
    · by_cases h2 : k = k0
      · simp only [SortedKeys, slPut, if_neg h1, if_pos h2]
        exact List.pairwise_cons.mpr ⟨fun e he => h2 ▸ hhead e he, htail⟩
      · have h3 : k0 < k := by
          rcases lt_trichotomy k k0 with h' | h' | h'
          · exact absurd h' h1
          · exact absurd h' h2
          · exact h'
        simp only [SortedKeys, slPut, if_neg h1, if_neg h2]
        refine List.pairwise_cons.mpr ⟨?_, ih htail⟩
        intro e he
        rcases mem_slPut he with rfl | he
        · exact h3
        · exact hhead e he

theorem slGetFirst_eq_none_iff {ts : List (List (Entry K))} {k : K} :
    slGetFirst ts k = none ↔ ∀ t ∈ ts, k ∉ keysOf t := by
  induction ts with
  | nil => simp [slGetFirst]
  | cons t ts ih =>
    cases hg : slGet t k with
    | some v =>
      simp only [slGetFirst, hg]
      constructor
      · intro h; exact absurd h (by simp)
      · intro h
        exact absurd (slGet_eq_some_mem hg) (by
          intro hmem
          exact h t (List.mem_cons_self t ts) (List.mem_map_of_mem _ hmem))
    | none =>
      simp only [slGetFirst, hg, ih]
      constructor
      · intro h t' ht'
        rcases List.mem_cons.mp ht' with rfl | ht'
        · exact slGet_eq_none_iff.mp hg
        · exact h t' ht'
      · intro h t' ht'
        exact h t' (List.mem_cons_of_mem _ ht')

theorem slGetFirst_some_mem {ts : List (List (Entry K))} {k : K} {v : Value}
    (h : slGetFirst ts k = some v) : ∃ t ∈ ts, (k, v) ∈ t := by
  induction ts with
  | nil => simp [slGetFirst] at h
  | cons t ts ih =>
    cases hg : slGet t k with
    | some v' =>
      simp only [slGetFirst, hg, Option.some.injEq] at h
      exact ⟨t, List.mem_cons_self t ts, h ▸ slGet_eq_some_mem hg⟩
    | none =>
      simp only [slGetFirst, hg] at h
      rcases ih h with ⟨t', ht', hmem⟩
      exact ⟨t', List.mem_cons_of_mem _ ht', hmem⟩

theorem mtGet_eq_none_iff {mt : MemTable K} {k : K} :
    mtGet mt k = none ↔ ∀ t ∈ mt.active :: mt.frozen, k ∉ keysOf t :=
  slGetFirst_eq_none_iff

theorem mtGet_some_mem {mt : MemTable K} {k : K} {v : Value}
    (h : mtGet mt k = some v) : ∃ t ∈ mt.active :: mt.frozen, (k, v) ∈ t :=
  slGetFirst_some_mem h

theorem itemLE_key_le {a b : SearchItem K} (h : itemLE a b) : a.key ≤ b.key := by
  rcases h with h | ⟨h, _⟩
  · exact le_of_lt h
  · exact le_of_eq h

theorem emitSkip_spec (k : K) (l : List (SearchItem K))
    (hs : List.Sorted itemLE l) (hb : ∀ y ∈ l, k ≤ y.key) :
    SortedKeys (emitSkip k l) ∧
    (∀ e ∈ emitSkip k l, k < e.1 ∧ ∃ it ∈ l, it.key = e.1 ∧ it.value = e.2 ∧
        ∀ it2 ∈ l, it2.key = e.1 → it.idx ≤ it2.idx) ∧
    (∀ it ∈ l, it.key = k ∨ it.key ∈ keysOf (emitSkip k l)) := by
  induction l generalizing k with
  | nil => simp [emitSkip, SortedKeys]
  | cons y ys ih =>
    rcases List.sorted_cons.mp hs with ⟨hy2, hstail⟩
    by_cases hyk : y.key = k
    · have hb' : ∀ z ∈ ys, k ≤ z.key := fun z hz => hyk ▸ itemLE_key_le (hy2 z hz)
      rcases ih k hstail hb' with ⟨ihs, ihe, ihc⟩
      rw [emitSkip, if_pos hyk]
      refine ⟨ihs, ?_, ?_⟩
      · intro e he
        rcases ihe e he with ⟨hk, it, hit, h1, h2, h3⟩
        refine ⟨hk, it, List.mem_cons_of_mem _ hit, h1, h2, ?_⟩
        intro it2 hit2 hkey
        rcases List.mem_cons.mp hit2 with rfl | hit2
        · exact absurd (hkey ▸ hyk) (ne_of_gt (hkey ▸ hk))
        · exact h3 it2 hit2 hkey
      · intro it hit
        rcases List.mem_cons.mp hit with rfl | hit
        · exact Or.inl hyk
        · exact ihc it hit
    · have hky : k < y.key := lt_of_le_of_ne (hb y (List.mem_cons_self y ys)) (Ne.symm hyk)
      have hb2 : ∀ z ∈ ys, y.key ≤ z.key := fun z hz => itemLE_key_le (hy2 z hz)
      rcases ih y.key hstail hb2 with ⟨ihs, ihe, ihc⟩
      rw [emitSkip, if_neg hyk]
      refine ⟨?_, ?_, ?_⟩
      · refine List.pairwise_cons.mpr ⟨?_, ihs⟩
        intro e he
        exact (ihe e he).1
      · intro e he
        rcases List.mem_cons.mp he with rfl | he
        · refine ⟨hky, y, List.mem_cons_self y ys, rfl, rfl, ?_⟩
          intro it2 hit2 hkey
          rcases List.mem_cons.mp hit2 with rfl | hit2
          · exact le_refl _
          · rcases hy2 it2 hit2 with h | ⟨_, h⟩
            · exact absurd hkey.symm (ne_of_lt h)
            · exact h
        · rcases ihe e he with ⟨hk, it, hit, h1, h2, h3⟩
          refine ⟨hky.trans hk, it, List.mem_cons_of_mem _ hit, h1, h2, ?_⟩
          intro it2 hit2 hkey
          rcases List.mem_cons.mp hit2 with rfl | hit2
          · exact absurd hkey (ne_of_lt hk)
          · exact h3 it2 hit2 hkey
      · intro it hit
        rcases List.mem_cons.mp hit with rfl | hit
        · exact Or.inr (by simp [keysOf])
        · rcases ihc it hit with h | h
          · exact Or.inr (by simp [keysOf, h])
          · exact Or.inr (by
              simp only [keysOf, List.map_cons, List.mem_cons]
              exact Or.inr (by simpa [keysOf] using h))

theorem emitDedup_spec (l : List (SearchItem K)) (hs : List.Sorted itemLE l) :
    SortedKeys (emitDedup l) ∧
    (∀ e ∈ emitDedup l, ∃ it ∈ l, it.key = e.1 ∧ it.value = e.2 ∧
        ∀ it2 ∈ l, it2.key = e.1 → it.idx ≤ it2.idx) ∧
    (∀ it ∈ l, it.key ∈ keysOf (emitDedup l)) := by
  cases l with
  | nil => simp [emitDedup, SortedKeys]
  | cons x xs =>
    rcases List.sorted_cons.mp hs with ⟨hx2, hstail⟩
    have hb : ∀ z ∈ xs, x.key ≤ z.key := fun z hz => itemLE_key_le (hx2 z hz)
    rcases emitSkip_spec x.key xs hstail hb with ⟨ihs, ihe, ihc⟩
    refine ⟨?_, ?_, ?_⟩
    · refine List.pairwise_cons.mpr ⟨?_, ihs⟩
      intro e he
      exact (ihe e he).1
    · intro e he
      rcases List.mem_cons.mp he with rfl | he
      · refine ⟨x, List.mem_cons_self x xs, rfl, rfl, ?_⟩
        intro it2 hit2 hkey
        rcases List.mem_cons.mp hit2 with rfl | hit2
        · exact le_refl _
        · rcases hx2 it2 hit2 with h | ⟨_, h⟩
          · exact absurd hkey.symm (ne_of_lt h)
          · exact h
      · rcases ihe e he with ⟨hk, it, hit, h1, h2, h3⟩
        refine ⟨it, List.mem_cons_of_mem _ hit, h1, h2, ?_⟩
        intro it2 hit2 hkey
        rcases List.mem_cons.mp hit2 with rfl | hit2
        · exact absurd hkey (ne_of_lt hk)
        · exact h3 it2 hit2 hkey
    · intro it hit
      rcases List.mem_cons.mp hit with rfl | hit
      · simp [emitDedup, keysOf]
      · rcases ihc it hit with h | h
        · simp [emitDedup, keysOf, h]
        · simp only [emitDedup, keysOf, List.map_cons, List.mem_cons]
          exact Or.inr (by simpa [keysOf] using h)

theorem heapMergePairs_sortedKeys (items : List (SearchItem K)) :
    SortedKeys (heapMergePairs items) :=
  (emitDedup_spec _ (List.sorted_insertionSort itemLE items)).1

theorem heapMergePairs_newest (items : List (SearchItem K)) :
    ∀ e ∈ heapMergePairs items, ∃ it ∈ items, it.key = e.1 ∧ it.value = e.2 ∧
      ∀ it2 ∈ items, it2.key = e.1 → it.idx ≤ it2.idx := by
  intro e he
  rcases (emitDedup_spec _ (List.sorted_insertionSort itemLE items)).2.1 e he with
    ⟨it, hit, h1, h2, h3⟩
  refine ⟨it, (List.mem_insertionSort itemLE).mp hit, h1, h2, ?_⟩
  intro it2 hit2 hkey
  exact h3 it2 ((List.mem_insertionSort itemLE).mpr hit2) hkey

theorem heapMergePairs_keys {items : List (SearchItem K)} {it : SearchItem K}
    (hit : it ∈ items) : it.key ∈ keysOf (heapMergePairs items) :=
  (emitDedup_spec _ (List.sorted_insertionSort itemLE items)).2.2 it
    ((List.mem_insertionSort itemLE).mpr hit)

theorem heapMergePairs_mem {items : List (SearchItem K)} {e : Entry K}
    (he : e ∈ heapMergePairs items) :
    ∃ it ∈ items, it.key = e.1 ∧ it.value = e.2 := by
  rcases heapMergePairs_newest items e he with ⟨it, hit, h1, h2, _⟩
  exact ⟨it, hit, h1, h2⟩

theorem twoMergeF_mem {f : Nat} {a b : List (Entry K)} {e : Entry K}
    (h : e ∈ twoMergeF f a b) : e ∈ a ∨ e ∈ b := by
  induction f generalizing a b with
  | zero => simp [twoMergeF] at h
  | succ f ih =>
    match a, b with
    | [], ys =>
      simp only [twoMergeF] at h
      exact Or.inr h
    | x :: xs, [] =>
      simp only [twoMergeF] at h
      exact Or.inl h
    | xa :: xs, yb :: ys =>
      by_cases h1 : xa.1 = yb.1
      · simp only [twoMergeF, if_pos h1, List.mem_cons] at h
        rcases h with rfl | h
        · exact Or.inl (List.mem_cons_self _ _)
        · rcases ih h with h | h
          · exact Or.inl (List.mem_cons_of_mem _ h)
          · exact Or.inr (List.mem_cons_of_mem _ h)
      · by_cases h2 : xa.1 < yb.1
        · simp only [twoMergeF, if_neg h1, if_pos h2, List.mem_cons] at h
          rcases h with rfl | h
          · exact Or.inl (List.mem_cons_self _ _)
          · rcases ih h with h | h
            · exact Or.inl (List.mem_cons_of_mem _ h)
            · exact Or.inr h
        · simp only [twoMergeF, if_neg h1, if_neg h2, List.mem_cons] at h
          rcases h with rfl | h
          · exact Or.inr (List.mem_cons_self _ _)
          · rcases ih h with h | h
            · exact Or.inl h
            · exact Or.inr (List.mem_cons_of_mem _ h)

theorem twoMergeF_keys {f : Nat} {a b : List (Entry K)} {k : K}
    (hf : a.length + b.length ≤ f)
    (h : k ∈ keysOf a ∨ k ∈ keysOf b) : k ∈ keysOf (twoMergeF f a b) := by
  induction f generalizing a b with
  | zero =>
    match a, b with
    | [], [] => simp [keysOf] at h
    | x :: xs, _ => simp at hf
    | [], y :: ys => simp at hf
  | succ f ih =>
    match a, b with
    | [], ys =>
      simp only [twoMergeF]
      rcases h with h | h
      · simp [keysOf] at h
      · exact h
    | x :: xs, [] =>
      simp only [twoMergeF]
      rcases h with h | h
      · exact h
      · simp [keysOf] at h
    | xa :: xs, yb :: ys =>
      simp only [List.length_cons] at hf
      by_cases h1 : xa.1 = yb.1
      · simp only [twoMergeF, if_pos h1, keysOf, List.map_cons, List.mem_cons]
        rcases h with h | h
        · simp only [keysOf, List.map_cons, List.mem_cons] at h
          rcases h with h | h
          · exact Or.inl h
          · exact Or.inr (ih (by omega) (Or.inl h))
        · simp only [keysOf, List.map_cons, List.mem_cons] at h
          rcases h with h | h
          · exact Or.inl (h.trans h1.symm)
          · exact Or.inr (ih (by omega) (Or.inr h))
      · by_cases h2 : xa.1 < yb.1
        · simp only [twoMergeF, if_neg h1, if_pos h2, keysOf, List.map_cons, List.mem_cons]
          rcases h with h | h
          · simp only [keysOf, List.map_cons, List.mem_cons] at h
            rcases h with h | h
            · exact Or.inl h
            · exact Or.inr (ih (by simp; omega) (Or.inl h))
          · exact Or.inr (ih (by simp; omega) (Or.inr h))
        · simp only [twoMergeF, if_neg h1, if_neg h2, keysOf, List.map_cons, List.mem_cons]
          rcases h with h | h
          · exact Or.inr (ih (by simp; omega) (Or.inl h))
          · simp only [keysOf, List.map_cons, List.mem_cons] at h
            rcases h with h | h
            · exact Or.inl h
            · exact Or.inr (ih (by simp; omega) (Or.inr h))

theorem twoMergeF_sortedKeys {f : Nat} {a b : List (Entry K)}
    (ha : SortedKeys a) (hb : SortedKeys b) : SortedKeys (twoMergeF f a b) := by
  induction f generalizing a b with
  | zero => simp [twoMergeF, SortedKeys]
  | succ f ih =>
    match a, b with
    | [], ys => simpa only [twoMergeF] using hb
    | x :: xs, [] => simpa only [twoMergeF] using ha
    | xa :: xs, yb :: ys =>
      rcases List.pairwise_cons.mp ha with ⟨hxa, hxs⟩
      rcases List.pairwise_cons.mp hb with ⟨hyb, hys⟩
      by_cases h1 : xa.1 = yb.1
      · simp only [SortedKeys, twoMergeF, if_pos h1]
        refine List.pairwise_cons.mpr ⟨?_, ih hxs hys⟩
        intro e he
        rcases twoMergeF_mem he with h | h
        · exact hxa e h
        · exact h1 ▸ hyb e h
      · by_cases h2 : xa.1 < yb.1
        · simp only [SortedKeys, twoMergeF, if_neg h1, if_pos h2]
          refine List.pairwise_cons.mpr ⟨?_, ih hxs hb⟩
          intro e he
          rcases twoMergeF_mem he with h | h
          · exact hxa e h
          · rcases List.mem_cons.mp h with rfl | h
            · exact h2
            · exact h2.trans (hyb e h)
        · have h3 : yb.1 < xa.1 := by
            rcases lt_trichotomy xa.1 yb.1 with h' | h' | h'
            · exact absurd h' h2
            · exact absurd h' h1
            · exact h'
          simp only [SortedKeys, twoMergeF, if_neg h1, if_neg h2]
          refine List.pairwise_cons.mpr ⟨?_, ih ha hys⟩
          intro e he
          rcases twoMergeF_mem he with h | h
          · rcases List.mem_cons.mp h with rfl | h
            · exact h3
            · exact h3.trans (hxa e h)
          · exact hyb e h

theorem twoMergeF_slGet {f : Nat} {a b : List (Entry K)} {k : K}
    (hf : a.length + b.length ≤ f) (ha : SortedKeys a) (hb : SortedKeys b) :
    slGet (twoMergeF f a b) k = (slGet a k).or (slGet b k) := by
  induction f generalizing a b with
  | zero =>
    match a, b with
    | [], [] => simp [twoMergeF, slGet]
    | x :: xs, _ => simp at hf
    | [], y :: ys => simp at hf
  | succ f ih =>
    match a, b with
    | [], ys => simp [twoMergeF, slGet]
    | x :: xs, [] => simp [twoMergeF, slGet]
    | xa :: xs, yb :: ys =>
      obtain ⟨ka, va⟩ := xa
      obtain ⟨kb, vb⟩ := yb
      simp only [List.length_cons] at hf
      rcases List.pairwise_cons.mp ha with ⟨hxa, hxs⟩
      rcases List.pairwise_cons.mp hb with ⟨hyb, hys⟩
      by_cases h1 : (ka, va).1 = (kb, vb).1
      · simp only at h1
        by_cases hk : k = ka
        · simp only [twoMergeF, if_pos (show (ka, va).1 = (kb, vb).1 from h1), slGet,
            if_pos hk, if_pos (hk.trans h1), Option.or]
        · simp only [twoMergeF, if_pos (show (ka, va).1 = (kb, vb).1 from h1), slGet,
            if_neg hk, if_neg (show ¬k = kb from fun h => hk (h.trans h1.symm))]
          refine ih ?_ hxs hys
          omega
      · by_cases h2 : (ka, va).1 < (kb, vb).1
        · simp only at h1 h2
          by_cases hk : k = ka
          · simp only [twoMergeF, if_neg (show ¬(ka, va).1 = (kb, vb).1 from h1),
              if_pos (show (ka, va).1 < (kb, vb).1 from h2), slGet, if_pos hk, Option.or]
          · simp only [twoMergeF, if_neg (show ¬(ka, va).1 = (kb, vb).1 from h1),
              if_pos (show (ka, va).1 < (kb, vb).1 from h2), slGet, if_neg hk]
            refine ih ?_ hxs hb
            simp only [List.length_cons]
            omega
        · simp only at h1 h2
          have h3 : kb < ka := by
            rcases lt_trichotomy ka kb with h' | h' | h'
            · exact absurd h' h2
            · exact absurd h' h1
            · exact h'
          by_cases hk : k = kb
          · have hnone : slGet ((ka, va) :: xs) k = none := by
              rw [slGet_eq_none_iff]
              intro hmem
              simp only [keysOf, List.map_cons, List.mem_cons] at hmem
              rcases hmem with h | h
              · exact absurd (hk ▸ h : kb = ka) (ne_of_lt h3)
              · rcases List.mem_map.mp h with ⟨e, he, hke⟩
                have := hxa e he
                rw [hke, hk] at this
                exact absurd (h3.trans this) (lt_irrefl kb)
            simp only [slGet] at hnone
            simp only [twoMergeF, if_neg (show ¬(ka, va).1 = (kb, vb).1 from h1),
              if_neg (show ¬(ka, va).1 < (kb, vb).1 from h2), slGet, if_pos hk, hnone,
              Option.or]
          · have hrec : slGet (twoMergeF f ((ka, va) :: xs) ys) k =
                (slGet ((ka, va) :: xs) k).or (slGet ys k) := by
              refine ih ?_ ha hys
              simp only [List.length_cons]
              omega
            simp only [twoMergeF, if_neg (show ¬(ka, va).1 = (kb, vb).1 from h1),
              if_neg (show ¬(ka, va).1 < (kb, vb).1 from h2), slGet, if_neg hk]
            simp only [slGet] at hrec
            exact hrec

theorem twoMerge_sortedKeys {a b : List (Entry K)} (ha : SortedKeys a)
    (hb : SortedKeys b) : SortedKeys (twoMerge a b) :=
  twoMergeF_sortedKeys ha hb

theorem twoMerge_mem {a b : List (Entry K)} {e : Entry K}
    (h : e ∈ twoMerge a b) : e ∈ a ∨ e ∈ b :=
  twoMergeF_mem h

theorem twoMerge_keys {a b : List (Entry K)} {k : K}
    (h : k ∈ keysOf a ∨ k ∈ keysOf b) : k ∈ keysOf (twoMerge a b) :=
  twoMergeF_keys (le_refl _) h

theorem twoMerge_slGet {a b : List (Entry K)} (k : K) (ha : SortedKeys a)
    (hb : SortedKeys b) :
    slGet (twoMerge a b) k = (slGet a k).or (slGet b k) :=
  twoMergeF_slGet (le_refl _) ha hb

theorem chunkSize_cons (sz : Entry K → Nat) (e : Entry K) (c : List (Entry K)) :
    chunkSize sz (e :: c) = sz e + chunkSize sz c := by
  simp [chunkSize]

theorem chunkSize_append (sz : Entry K → Nat) (c d : List (Entry K)) :
    chunkSize sz (c ++ d) = chunkSize sz c + chunkSize sz d := by
  simp [chunkSize]

theorem chunkSize_reverse (sz : Entry K → Nat) (c : List (Entry K)) :
    chunkSize sz c.reverse = chunkSize sz c := by
  simp only [chunkSize, List.map_reverse]
  exact (List.reverse_perm _).sum_eq

theorem eq_nil_of_chunkSize_eq_zero {sz : Entry K → Nat} (hsz : ∀ e, 0 < sz e)
    {c : List (Entry K)} (h : chunkSize sz c = 0) : c = [] := by
  cases c with
  | nil => rfl
  | cons e c =>
    rw [chunkSize_cons] at h
    exact absurd h (by have := hsz e; omega)

theorem flatten_genChunksAux (sz : Entry K → Nat) (hsz : ∀ e, 0 < sz e) (target : Nat) :
    ∀ (l acc : List (Entry K)), (genChunksAux sz target acc (chunkSize sz acc) l).flatten
      = acc.reverse ++ l := by
  intro l
  induction l with
  | nil =>
    intro acc
    by_cases h : 0 < chunkSize sz acc
    · simp [genChunksAux, if_pos h]
    · have : chunkSize sz acc = 0 := by omega
      rw [eq_nil_of_chunkSize_eq_zero hsz this]
      simp [genChunksAux, chunkSize]
  | cons e rest ih =>
    intro acc
    by_cases h : target ≤ chunkSize sz acc + sz e
    · have h0 : chunkSize sz ([] : List (Entry K)) = 0 := by simp [chunkSize]
      have := ih ([] : List (Entry K))
      rw [h0] at this
      simp only [genChunksAux, if_pos h, List.flatten_cons, this]
      simp
    · have hacc : chunkSize sz acc + sz e = chunkSize sz (e :: acc) := by
        rw [chunkSize_cons]; omega
      have h' : ¬target ≤ chunkSize sz (e :: acc) := by rw [chunkSize_cons]; omega
      have hrec := ih (e :: acc)
      simp only [genChunksAux, hacc, if_neg h', hrec]
      simp

theorem flatten_genChunks (sz : Entry K → Nat) (hsz : ∀ e, 0 < sz e) (target : Nat)
    (l : List (Entry K)) : (genChunks sz target l).flatten = l := by
  have h0 : chunkSize sz ([] : List (Entry K)) = 0 := by simp [chunkSize]
  have := flatten_genChunksAux sz hsz target l []
  rw [h0] at this
  simpa [genChunks] using this

theorem ne_nil_of_mem_genChunksAux (sz : Entry K → Nat) (hsz : ∀ e, 0 < sz e)
    (target : Nat) :
    ∀ (l acc : List (Entry K)) (c : List (Entry K)),
      c ∈ genChunksAux sz target acc (chunkSize sz acc) l → c ≠ [] := by
  intro l
  induction l with
  | nil =>
    intro acc c hc
    by_cases h : 0 < chunkSize sz acc
    · simp only [genChunksAux, if_pos h, List.mem_singleton] at hc
      subst hc
      intro hnil
      rw [List.reverse_eq_nil_iff] at hnil
      subst hnil
      simp [chunkSize] at h
    · simp [genChunksAux, if_neg h] at hc
  | cons e rest ih =>
    intro acc c hc
    by_cases h : target ≤ chunkSize sz acc + sz e
    · simp only [genChunksAux, if_pos h, List.mem_cons] at hc
      rcases hc with rfl | hc
      · simp
      · have h0 : chunkSize sz ([] : List (Entry K)) = 0 := by simp [chunkSize]
        exact ih [] c (by rw [h0]; exact hc)
    · have hacc : chunkSize sz acc + sz e = chunkSize sz (e :: acc) := by
        rw [chunkSize_cons]; omega
      have h' : ¬target ≤ chunkSize sz (e :: acc) := by rw [chunkSize_cons]; omega
      simp only [genChunksAux, hacc, if_neg h'] at hc
      exact ih (e :: acc) c hc

theorem ne_nil_of_mem_genChunks {sz : Entry K → Nat} (hsz : ∀ e, 0 < sz e)
    {target : Nat} {l c : List (Entry K)} (hc : c ∈ genChunks sz target l) : c ≠ [] := by
  have h0 : chunkSize sz ([] : List (Entry K)) = 0 := by simp [chunkSize]
  exact ne_nil_of_mem_genChunksAux sz hsz target l [] c (by rw [h0]; exact hc)

theorem genChunksAux_proper_prefix (sz : Entry K → Nat) (target : Nat) :
    ∀ (l acc : List (Entry K)),
      (∀ j, 0 < j → j ≤ acc.length → chunkSize sz (acc.reverse.take j) < target) →
      ∀ c ∈ genChunksAux sz target acc (chunkSize sz acc) l,
        ∀ i, 0 < i → i < c.length → chunkSize sz (c.take i) < target := by
  intro l
  induction l with
  | nil =>
    intro acc hpre c hc i hi hlen
    by_cases h : 0 < chunkSize sz acc
    · simp only [genChunksAux, if_pos h, List.mem_singleton] at hc
      subst hc
      simp only [List.length_reverse] at hlen
      exact hpre i hi (le_of_lt hlen)
    · simp [genChunksAux, if_neg h] at hc
  | cons e rest ih =>
    intro acc hpre c hc i hi hlen
    by_cases h : target ≤ chunkSize sz acc + sz e
    · simp only [genChunksAux, if_pos h, List.mem_cons] at hc
      rcases hc with rfl | hc
      · simp only [List.reverse_cons, List.length_append, List.length_reverse,
          List.length_cons, List.length_nil] at hlen
        have hile : i ≤ acc.length := by omega
        rw [List.reverse_cons, List.take_append_of_le_length (by simpa using hile)]
        exact hpre i hi hile
      · have h0 : chunkSize sz ([] : List (Entry K)) = 0 := by simp [chunkSize]
        refine ih [] ?_ c (by rw [h0]; exact hc) i hi hlen
        intro j hj hj2
        simp at hj2
        omega
    · have hacc : chunkSize sz acc + sz e = chunkSize sz (e :: acc) := by
        rw [chunkSize_cons]; omega
      have h' : ¬target ≤ chunkSize sz (e :: acc) := by rw [chunkSize_cons]; omega
      simp only [genChunksAux, hacc, if_neg h'] at hc
      refine ih (e :: acc) ?_ c hc i hi hlen
      intro j hj hj2
      simp only [List.length_cons] at hj2
      rcases Nat.lt_or_ge j (acc.length + 1) with hj3 | hj3
      · have hjle : j ≤ acc.length := by omega
        rw [List.reverse_cons, List.take_append_of_le_length (by simpa using hjle)]
        exact hpre j hj hjle
      · have hjeq : j = acc.length + 1 := by omega
        have hfull : (acc.reverse ++ [e]).take j = acc.reverse ++ [e] := by
          apply List.take_of_length_le
          simp [hjeq]
        rw [List.reverse_cons, hfull, chunkSize_append, chunkSize_reverse]
        simp only [chunkSize, List.map_cons, List.map_nil, List.sum_cons, List.sum_nil]
        simp only [chunkSize] at h
        omega

theorem genChunksAux_full_chunks (sz : Entry K → Nat) (target : Nat) :
    ∀ (l acc : List (Entry K)),
      ∀ c ∈ (genChunksAux sz target acc (chunkSize sz acc) l).dropLast,
        target ≤ chunkSize sz c := by
  intro l
  induction l with
  | nil =>
    intro acc c hc
    by_cases h : 0 < chunkSize sz acc
    · simp [genChunksAux, if_pos h] at hc
    · simp [genChunksAux, if_neg h] at hc
  | cons e rest ih =>
    intro acc c hc
    by_cases h : target ≤ chunkSize sz acc + sz e
    · have h0 : chunkSize sz ([] : List (Entry K)) = 0 := by simp [chunkSize]
      simp only [genChunksAux, if_pos h] at hc
      cases hres : genChunksAux sz target [] 0 rest with
      | nil => simp [hres] at hc
      | cons c0 cs =>
        rw [hres, List.dropLast_cons₂, List.mem_cons] at hc
        rcases hc with rfl | hc
        · rw [chunkSize_reverse, chunkSize_cons]
          omega
        · exact ih [] c (by rw [h0, hres]; exact hc)
    · have hacc : chunkSize sz acc + sz e = chunkSize sz (e :: acc) := by
        rw [chunkSize_cons]; omega
      have h' : ¬target ≤ chunkSize sz (e :: acc) := by rw [chunkSize_cons]; omega
      simp only [genChunksAux, hacc, if_neg h'] at hc
      exact ih (e :: acc) c hc

theorem genChunks_proper_prefix {sz : Entry K → Nat} {target : Nat}
    {l : List (Entry K)} :
    ∀ c ∈ genChunks sz target l, ∀ i, 0 < i → i < c.length →
      chunkSize sz (c.take i) < target := by
  intro c hc
  have h0 : chunkSize sz ([] : List (Entry K)) = 0 := by simp [chunkSize]
  refine genChunksAux_proper_prefix sz target l [] ?_ c (by rw [h0]; exact hc)
  intro j hj hj2
  simp at hj2
  omega

theorem genChunks_full_chunks {sz : Entry K → Nat} {target : Nat} {l : List (Entry K)} :
    ∀ c ∈ (genChunks sz target l).dropLast, target ≤ chunkSize sz c := by
  intro c hc
  have h0 : chunkSize sz ([] : List (Entry K)) = 0 := by simp [chunkSize]
  exact genChunksAux_full_chunks sz target l [] c (by rw [h0]; exact hc)

theorem map_sstId_assignIds : ∀ (i : Nat) (cs : List (List (Entry K))),
    (assignIds i cs).map SSTm.sstId = List.range' i cs.length := by
  intro i cs
  induction cs generalizing i with
  | nil => simp [assignIds]
  | cons c cs ih => simp [assignIds, List.range', ih]

theorem map_entries_assignIds : ∀ (i : Nat) (cs : List (List (Entry K))),
    (assignIds i cs).map SSTm.entries = cs := by
  intro i cs
  induction cs generalizing i with
  | nil => simp [assignIds]
  | cons c cs ih => simp [assignIds, ih]

theorem length_assignIds (i : Nat) (cs : List (List (Entry K))) :
    (assignIds i cs).length = cs.length := by
  have := congrArg List.length (map_entries_assignIds i cs)
  simpa using this

theorem mem_assignIds {i : Nat} {cs : List (List (Entry K))} {s : SSTm K}
    (hs : s ∈ assignIds i cs) :
    s.entries ∈ cs ∧ i ≤ s.sstId ∧ s.sstId < i + cs.length := by
  induction cs generalizing i with
  | nil => simp [assignIds] at hs
  | cons c cs ih =>
    simp only [assignIds, List.mem_cons] at hs
    rcases hs with rfl | hs
    · simp
    · rcases ih hs with ⟨h1, h2, h3⟩
      refine ⟨List.mem_cons_of_mem _ h1, by omega, by simp [List.length_cons]; omega⟩

theorem updFn_self {α β : Type} [DecidableEq α] (f : α → β) (a : α) (b : β) :
    updFn f a b a = b := by simp [updFn]

theorem updFn_ne {α β : Type} [DecidableEq α] (f : α → β) {a x : α} (b : β)
    (h : x ≠ a) : updFn f a b x = f x := by simp [updFn, h]

theorem foldUpd_notMem {ss : List (SSTm K)} {x : Nat} (base : Nat → SSTm K)
    (h : ∀ s ∈ ss, s.sstId ≠ x) :
    (ss.foldl (fun f s => updFn f s.sstId s) base) x = base x := by
  induction ss generalizing base with
  | nil => simp
  | cons s ss ih =>
    simp only [List.foldl_cons]
    rw [ih _ (fun s' hs' => h s' (List.mem_cons_of_mem _ hs'))]
    exact updFn_ne _ _ (Ne.symm (h s (List.mem_cons_self s ss)))

theorem foldUpd_mem {ss : List (SSTm K)} {s : SSTm K} (base : Nat → SSTm K)
    (hmem : s ∈ ss) (hnd : (ss.map SSTm.sstId).Nodup) :
    (ss.foldl (fun f s => updFn f s.sstId s) base) s.sstId = s := by
  induction ss generalizing base with
  | nil => simp at hmem
  | cons s0 ss ih =>
    simp only [List.map_cons, List.nodup_cons] at hnd
    rcases List.mem_cons.mp hmem with rfl | hmem
    · simp only [List.foldl_cons]
      rw [foldUpd_notMem]
      · exact updFn_self _ _ _
      · intro s' hs' heq
        exact hnd.1 (heq ▸ List.mem_map_of_mem SSTm.sstId hs')
    · simp only [List.foldl_cons]
      exact ih _ hmem hnd.2

theorem concatEntries_congr {st st' : EngineState K} {ids : List Nat}
    (h : ∀ id ∈ ids, st'.ssts id = st.ssts id) :
    concatEntries st' ids = concatEntries st ids := by
  simp only [concatEntries]
  congr 1
  exact List.map_congr_left (fun id hid => by rw [h id hid])

theorem mem_concatEntries {st : EngineState K} {ids : List Nat} {e : Entry K} :
    e ∈ concatEntries st ids ↔ ∃ id ∈ ids, e ∈ (st.ssts id).entries := by
  simp only [concatEntries, List.mem_flatten, List.mem_map]
  constructor
  · rintro ⟨l, ⟨id, hid, rfl⟩, he⟩
    exact ⟨id, hid, he⟩
  · rintro ⟨id, hid, he⟩
    exact ⟨(st.ssts id).entries, ⟨id, hid, rfl⟩, he⟩

theorem keysOf_concatEntries {st : EngineState K} {ids : List Nat} {k : K} :
    k ∈ keysOf (concatEntries st ids) ↔ ∃ id ∈ ids, k ∈ keysOf (st.ssts id).entries := by
  simp only [keysOf, List.mem_map]
  constructor
  · rintro ⟨e, he, rfl⟩
    rcases mem_concatEntries.mp he with ⟨id, hid, he'⟩
    exact ⟨id, hid, e, he', rfl⟩
  · rintro ⟨id, hid, e, he, rfl⟩
    exact ⟨e, mem_concatEntries.mpr ⟨id, hid, he⟩, rfl⟩

theorem mem_sstItemsOfL0 {st : EngineState K} {ids : List Nat} {it : SearchItem K} :
    it ∈ sstItemsOfL0 st ids ↔
      ∃ id ∈ ids, ∃ e ∈ (st.ssts id).entries, it = SearchItem.mk e.1 e.2 (-(id : Int)) 0 := by
  simp only [sstItemsOfL0, List.mem_flatten, List.mem_map]
  constructor
  · rintro ⟨l, ⟨id, hid, rfl⟩, he⟩
    rcases List.mem_map.mp he with ⟨e, he', rfl⟩
    exact ⟨id, hid, e, he', rfl⟩
  · rintro ⟨id, hid, e, he, rfl⟩
    exact ⟨_, ⟨id, hid, rfl⟩, List.mem_map_of_mem _ he⟩

theorem headD_mem {α : Type} {l : List α} (h : l ≠ []) (d : α) : l.headD d ∈ l := by
  cases l with
  | nil => exact absurd rfl h
  | cons a l => simp

theorem getLastD_mem {α : Type} : ∀ (l : List α), l ≠ [] → ∀ d, l.getLastD d ∈ l := by
  intro l
  induction l with
  | nil => intro h; exact absurd rfl h
  | cons a l ih =>
    intro _ d
    cases l with
    | nil => simp
    | cons b l' =>
      rw [List.getLastD_cons]
      exact List.mem_cons_of_mem _ (ih (by simp) a)

theorem headD_key_le {l : List (Entry K)} (hs : SortedKeys l) {e : Entry K}
    (he : e ∈ l) (d : Entry K) : (l.headD d).1 ≤ e.1 := by
  cases l with
  | nil => simp at he
  | cons a l =>
    rcases List.mem_cons.mp he with rfl | he
    · simp
    · simp only [List.headD_cons]
      exact le_of_lt ((List.pairwise_cons.mp hs).1 e he)

theorem key_le_getLastD {l : List (Entry K)} (hs : SortedKeys l) {e : Entry K}
    (he : e ∈ l) (d : Entry K) : e.1 ≤ (l.getLastD d).1 := by
  induction l generalizing d with
  | nil => simp at he
  | cons a l ih =>
    cases l with
    | nil =>
      rcases List.mem_cons.mp he with rfl | he
      · simp
      · simp at he
    | cons b l' =>
      rw [List.getLastD_cons]
      rcases List.mem_cons.mp he with rfl | he
      · have hmem : (b :: l').getLastD e ∈ b :: l' := getLastD_mem _ (by simp) e
        exact le_of_lt ((List.pairwise_cons.mp hs).1 _ hmem)
      · exact ih (List.Pairwise.of_cons hs) he a

theorem sstContains_of_mem [Inhabited K] {s : SSTm K} (hs : SortedKeys s.entries)
    {k : K} (hk : k ∈ keysOf s.entries) : sstContains s k := by
  rcases List.mem_map.mp hk with ⟨e, he, rfl⟩
  exact ⟨headD_key_le hs he _, key_le_getLastD hs he _⟩

theorem firstKey_le_lastKey [Inhabited K] {s : SSTm K} (hs : SortedKeys s.entries)
    (hne : s.entries ≠ []) : s.firstKey ≤ s.lastKey :=
  headD_key_le hs (getLastD_mem _ hne _) _

theorem concat_parts_sorted {st : EngineState K} {ids : List Nat}
    (hconcat : SortedKeys (concatEntries st ids)) {id : Nat} (hid : id ∈ ids) :
    SortedKeys (st.ssts id).entries :=
  (List.pairwise_flatten.mp hconcat).1 _ (List.mem_map_of_mem _ hid)

theorem concat_cross {st : EngineState K} {ids : List Nat}
    (hconcat : SortedKeys (concatEntries st ids)) {i j : Nat}
    (hi : i < ids.length) (hj : j < ids.length) (hij : i < j) :
    ∀ e1 ∈ (st.ssts (ids.getD i 0)).entries, ∀ e2 ∈ (st.ssts (ids.getD j 0)).entries,
      e1.1 < e2.1 := by
  have hcross := (List.pairwise_flatten.mp hconcat).2
  rw [List.pairwise_iff_get] at hcross
  have hlen : (ids.map (fun id => (st.ssts id).entries)).length = ids.length := by simp
  have hstep := hcross ⟨i, by omega⟩ ⟨j, by omega⟩ (by simpa using hij)
  intro e1 he1 e2 he2
  apply hstep
  · rw [List.get_eq_getElem, List.getElem_map]
    rw [List.getD_eq_getElem ids 0 hi] at he1
    exact he1
  · rw [List.get_eq_getElem, List.getElem_map]
    rw [List.getD_eq_getElem ids 0 hj] at he2
    exact he2

theorem getD_mem_of_lt {ids : List Nat} {i : Nat} (hi : i < ids.length) :
    ids.getD i 0 ∈ ids := by
  rw [List.getD_eq_getElem ids 0 hi]
  exact List.getElem_mem _

theorem cross_first_last [Inhabited K] {st : EngineState K} {ids : List Nat}
    (hconcat : SortedKeys (concatEntries st ids))
    (hne : ∀ id ∈ ids, (st.ssts id).entries ≠ []) {i j : Nat}
    (hi : i < ids.length) (hj : j < ids.length) (hij : i < j) :
    (st.ssts (ids.getD i 0)).lastKey < (st.ssts (ids.getD j 0)).firstKey := by
  have hne_i := hne _ (getD_mem_of_lt hi)
  have hne_j := hne _ (getD_mem_of_lt hj)
  exact concat_cross hconcat hi hj hij _ (getLastD_mem _ hne_i _) _ (headD_mem hne_j _)

theorem sstContains_unique [Inhabited K] {st : EngineState K} {ids : List Nat} {k : K}
    (hconcat : SortedKeys (concatEntries st ids))
    (hne : ∀ id ∈ ids, (st.ssts id).entries ≠ []) {i j : Nat}
    (hi : i < ids.length) (hj : j < ids.length) (hij : i ≠ j)
    (h1 : sstContains (st.ssts (ids.getD i 0)) k)
    (h2 : sstContains (st.ssts (ids.getD j 0)) k) : False := by
  rcases Nat.lt_or_ge i j with h | h
  · have := cross_first_last hconcat hne hi hj h
    exact absurd ((h1.2.trans_lt this).trans_le h2.1) (lt_irrefl k)
  · have hji : j < i := by omega
    have := cross_first_last hconcat hne hj hi hji
    exact absurd ((h2.2.trans_lt this).trans_le h1.1) (lt_irrefl k)

theorem findContaining_eq_none [Inhabited K] {st : EngineState K} {k : K} {ids : List Nat}
    (h : ∀ id ∈ ids, ¬sstContains (st.ssts id) k) : findContaining st k ids = none := by
  induction ids with
  | nil => rfl
  | cons id rest ih =>
    simp only [findContaining, if_neg (h id (List.mem_cons_self id rest))]
    exact ih (fun id' hid' => h id' (List.mem_cons_of_mem _ hid'))

theorem findContaining_eq_some [Inhabited K] {st : EngineState K} {k : K} :
    ∀ {ids : List Nat} {i : Nat}, i < ids.length →
      sstContains (st.ssts (ids.getD i 0)) k →
      (∀ j, j < i → ¬sstContains (st.ssts (ids.getD j 0)) k) →
      findContaining st k ids = some (st.ssts (ids.getD i 0)) := by
  intro ids
  induction ids with
  | nil => intro i hi; simp at hi
  | cons id rest ih =>
    intro i hi hcont hbefore
    cases i with
    | zero =>
      simp only [List.getD] at hcont ⊢
      simp only [findContaining, if_pos (by simpa using hcont)]
      simp
    | succ i' =>
      have hhead : ¬sstContains (st.ssts ((id :: rest).getD 0 0)) k :=
        hbefore 0 (Nat.succ_pos i')
      simp only [List.getD] at hhead
      simp only [findContaining, if_neg (by simpa using hhead)]
      have hi' : i' < rest.length := by simpa using hi
      have hcont' : sstContains (st.ssts (rest.getD i' 0)) k := by
        simpa [List.getD] using hcont
      have hbefore' : ∀ j, j < i' → ¬sstContains (st.ssts (rest.getD j 0)) k := by
        intro j hj
        have := hbefore (j + 1) (by omega)
        simpa [List.getD] using this
      have := ih hi' hcont' hbefore'
      rw [this]
      simp [List.getD]

theorem levelSearchF_spec [Inhabited K] {st : EngineState K} {ids : List Nat} {k : K}
    (hconcat : SortedKeys (concatEntries st ids))
    (hne : ∀ id ∈ ids, (st.ssts id).entries ≠ []) :
    ∀ (n left right : Nat), right ≤ ids.length → right - left ≤ n →
      (∀ i, i < ids.length → sstContains (st.ssts (ids.getD i 0)) k →
        left ≤ i ∧ i < right) →
      levelSearchF st ids k n left right = specLevelGet st ids k := by
  intro n
  induction n with
  | zero =>
    intro left right hr hn hwin
    have hlr : ¬left < right := by omega
    simp only [levelSearchF, if_neg hlr]
    have : ∀ id ∈ ids, ¬sstContains (st.ssts id) k := by
      intro id hid hcont
      rcases List.mem_iff_getElem.mp hid with ⟨i, hilen, rfl⟩
      have : sstContains (st.ssts (ids.getD i 0)) k := by
        rw [List.getD_eq_getElem ids 0 hilen]
        exact hcont
      have := hwin i hilen this
      omega
    simp [specLevelGet, findContaining_eq_none this]
  | succ n ih =>
    intro left right hr hn hwin
    by_cases hlr : left < right
    · simp only [levelSearchF, if_pos hlr]
      set mid := left + (right - left) / 2 with hmid
      have hmidlt : mid < right := by omega
      have hmidlen : mid < ids.length := by omega
      by_cases hcont : sstContains (st.ssts (ids.getD mid 0)) k
      · simp only [if_pos hcont]
        have hspec : findContaining st k ids = some (st.ssts (ids.getD mid 0)) := by
          refine findContaining_eq_some hmidlen hcont ?_
          intro j hj hcj
          have hjlen : j < ids.length := by omega
          exact sstContains_unique hconcat hne hjlen hmidlen (by omega) hcj hcont
        simp only [specLevelGet, hspec]
      · simp only [if_neg hcont]
        have hsorted := concat_parts_sorted hconcat (getD_mem_of_lt hmidlen)
        have hne' := hne _ (getD_mem_of_lt hmidlen)
        have hfl := firstKey_le_lastKey hsorted hne'
        by_cases hlast : (st.ssts (ids.getD mid 0)).lastKey < k
        · simp only [if_pos hlast]
          refine ih (mid + 1) right hr (by omega) ?_
          intro i hilen hci
          rcases hwin i hilen hci with ⟨h1, h2⟩
          refine ⟨?_, h2⟩
          by_contra hcon
          rcases Nat.lt_or_ge i mid with hlt | hge
          · have hcross := cross_first_last hconcat hne hilen hmidlen hlt
            have hkk : k < k :=
              lt_of_le_of_lt hci.2 (hcross.trans_le (hfl.trans (le_of_lt hlast)))
            exact absurd hkk (lt_irrefl k)
          · have heq : i = mid := by omega
            exact hcont (heq ▸ hci)
        · simp only [if_neg hlast]
          refine ih left mid (by omega) (by omega) ?_
          intro i hilen hci
          rcases hwin i hilen hci with ⟨h1, h2⟩
          refine ⟨h1, ?_⟩
          by_contra hcon
          rcases Nat.lt_or_ge mid i with hlt | hge2
          · have hcross := cross_first_last hconcat hne hmidlen hilen hlt
            have hk1 : k < (st.ssts (ids.getD mid 0)).firstKey := by
              rcases not_and_or.mp hcont with h | h
              · exact lt_of_not_le h
              · exact absurd (le_of_not_lt hlast) h
            have hkk : k < k :=
              lt_of_lt_of_le (lt_of_lt_of_le hk1 (hfl.trans (le_of_lt hcross))) hci.1
            exact absurd hkk (lt_irrefl k)
          · have heq : i = mid := by omega
            exact hcont (heq ▸ hci)
    · simp only [levelSearchF, if_neg hlr]
      have : ∀ id ∈ ids, ¬sstContains (st.ssts id) k := by
        intro id hid hcont
        rcases List.mem_iff_getElem.mp hid with ⟨i, hilen, rfl⟩
        have : sstContains (st.ssts (ids.getD i 0)) k := by
          rw [List.getD_eq_getElem ids 0 hilen]
          exact hcont
        have := hwin i hilen this
        omega
      simp [specLevelGet, findContaining_eq_none this]

theorem levelSearch_eq_specLevelGet [Inhabited K] {st : EngineState K} {ids : List Nat}
    {k : K} (hconcat : SortedKeys (concatEntries st ids))
    (hne : ∀ id ∈ ids, (st.ssts id).entries ≠ []) :
    levelSearch st ids k = specLevelGet st ids k :=
  levelSearchF_spec hconcat hne ids.length 0 ids.length (le_refl _) (by omega)
    (fun i hi _ => ⟨Nat.zero_le i, hi⟩)

theorem levelsGet_eq_spec [Inhabited K] {st : EngineState K} {k : K} :
    ∀ {ls : List Nat},
      (∀ l ∈ ls, SortedKeys (concatEntries st (st.levels l)) ∧
        ∀ id ∈ st.levels l, (st.ssts id).entries ≠ []) →
      levelsGet st k ls = specLevelsGet st k ls := by
  intro ls
  induction ls with
  | nil => intro _; rfl
  | cons l ls ih =>
    intro h
    rcases h l (List.mem_cons_self l ls) with ⟨h1, h2⟩
    simp only [levelsGet, specLevelsGet, levelSearch_eq_specLevelGet h1 h2]
    cases specLevelGet st (st.levels l) k with
    | none => exact ih (fun l' hl' => h l' (List.mem_cons_of_mem _ hl'))
    | some r => rfl

theorem lsmGet_eq_specGet [Inhabited K] {st : EngineState K} (k : K)
    (hlv : ∀ l : Nat, 1 ≤ l → SortedKeys (concatEntries st (st.levels l)))
    (hne : ∀ l : Nat, 1 ≤ l → ∀ id ∈ st.levels l, (st.ssts id).entries ≠ []) :
    lsmGet st k = specGet st k := by
  unfold lsmGet specGet
  cases mtGet st.memtable k with
  | some v => rfl
  | none =>
    cases l0GetScan st (st.levels 0) k with
    | some r => rfl
    | none =>
      simp only
      refine levelsGet_eq_spec ?_
      intro l hl
      have h1 : 1 ≤ l := by
        rcases List.mem_range'.mp hl with ⟨i, _, rfl⟩
        omega
      exact ⟨hlv l h1, hne l h1⟩

theorem findContaining_some_mem [Inhabited K] {st : EngineState K} {k : K}
    {ids : List Nat} {s : SSTm K} (h : findContaining st k ids = some s) :
    ∃ id ∈ ids, s = st.ssts id ∧ sstContains s k := by
  induction ids with
  | nil => simp [findContaining] at h
  | cons id rest ih =>
    by_cases hc : sstContains (st.ssts id) k
    · simp only [findContaining, if_pos hc, Option.some.injEq] at h
      exact ⟨id, List.mem_cons_self id rest, h.symm, h ▸ hc⟩
    · simp only [findContaining, if_neg hc] at h
      rcases ih h with ⟨id', hid', h1, h2⟩
      exact ⟨id', List.mem_cons_of_mem _ hid', h1, h2⟩

theorem l0GetScan_eq_none {st : EngineState K} {k : K} {ids : List Nat}
    (h : ∀ id ∈ ids, (st.ssts id).get k = none) : l0GetScan st ids k = none := by
  induction ids with
  | nil => rfl
  | cons id rest ih =>
    simp only [l0GetScan, h id (List.mem_cons_self id rest)]
    exact ih (fun id' hid' => h id' (List.mem_cons_of_mem _ hid'))

theorem l0GetScan_hit {st : EngineState K} {k : K} {v : Value} {ids : List Nat}
    {w : K → Option Value}
    (hcons : ∀ id ∈ ids, ∀ e ∈ (st.ssts id).entries, w e.1 = some e.2)
    (hw : w k = some v) (hloc : ∃ id ∈ ids, k ∈ keysOf (st.ssts id).entries) :
    l0GetScan st ids k = some (liveValue v) := by
  induction ids with
  | nil => simp at hloc
  | cons id rest ih =>
    cases hg : (st.ssts id).get k with
    | some v' =>
      have hrec := slGet_eq_some_mem hg
      have := hcons id (List.mem_cons_self id rest) _ hrec
      rw [hw] at this
      simp only [l0GetScan, hg]
      simp only [Option.some.injEq] at this
      rw [this]
    | none =>
      simp only [l0GetScan, hg]
      refine ih (fun id' hid' => hcons id' (List.mem_cons_of_mem _ hid')) ?_
      rcases hloc with ⟨id', hid', hk⟩
      rcases List.mem_cons.mp hid' with rfl | hid'
      · exact absurd hk (slGet_eq_none_iff.mp hg)
      · exact ⟨id', hid', hk⟩

theorem specLevelGet_eq_none_of [Inhabited K] {st : EngineState K} {ids : List Nat}
    {k : K} (hnone : ∀ id ∈ ids, (st.ssts id).get k = none) :
    specLevelGet st ids k = none := by
  unfold specLevelGet
  rcases Option.eq_none_or_eq_some (findContaining st k ids) with hfc | ⟨s, hfc⟩
  · rw [hfc]
  · rcases findContaining_some_mem hfc with ⟨id, hid, heq, _⟩
    rw [hfc]
    show (match s.get k with
      | some v => some (liveValue v)
      | none => none) = none
    rw [heq, hnone id hid]

theorem specLevelsGet_eq_none [Inhabited K] {st : EngineState K} {k : K} :
    ∀ {ls : List Nat},
      (∀ l ∈ ls, ∀ id ∈ st.levels l, (st.ssts id).get k = none) →
      specLevelsGet st k ls = none := by
  intro ls
  induction ls with
  | nil => intro _; rfl
  | cons l ls ih =>
    intro h
    have hrest := ih (fun l' hl' => h l' (List.mem_cons_of_mem _ hl'))
    have hlev := specLevelGet_eq_none_of (h l (List.mem_cons_self l ls))
    simp only [specLevelsGet]
    rw [hlev]
    exact hrest

theorem specLevelGet_hit_level [Inhabited K] {st : EngineState K} {k : K} {v : Value}
    {ids : List Nat} {w : K → Option Value}
    (hconcat : SortedKeys (concatEntries st ids))
    (hnen : ∀ id ∈ ids, (st.ssts id).entries ≠ [])
    (hcons : ∀ id ∈ ids, ∀ e ∈ (st.ssts id).entries, w e.1 = some e.2)
    (hw : w k = some v) (hloc : ∃ id ∈ ids, k ∈ keysOf (st.ssts id).entries) :
    specLevelGet st ids k = some (liveValue v) := by
  rcases hloc with ⟨id, hid, hk⟩
  rcases List.mem_iff_getElem.mp hid with ⟨i, hilen, rfl⟩
  have hgetd : ids.getD i 0 = ids[i] := List.getD_eq_getElem ids 0 hilen
  have hsorted : SortedKeys (st.ssts ids[i]).entries :=
    concat_parts_sorted hconcat hid
  have hcont : sstContains (st.ssts (ids.getD i 0)) k := by
    rw [hgetd]
    exact sstContains_of_mem hsorted hk
  have hfc : findContaining st k ids = some (st.ssts (ids.getD i 0)) := by
    refine findContaining_eq_some hilen hcont ?_
    intro j hj hcj
    exact sstContains_unique hconcat hnen (by omega) hilen (by omega) hcj hcont
  rcases slGet_isSome_of_mem hk with ⟨v', hv'⟩
  have hrec := slGet_eq_some_mem hv'
  have heq := hcons _ hid _ hrec
  rw [hw] at heq
  simp only [Option.some.injEq] at heq
  subst heq
  simp only [specLevelGet, hfc, hgetd, SSTm.get, hv']

theorem specLevelsGet_hit [Inhabited K] {st : EngineState K} {k : K} {v : Value}
    {w : K → Option Value} :
    ∀ {ls : List Nat},
      (∀ l ∈ ls, SortedKeys (concatEntries st (st.levels l)) ∧
        ∀ id ∈ st.levels l, (st.ssts id).entries ≠ []) →
      (∀ l ∈ ls, ∀ id ∈ st.levels l, ∀ e ∈ (st.ssts id).entries, w e.1 = some e.2) →
      w k = some v →
      (∃ l ∈ ls, ∃ id ∈ st.levels l, k ∈ keysOf (st.ssts id).entries) →
      specLevelsGet st k ls = liveValue v := by
  intro ls
  induction ls with
  | nil => intro _ _ _ hloc; simp at hloc
  | cons l ls ih =>
    intro hwf hcons hw hloc
    by_cases hhere : ∃ id ∈ st.levels l, k ∈ keysOf (st.ssts id).entries
    · rcases hwf l (List.mem_cons_self l ls) with ⟨h1, h2⟩
      have hlev := specLevelGet_hit_level h1 h2
        (hcons l (List.mem_cons_self l ls)) hw hhere
      simp only [specLevelsGet]
      rw [hlev]
    · have hnone : ∀ id ∈ st.levels l, (st.ssts id).get k = none := by
        intro id hid
        rw [SSTm.get, slGet_eq_none_iff]
        intro hk
        exact hhere ⟨id, hid, hk⟩
      have hrest : specLevelsGet st k ls = liveValue v := by
        refine ih (fun l' hl' => hwf l' (List.mem_cons_of_mem _ hl'))
          (fun l' hl' => hcons l' (List.mem_cons_of_mem _ hl')) hw ?_
        rcases hloc with ⟨l', hl', hloc'⟩
        rcases List.mem_cons.mp hl' with rfl | hl'
        · exact absurd hloc' hhere
        · exact ⟨l', hl', hloc'⟩
      simp only [specLevelsGet]
      rw [specLevelGet_eq_none_of hnone]
      exact hrest

theorem specGet_correct [Inhabited K] {C : LsmConf K} {w : K → Option Value}
    {st : EngineState K} (inv : EngineInv C w st) (k : K) :
    specGet st k = (w k).bind liveValue := by
  cases hw : w k with
  | none =>
    have hmt : mtGet st.memtable k = none := by
      cases hm : mtGet st.memtable k with
      | none => rfl
      | some v =>
        rcases mtGet_some_mem hm with ⟨t, ht, hmem⟩
        have := inv.mtConsistent t ht _ hmem
        rw [hw] at this
        exact absurd this (by simp)
    have hsst : ∀ l : Nat, ∀ id ∈ st.levels l, (st.ssts id).get k = none := by
      intro l id hid
      cases hg : (st.ssts id).get k with
      | none => rfl
      | some v =>
        have := inv.sstConsistent l id hid _ (slGet_eq_some_mem hg)
        rw [hw] at this
        exact absurd this (by simp)
    unfold specGet
    rw [hmt, l0GetScan_eq_none (fun id hid => hsst 0 id hid),
      specLevelsGet_eq_none (fun l _ id hid => hsst l id hid)]
    rfl
  | some v =>
    cases hm : mtGet st.memtable k with
    | some v' =>
      rcases mtGet_some_mem hm with ⟨t, ht, hmem⟩
      have hcv := inv.mtConsistent t ht _ hmem
      rw [hw] at hcv
      simp only [Option.some.injEq] at hcv
      unfold specGet
      rw [hm, hcv]
      rfl
    | none =>
      have hnotmt := mtGet_eq_none_iff.mp hm
      rcases inv.complete k v hw with ⟨t, ht, hk⟩ | ⟨l, id, hid, hk⟩
      · exact absurd hk (hnotmt t ht)
      · by_cases h0 : ∃ id ∈ st.levels 0, k ∈ keysOf (st.ssts id).entries
        · have hscan := l0GetScan_hit (fun id hid => inv.sstConsistent 0 id hid) hw h0
          unfold specGet
          rw [hm, hscan]
          rfl
        · have hscan : l0GetScan st (st.levels 0) k = none := by
            refine l0GetScan_eq_none ?_
            intro id' hid'
            rw [SSTm.get, slGet_eq_none_iff]
            intro hk'
            exact h0 ⟨id', hid', hk'⟩
          have hl1 : 1 ≤ l := by
            rcases Nat.eq_zero_or_pos l with rfl | h
            · exact absurd ⟨id, hid, hk⟩ h0
            · exact h
          have hlmax : l ≤ st.curMaxLevel := by
            by_contra hcon
            have := inv.hiEmpty l (by omega)
            rw [this] at hid
            simp at hid
          have hmem : l ∈ List.range' 1 st.curMaxLevel := by
            rw [List.mem_range']
            exact ⟨l - 1, by omega, by omega⟩
          have hwf : ∀ l' ∈ List.range' 1 st.curMaxLevel,
              SortedKeys (concatEntries st (st.levels l')) ∧
              ∀ id' ∈ st.levels l', (st.ssts id').entries ≠ [] := by
            intro l' hl'
            have h1 : 1 ≤ l' := by
              rcases List.mem_range'.mp hl' with ⟨i, _, rfl⟩
              omega
            exact ⟨inv.levelSorted l' h1, inv.levelNonempty l' h1⟩
          have hcons : ∀ l' ∈ List.range' 1 st.curMaxLevel, ∀ id' ∈ st.levels l',
              ∀ e ∈ (st.ssts id').entries, w e.1 = some e.2 :=
            fun l' _ id' hid' => inv.sstConsistent l' id' hid'
          have hhit := specLevelsGet_hit hwf hcons hw ⟨l, hmem, id, hid, hk⟩
          unfold specGet
          rw [hm, hscan, hhit]
          rfl

theorem lsmGet_correct [Inhabited K] {C : LsmConf K} {w : K → Option Value}
    {st : EngineState K} (inv : EngineInv C w st) (k : K) :
    lsmGet st k = (w k).bind liveValue := by
  rw [lsmGet_eq_specGet k inv.levelSorted inv.levelNonempty]
  exact specGet_correct inv k

theorem sstEntrySize_pos (C : LsmConf K) (e : Entry K) : 0 < sstEntrySize C e := by
  simp [sstEntrySize]

theorem compactMerged_sorted [Inhabited K] {C : LsmConf K} {w : K → Option Value}
    {st1 : EngineState K} (inv : EngineInv C w st1) (src : Nat) :
    SortedKeys (compactMerged st1 src (st1.levels src) (st1.levels (src + 1))) := by
  unfold compactMerged
  by_cases h : src = 0
  · subst h
    rw [if_pos rfl]
    exact twoMerge_sortedKeys (heapMergePairs_sortedKeys _) (inv.levelSorted 1 (by omega))
  · rw [if_neg h]
    exact twoMerge_sortedKeys (inv.levelSorted src (by omega))
      (inv.levelSorted (src + 1) (by omega))

theorem compactMerged_rec [Inhabited K] {st1 : EngineState K} {src : Nat} {e : Entry K}
    (he : e ∈ compactMerged st1 src (st1.levels src) (st1.levels (src + 1))) :
    ∃ id, (id ∈ st1.levels src ∨ id ∈ st1.levels (src + 1)) ∧
      e ∈ (st1.ssts id).entries := by
  unfold compactMerged at he
  by_cases h : src = 0
  · rw [if_pos h] at he
    rcases twoMerge_mem he with h1 | h1
    · rcases heapMergePairs_mem h1 with ⟨it, hit, hk, hv⟩
      rcases mem_sstItemsOfL0.mp hit with ⟨id, hid, e', he', hmk⟩
      refine ⟨id, Or.inl hid, ?_⟩
      have h1' : e'.1 = e.1 := by rw [hmk] at hk; exact hk
      have h2' : e'.2 = e.2 := by rw [hmk] at hv; exact hv
      have heq : e' = e := Prod.ext h1' h2'
      rw [← heq]
      exact he'
    · rcases mem_concatEntries.mp h1 with ⟨id, hid, he'⟩
      exact ⟨id, Or.inr hid, he'⟩
  · rw [if_neg h] at he
    rcases twoMerge_mem he with h1 | h1
    · rcases mem_concatEntries.mp h1 with ⟨id, hid, he'⟩
      exact ⟨id, Or.inl hid, he'⟩
    · rcases mem_concatEntries.mp h1 with ⟨id, hid, he'⟩
      exact ⟨id, Or.inr hid, he'⟩

theorem compactMerged_keys [Inhabited K] {st1 : EngineState K} {src : Nat} {id : Nat}
    {k : K} (hid : id ∈ st1.levels src ∨ id ∈ st1.levels (src + 1))
    (hk : k ∈ keysOf (st1.ssts id).entries) :
    k ∈ keysOf (compactMerged st1 src (st1.levels src) (st1.levels (src + 1))) := by
  unfold compactMerged
  by_cases h : src = 0
  · rw [if_pos h]
    rcases hid with hid | hid
    · refine twoMerge_keys (Or.inl ?_)
      rcases List.mem_map.mp hk with ⟨e, he, rfl⟩
      have hit : SearchItem.mk e.1 e.2 (-(id : Int)) 0 ∈
          sstItemsOfL0 st1 (st1.levels src) :=
        mem_sstItemsOfL0.mpr ⟨id, hid, e, he, rfl⟩
      exact heapMergePairs_keys hit
    · exact twoMerge_keys (Or.inr (keysOf_concatEntries.mpr ⟨id, hid, hk⟩))
  · rw [if_neg h]
    rcases hid with hid | hid
    · exact twoMerge_keys (Or.inl (keysOf_concatEntries.mpr ⟨id, hid, hk⟩))
    · exact twoMerge_keys (Or.inr (keysOf_concatEntries.mpr ⟨id, hid, hk⟩))

theorem compactNewIds_eq_range (C : LsmConf K) (src : Nat) (st1 : EngineState K) :
    compactNewIds C src st1 =
      List.range' st1.curMaxSstId (compactChunks C src st1).length :=
  map_sstId_assignIds _ _

theorem compactNewIds_nodup (C : LsmConf K) (src : Nat) (st1 : EngineState K) :
    (compactNewIds C src st1).Nodup := by
  rw [compactNewIds_eq_range]
  exact List.nodup_range' _ _

theorem sortNatAsc_compactNewIds (C : LsmConf K) (src : Nat) (st1 : EngineState K) :
    sortNatAsc (compactNewIds C src st1) = compactNewIds C src st1 := by
  rw [compactNewIds_eq_range]
  apply List.Sorted.insertionSort_eq
  have := List.pairwise_lt_range' st1.curMaxSstId (compactChunks C src st1).length
  exact this.imp le_of_lt

theorem compactNewIds_bounds {C : LsmConf K} {src : Nat} {st1 : EngineState K} {id : Nat}
    (h : id ∈ compactNewIds C src st1) :
    st1.curMaxSstId ≤ id ∧ id < st1.curMaxSstId + (compactChunks C src st1).length := by
  rw [compactNewIds_eq_range] at h
  rcases List.mem_range'.mp h with ⟨i, hi, rfl⟩
  omega

theorem assignIds_exists {i : Nat} {cs : List (List (Entry K))} {c : List (Entry K)}
    (hc : c ∈ cs) : ∃ s ∈ assignIds i cs, s.entries = c := by
  induction cs generalizing i with
  | nil => simp at hc
  | cons c0 cs ih =>
    rcases List.mem_cons.mp hc with rfl | hc
    · exact ⟨⟨i, c⟩, by simp [assignIds], rfl⟩
    · rcases ih (i := i + 1) hc with ⟨s, hs, hent⟩
      exact ⟨s, by simp [assignIds, hs], hent⟩

theorem compactBody_memtable (C : LsmConf K) (src : Nat) (st1 : EngineState K) :
    (compactBody C src st1).memtable = st1.memtable := rfl

theorem compactBody_curMaxSstId (C : LsmConf K) (src : Nat) (st1 : EngineState K) :
    (compactBody C src st1).curMaxSstId =
      st1.curMaxSstId + (compactChunks C src st1).length := by
  show st1.curMaxSstId + (compactNewSsts C src st1).length = _
  rw [compactNewSsts, length_assignIds]

theorem compactBody_curMaxLevel (C : LsmConf K) (src : Nat) (st1 : EngineState K) :
    (compactBody C src st1).curMaxLevel = max st1.curMaxLevel (src + 1) := rfl

theorem compactBody_levels (C : LsmConf K) (src : Nat) (st1 : EngineState K) (l : Nat) :
    (compactBody C src st1).levels l =
      if l = src + 1 then compactNewIds C src st1
      else if l = src then [] else st1.levels l := by
  show updFn (updFn st1.levels src []) (src + 1) (sortNatAsc (compactNewIds C src st1)) l
    = _
  rw [sortNatAsc_compactNewIds]
  by_cases h1 : l = src + 1
  · rw [if_pos h1, h1, updFn_self]
  · rw [if_neg h1, updFn_ne _ _ h1]
    by_cases h2 : l = src
    · rw [if_pos h2, h2, updFn_self]
    · rw [if_neg h2, updFn_ne _ _ h2]

theorem compactBody_ssts_new [Inhabited K] {C : LsmConf K} {src : Nat}
    {st1 : EngineState K} {s : SSTm K} (hs : s ∈ compactNewSsts C src st1) :
    (compactBody C src st1).ssts s.sstId = s := by
  show ((compactNewSsts C src st1).foldl (fun f s => updFn f s.sstId s) _) s.sstId = s
  exact foldUpd_mem _ hs (compactNewIds_nodup C src st1)

theorem compactBody_ssts_untouched {C : LsmConf K} {src : Nat} {st1 : EngineState K}
    {id : Nat} (h1 : id ∉ compactNewIds C src st1) (h2 : id ∉ st1.levels src)
    (h3 : id ∉ st1.levels (src + 1)) :
    (compactBody C src st1).ssts id = st1.ssts id := by
  show ((compactNewSsts C src st1).foldl (fun f s => updFn f s.sstId s)
    (fun id => if id ∈ st1.levels src ∨ id ∈ st1.levels (src + 1) then sstDefault
      else st1.ssts id)) id = st1.ssts id
  rw [foldUpd_notMem]
  · simp only [if_neg (show ¬(id ∈ st1.levels src ∨ id ∈ st1.levels (src + 1)) from
      fun h => h.elim h2 h3)]
  · intro s hs heq
    exact h1 (heq ▸ List.mem_map_of_mem SSTm.sstId hs)

theorem compactBody_concat_new [Inhabited K] (C : LsmConf K) (src : Nat)
    (st1 : EngineState K) :
    concatEntries (compactBody C src st1) (compactNewIds C src st1) =
      compactMerged st1 src (st1.levels src) (st1.levels (src + 1)) := by
  unfold concatEntries
  rw [compactNewIds, List.map_map]
  have hmap : (compactNewSsts C src st1).map
      ((fun id => ((compactBody C src st1).ssts id).entries) ∘ SSTm.sstId) =
      (compactNewSsts C src st1).map SSTm.entries := by
    refine List.map_congr_left ?_
    intro s hs
    simp only [Function.comp_apply, compactBody_ssts_new hs]
  rw [hmap, compactNewSsts, map_entries_assignIds]
  exact flatten_genChunks _ (sstEntrySize_pos C) _ _

theorem compactNewSsts_entries_facts [Inhabited K] {C : LsmConf K} {w : K → Option Value}
    {src : Nat} {st1 : EngineState K} (inv : EngineInv C w st1) {s : SSTm K}
    (hs : s ∈ compactNewSsts C src st1) :
    s.entries ≠ [] ∧ SortedKeys s.entries ∧
      ∀ e ∈ s.entries, e ∈ compactMerged st1 src (st1.levels src) (st1.levels (src + 1)) := by
  have hchunk : s.entries ∈ compactChunks C src st1 := (mem_assignIds hs).1
  have hflat := flatten_genChunks (sstEntrySize C) (sstEntrySize_pos C)
    (compactTargetSize C src)
    (compactMerged st1 src (st1.levels src) (st1.levels (src + 1)))
  refine ⟨ne_nil_of_mem_genChunks (sstEntrySize_pos C) hchunk, ?_, ?_⟩
  · have hsorted : SortedKeys (compactChunks C src st1).flatten := by
      rw [compactChunks, hflat]
      exact compactMerged_sorted inv src
    exact (List.pairwise_flatten.mp hsorted).1 _ hchunk
  · intro e he
    have : e ∈ (compactChunks C src st1).flatten :=
      List.mem_flatten.mpr ⟨s.entries, hchunk, he⟩
    rw [compactChunks, hflat] at this
    exact this

theorem compactMerged_keys_to_new [Inhabited K] {C : LsmConf K} {src : Nat}
    {st1 : EngineState K} {k : K}
    (hk : k ∈ keysOf (compactMerged st1 src (st1.levels src) (st1.levels (src + 1)))) :
    ∃ s ∈ compactNewSsts C src st1, k ∈ keysOf s.entries := by
  have hflat := flatten_genChunks (sstEntrySize C) (sstEntrySize_pos C)
    (compactTargetSize C src)
    (compactMerged st1 src (st1.levels src) (st1.levels (src + 1)))
  rcases List.mem_map.mp hk with ⟨e, he, rfl⟩
  have he' : e ∈ (compactChunks C src st1).flatten := by
    rw [compactChunks, hflat]
    exact he
  rcases List.mem_flatten.mp he' with ⟨c, hc, hec⟩
  rcases assignIds_exists (i := st1.curMaxSstId) hc with ⟨s, hs, hent⟩
  exact ⟨s, hs, List.mem_map_of_mem _ (hent ▸ hec)⟩

theorem compactBody_inv [Inhabited K] {C : LsmConf K} {w : K → Option Value}
    {st1 : EngineState K} (src : Nat) (inv : EngineInv C w st1) :
    EngineInv C w (compactBody C src st1) := by
  have huntouched : ∀ l, l ≠ src → l ≠ src + 1 → ∀ id ∈ st1.levels l,
      (compactBody C src st1).ssts id = st1.ssts id := by
    intro l hl1 hl2 id hid
    refine compactBody_ssts_untouched ?_ ?_ ?_
    · intro hmem
      rcases compactNewIds_bounds hmem with ⟨hlb, _⟩
      have := inv.idsBelow l id hid
      omega
    · exact inv.levelsDisjoint l src hl1 id hid
    · exact inv.levelsDisjoint l (src + 1) hl2 id hid
  have hlevels := compactBody_levels C src st1
  have hnewmem : ∀ id ∈ compactNewIds C src st1, ∃ s ∈ compactNewSsts C src st1,
      s.sstId = id ∧ (compactBody C src st1).ssts id = s := by
    intro id hid
    rcases List.mem_map.mp hid with ⟨s, hs, rfl⟩
    exact ⟨s, hs, rfl, compactBody_ssts_new hs⟩
  refine ⟨inv.activeSorted, inv.frozenSorted, inv.activeSmall, inv.mtConsistent,
    ?_, ?_, ?_, ?_, ?_, ?_, ?_, ?_⟩
  · -- sstConsistent
    intro l id hid e he
    rw [hlevels] at hid
    by_cases h1 : l = src + 1
    · rw [if_pos h1] at hid
      rcases hnewmem id hid with ⟨s, hs, rfl, hlook⟩
      rw [hlook] at he
      have hme := (compactNewSsts_entries_facts inv hs).2.2 e he
      rcases compactMerged_rec hme with ⟨id', hid', he'⟩
      rcases hid' with hid' | hid'
      · exact inv.sstConsistent src id' hid' e he'
      · exact inv.sstConsistent (src + 1) id' hid' e he'
    · rw [if_neg h1] at hid
      by_cases h2 : l = src
      · rw [if_pos h2] at hid; simp at hid
      · rw [if_neg h2] at hid
        rw [huntouched l h2 h1 id hid] at he
        exact inv.sstConsistent l id hid e he
  · -- complete
    intro k v hw
    rcases inv.complete k v hw with hmem | ⟨l, id, hid, hk⟩
    · exact Or.inl hmem
    · by_cases hsrc : l = src ∨ l = src + 1
      · have hidm : id ∈ st1.levels src ∨ id ∈ st1.levels (src + 1) := by
          rcases hsrc with rfl | rfl
          · exact Or.inl hid
          · exact Or.inr hid
        have hkm := compactMerged_keys hidm hk
        rcases compactMerged_keys_to_new (C := C) hkm with ⟨s, hs, hks⟩
        refine Or.inr ⟨src + 1, s.sstId, ?_, ?_⟩
        · rw [hlevels, if_pos rfl]
          exact List.mem_map_of_mem _ hs
        · rw [compactBody_ssts_new hs]
          exact hks
      · push_neg at hsrc
        refine Or.inr ⟨l, id, ?_, ?_⟩
        · rw [hlevels, if_neg hsrc.2, if_neg hsrc.1]
          exact hid
        · rw [huntouched l hsrc.1 hsrc.2 id hid]
          exact hk
  · -- levelSorted
    intro l hl
    by_cases h1 : l = src + 1
    · subst h1
      rw [hlevels, if_pos rfl, compactBody_concat_new]
      exact compactMerged_sorted inv src
    · by_cases h2 : l = src
      · subst h2
        rw [hlevels, if_neg h1, if_pos rfl]
        simp [concatEntries, SortedKeys]
      · rw [hlevels, if_neg h1, if_neg h2,
          concatEntries_congr (fun id hid => huntouched l h2 h1 id hid)]
        exact inv.levelSorted l hl
  · -- levelNonempty
    intro l hl id hid
    rw [hlevels] at hid
    by_cases h1 : l = src + 1
    · rw [if_pos h1] at hid
      rcases hnewmem id hid with ⟨s, hs, rfl, hlook⟩
      rw [hlook]
      exact (compactNewSsts_entries_facts inv hs).1
    · rw [if_neg h1] at hid
      by_cases h2 : l = src
      · rw [if_pos h2] at hid; simp at hid
      · rw [if_neg h2] at hid
        rw [huntouched l h2 h1 id hid]
        exact inv.levelNonempty l hl id hid
  · -- l0Sorted
    intro id hid
    rw [hlevels] at hid
    have h1 : (0 : Nat) ≠ src + 1 := by omega
    rw [if_neg h1] at hid
    by_cases h2 : (0 : Nat) = src
    · rw [if_pos h2] at hid; simp at hid
    · rw [if_neg h2] at hid
      rw [huntouched 0 h2 h1 id hid]
      exact inv.l0Sorted id hid
  · -- idsBelow
    intro l id hid
    rw [hlevels] at hid
    rw [compactBody_curMaxSstId]
    by_cases h1 : l = src + 1
    · rw [if_pos h1] at hid
      exact (compactNewIds_bounds hid).2
    · rw [if_neg h1] at hid
      by_cases h2 : l = src
      · rw [if_pos h2] at hid; simp at hid
      · rw [if_neg h2] at hid
        have := inv.idsBelow l id hid
        omega
  · -- hiEmpty
    intro l hl
    rw [compactBody_curMaxLevel] at hl
    rw [hlevels]
    have h1 : l ≠ src + 1 := by omega
    have h2 : l ≠ src := by omega
    rw [if_neg h1, if_neg h2]
    exact inv.hiEmpty l (by omega)
  · -- levelsDisjoint
    intro l l' hne id hid hid'
    rw [hlevels] at hid hid'
    by_cases h1 : l = src + 1
    · rw [if_pos h1] at hid
      rcases compactNewIds_bounds hid with ⟨hlb, _⟩
      by_cases h1' : l' = src + 1
      · exact hne (h1.trans h1'.symm)
      · rw [if_neg h1'] at hid'
        by_cases h2' : l' = src
        · rw [if_pos h2'] at hid'; simp at hid'
        · rw [if_neg h2'] at hid'
          have := inv.idsBelow l' id hid'
          omega
    · rw [if_neg h1] at hid
      by_cases h2 : l = src
      · rw [if_pos h2] at hid; simp at hid
      · rw [if_neg h2] at hid
        by_cases h1' : l' = src + 1
        · rw [if_pos h1'] at hid'
          rcases compactNewIds_bounds hid' with ⟨hlb, _⟩
          have := inv.idsBelow l id hid
          omega
        · rw [if_neg h1'] at hid'
          by_cases h2' : l' = src
          · rw [if_pos h2'] at hid'; simp at hid'
          · rw [if_neg h2'] at hid'
            exact inv.levelsDisjoint l l' hne id hid hid'

theorem fullCompact_inv [Inhabited K] {C : LsmConf K} {w : K → Option Value} :
    ∀ (fuel src : Nat) {st : EngineState K}, EngineInv C w st →
      EngineInv C w (fullCompact C fuel src st) := by
  intro fuel
  induction fuel with
  | zero => intro src st inv; exact inv
  | succ fuel ih =>
    intro src st inv
    show EngineInv C w (compactBody C src _)
    by_cases h : C.sstLevelRatio ≤ (st.levels (src + 1)).length
    · rw [if_pos h]
      exact compactBody_inv src (ih (src + 1) inv)
    · rw [if_neg h]
      exact compactBody_inv src inv

theorem fullCompact_memtable (C : LsmConf K) :
    ∀ (fuel src : Nat) (st : EngineState K),
      (fullCompact C fuel src st).memtable = st.memtable := by
  intro fuel
  induction fuel with
  | zero => intro src st; rfl
  | succ fuel ih =>
    intro src st
    show (compactBody C src _).memtable = st.memtable
    rw [compactBody_memtable]
    split
    · exact ih (src + 1) st
    · rfl

theorem flushResult_inv [Inhabited K] {C : LsmConf K} {w : K → Option Value}
    {st1 : EngineState K} {oldest : List (Entry K)} (inv : EngineInv C w st1)
    (hlast : st1.memtable.frozen.getLast? = some oldest) :
    EngineInv C w (flushResult st1 oldest) := by
  have hdecomp : st1.memtable.frozen.dropLast ++ [oldest] = st1.memtable.frozen :=
    List.dropLast_append_getLast? oldest (by rw [hlast]; simp)
  have holdmem : oldest ∈ st1.memtable.frozen := by
    rw [← hdecomp]
    simp
  have hsplit : ∀ t ∈ st1.memtable.frozen, t ∈ st1.memtable.frozen.dropLast ∨ t = oldest := by
    intro t ht
    rw [← hdecomp] at ht
    rcases List.mem_append.mp ht with h | h
    · exact Or.inl h
    · exact Or.inr (by simpa using h)
  have hdropsub : ∀ t ∈ st1.memtable.frozen.dropLast, t ∈ st1.memtable.frozen :=
    fun t ht => (List.dropLast_sublist _).subset ht
  have hlevels : ∀ l : Nat, (flushResult st1 oldest).levels l =
      if l = 0 then st1.curMaxSstId :: st1.levels 0 else st1.levels l := by
    intro l
    show updFn st1.levels 0 (st1.curMaxSstId :: st1.levels 0) l = _
    by_cases h : l = 0
    · rw [if_pos h, h, updFn_self]
    · rw [if_neg h, updFn_ne _ _ h]
  have hssts_old : ∀ id, id ≠ st1.curMaxSstId →
      (flushResult st1 oldest).ssts id = st1.ssts id := by
    intro id hid
    exact updFn_ne _ _ hid
  have hssts_new : (flushResult st1 oldest).ssts st1.curMaxSstId =
      ⟨st1.curMaxSstId, oldest⟩ := updFn_self _ _ _
  have hid_ne : ∀ l : Nat, ∀ id ∈ st1.levels l, id ≠ st1.curMaxSstId :=
    fun l id hid => ne_of_lt (inv.idsBelow l id hid)
  refine ⟨inv.activeSorted, ?_, inv.activeSmall, ?_, ?_, ?_, ?_, ?_, ?_, ?_, ?_, ?_⟩
  · -- frozenSorted
    intro t ht
    exact inv.frozenSorted t (hdropsub t ht)
  · -- mtConsistent
    intro t ht
    rcases List.mem_cons.mp ht with rfl | ht
    · exact inv.mtConsistent _ (List.mem_cons_self _ _)
    · exact inv.mtConsistent t (List.mem_cons_of_mem _ (hdropsub t ht))
  · -- sstConsistent
    intro l id hid e he
    rw [hlevels] at hid
    by_cases hl : l = 0
    · rw [if_pos hl] at hid
      rcases List.mem_cons.mp hid with rfl | hid
      · rw [hssts_new] at he
        exact inv.mtConsistent oldest (List.mem_cons_of_mem _ holdmem) e he
      · rw [hssts_old id (hid_ne 0 id hid)] at he
        exact inv.sstConsistent 0 id hid e he
    · rw [if_neg hl] at hid
      rw [hssts_old id (hid_ne l id hid)] at he
      exact inv.sstConsistent l id hid e he
  · -- complete
    intro k v hw
    rcases inv.complete k v hw with ⟨t, ht, hk⟩ | ⟨l, id, hid, hk⟩
    · rcases List.mem_cons.mp ht with rfl | ht
      · exact Or.inl ⟨_, List.mem_cons_self _ _, hk⟩
      · rcases hsplit t ht with hdrop | rfl
        · exact Or.inl ⟨t, List.mem_cons_of_mem _ hdrop, hk⟩
        · refine Or.inr ⟨0, st1.curMaxSstId, ?_, ?_⟩
          · rw [hlevels, if_pos rfl]
            exact List.mem_cons_self _ _
          · rw [hssts_new]
            exact hk
    · refine Or.inr ⟨l, id, ?_, ?_⟩
      · rw [hlevels]
        by_cases hl : l = 0
        · rw [if_pos hl, ← hl]
          exact List.mem_cons_of_mem _ hid
        · rw [if_neg hl]
          exact hid
      · rw [hssts_old id (hid_ne l id hid)]
        exact hk
  · -- levelSorted
    intro l hl
    have hl0 : l ≠ 0 := by omega
    rw [hlevels, if_neg hl0,
      concatEntries_congr (fun id hid => hssts_old id (hid_ne l id hid))]
    exact inv.levelSorted l hl
  · -- levelNonempty
    intro l hl id hid
    have hl0 : l ≠ 0 := by omega
    rw [hlevels, if_neg hl0] at hid
    rw [hssts_old id (hid_ne l id hid)]
    exact inv.levelNonempty l hl id hid
  · -- l0Sorted
    intro id hid
    rw [hlevels, if_pos rfl] at hid
    rcases List.mem_cons.mp hid with rfl | hid
    · rw [hssts_new]
      exact inv.frozenSorted oldest holdmem
    · rw [hssts_old id (hid_ne 0 id hid)]
      exact inv.l0Sorted id hid
  · -- idsBelow
    intro l id hid
    rw [hlevels] at hid
    show id < st1.curMaxSstId + 1
    by_cases hl : l = 0
    · rw [if_pos hl] at hid
      rcases List.mem_cons.mp hid with rfl | hid
      · omega
      · have := inv.idsBelow 0 id hid
        omega
    · rw [if_neg hl] at hid
      have := inv.idsBelow l id hid
      omega
  · -- hiEmpty
    intro l hl
    have hl1 : l ≠ 0 := by
      show l ≠ 0
      have : st1.curMaxLevel < l := hl
      omega
    rw [hlevels, if_neg hl1]
    exact inv.hiEmpty l hl
  · -- levelsDisjoint
    intro l l' hne id hid hid'
    rw [hlevels] at hid hid'
    by_cases hl : l = 0
    · rw [if_pos hl] at hid
      have hl' : l' ≠ 0 := fun h => hne (hl.trans h.symm)
      rw [if_neg hl'] at hid'
      rcases List.mem_cons.mp hid with rfl | hid
      · exact absurd hid' (by
          intro hmem
          exact absurd rfl (hid_ne l' _ hmem))
      · exact inv.levelsDisjoint 0 l' (hl ▸ hne) id hid hid'
    · rw [if_neg hl] at hid
      by_cases hl' : l' = 0
      · rw [if_pos hl'] at hid'
        rcases List.mem_cons.mp hid' with heq | hid'
        · exact absurd heq (hid_ne l id hid)
        · exact inv.levelsDisjoint l 0 (hl' ▸ hne) id hid hid'
      · rw [if_neg hl'] at hid'
        exact inv.levelsDisjoint l l' hne id hid hid'

theorem lsmFlushBody_inv [Inhabited K] {C : LsmConf K} {w : K → Option Value}
    {st1 : EngineState K} (inv1 : EngineInv C w st1)
    (hfz : st1.memtable.frozen ≠ []) :
    ∃ st', lsmFlushBody st1 = .ok st' ∧ EngineInv C w st' := by
  rcases Option.eq_none_or_eq_some (st1.memtable.frozen.getLast?) with hlast | ⟨oldest, hlast⟩
  · rw [List.getLast?_eq_none_iff] at hlast
    exact absurd hlast hfz
  · refine ⟨flushResult st1 oldest, ?_, flushResult_inv inv1 hlast⟩
    unfold lsmFlushBody
    rw [hlast]

theorem lsmFlush_inv [Inhabited K] {C : LsmConf K} {w : K → Option Value}
    {st : EngineState K} (inv : EngineInv C w st)
    (hfz : mtTotalSize C st.memtable = 0 ∨ st.memtable.frozen ≠ []) :
    ∃ st', lsmFlush C st = .ok st' ∧ EngineInv C w st' := by
  by_cases h0 : mtTotalSize C st.memtable = 0
  · refine ⟨st, ?_, inv⟩
    unfold lsmFlush
    rw [if_pos h0]
  · have hfz' : st.memtable.frozen ≠ [] := hfz.resolve_left h0
    have hinv1 : EngineInv C w (if C.sstLevelRatio ≤ (st.levels 0).length then
        fullCompact C (st.curMaxLevel + 2) 0 st else st) := by
      split
      · exact fullCompact_inv _ _ inv
      · exact inv
    have hfz1 : (if C.sstLevelRatio ≤ (st.levels 0).length then
        fullCompact C (st.curMaxLevel + 2) 0 st else st).memtable.frozen ≠ [] := by
      split
      · rw [fullCompact_memtable]
        exact hfz'
      · exact hfz'
    rcases lsmFlushBody_inv hinv1 hfz1 with ⟨st', heq, hinv'⟩
    refine ⟨st', ?_, hinv'⟩
    unfold lsmFlush
    rw [if_neg h0]
    exact heq

theorem mtPut_inv [Inhabited K] {C : LsmConf K} {w : K → Option Value}
    {st : EngineState K} (inv : EngineInv C w st) {k : K} {v : Value}
    (hfresh : w k = none) (hper : 0 < C.perMemSizeLimit) :
    EngineInv C (updFn w k (some v)) { st with memtable := mtPut C st.memtable k v } := by
  have hws : ∀ e : Entry K, w e.1 = some e.2 → updFn w k (some v) e.1 = some e.2 := by
    intro e he
    by_cases h : e.1 = k
    · rw [h] at he
      rw [he] at hfresh
      exact absurd hfresh (by simp)
    · rw [updFn_ne _ _ h]
      exact he
  have hmt : mtPut C st.memtable k v =
      if C.perMemSizeLimit ≤ slSize C (slPut st.memtable.active k v) then
        (⟨[], slPut st.memtable.active k v :: st.memtable.frozen⟩ : MemTable K)
      else ⟨slPut st.memtable.active k v, st.memtable.frozen⟩ := rfl
  have hactive_sorted := sortedKeys_slPut (k := k) (v := v) inv.activeSorted
  have hnewrec : ∀ e ∈ slPut st.memtable.active k v, updFn w k (some v) e.1 = some e.2 := by
    intro e he
    rcases mem_slPut he with rfl | he
    · simp [updFn]
    · exact hws e (inv.mtConsistent _ (List.mem_cons_self _ _) e he)
  by_cases hfr : C.perMemSizeLimit ≤ slSize C (slPut st.memtable.active k v)
  · rw [hmt, if_pos hfr]
    refine ⟨?_, ?_, ?_, ?_, ?_, ?_, inv.levelSorted, inv.levelNonempty, inv.l0Sorted,
      inv.idsBelow, inv.hiEmpty, inv.levelsDisjoint⟩
    · simp [SortedKeys]
    · intro t ht
      rcases List.mem_cons.mp ht with rfl | ht
      · exact hactive_sorted
      · exact inv.frozenSorted t ht
    · show slSize C ([] : List (Entry K)) < C.perMemSizeLimit
      simpa [slSize] using hper
    · intro t ht e he
      rcases List.mem_cons.mp ht with rfl | ht
      · simp at he
      · rcases List.mem_cons.mp ht with rfl | ht
        · exact hnewrec e he
        · exact hws e (inv.mtConsistent t (List.mem_cons_of_mem _ ht) e he)
    · intro l id hid e he
      exact hws e (inv.sstConsistent l id hid e he)
    · intro k' v' hk'
      by_cases hkk : k' = k
      · subst hkk
        rw [updFn_self] at hk'
        refine Or.inl ⟨slPut st.memtable.active k' v, ?_, keysOf_slPut_self k' v⟩
        simp
      · rw [updFn_ne _ _ hkk] at hk'
        rcases inv.complete k' v' hk' with ⟨t, ht, hkt⟩ | hsst
        · rcases List.mem_cons.mp ht with rfl | ht
          · refine Or.inl ⟨slPut st.memtable.active k v, ?_, keysOf_slPut_mono k v hkt⟩
            simp
          · exact Or.inl ⟨t, by simp [List.mem_cons_of_mem _ ht], hkt⟩
        · exact Or.inr hsst
  · rw [hmt, if_neg hfr]
    refine ⟨hactive_sorted, inv.frozenSorted,
      (by show slSize C (slPut st.memtable.active k v) < C.perMemSizeLimit; omega), ?_, ?_,
      ?_, inv.levelSorted,
      inv.levelNonempty, inv.l0Sorted, inv.idsBelow, inv.hiEmpty, inv.levelsDisjoint⟩
    · intro t ht e he
      rcases List.mem_cons.mp ht with rfl | ht
      · exact hnewrec e he
      · exact hws e (inv.mtConsistent t (List.mem_cons_of_mem _ ht) e he)
    · intro l id hid e he
      exact hws e (inv.sstConsistent l id hid e he)
    · intro k' v' hk'
      by_cases hkk : k' = k
      · subst hkk
        exact Or.inl ⟨slPut st.memtable.active k' v, List.mem_cons_self _ _,
          keysOf_slPut_self k' v⟩
      · rw [updFn_ne _ _ hkk] at hk'
        rcases inv.complete k' v' hk' with ⟨t, ht, hkt⟩ | hsst
        · rcases List.mem_cons.mp ht with rfl | ht
          · exact Or.inl ⟨slPut st.memtable.active k v, List.mem_cons_self _ _,
              keysOf_slPut_mono k v hkt⟩
          · exact Or.inl ⟨t, List.mem_cons_of_mem _ ht, hkt⟩
        · exact Or.inr hsst

theorem frozen_ne_nil_of_tol {C : LsmConf K} {mt : MemTable K}
    (hsmall : slSize C mt.active < C.perMemSizeLimit)
    (hpt : C.perMemSizeLimit ≤ C.tolMemSizeLimit)
    (htol : C.tolMemSizeLimit ≤ mtTotalSize C mt) : mt.frozen ≠ [] := by
  intro hnil
  rw [mtTotalSize, hnil] at htol
  simp at htol
  omega

theorem lsmPut_inv [Inhabited K] {C : LsmConf K} {w : K → Option Value}
    {st : EngineState K} (inv : EngineInv C w st) {k : K} {v : Value}
    (hfresh : w k = none) (hper : 0 < C.perMemSizeLimit)
    (hpt : C.perMemSizeLimit ≤ C.tolMemSizeLimit) :
    ∃ st', lsmPut C st k v = .ok st' ∧ EngineInv C (updFn w k (some v)) st' := by
  have hinv1 := mtPut_inv inv hfresh hper (v := v)
  unfold lsmPut
  by_cases htol : C.tolMemSizeLimit ≤
      mtTotalSize C ({ st with memtable := mtPut C st.memtable k v } : EngineState K).memtable
  · rw [if_pos htol]
    refine lsmFlush_inv hinv1 (Or.inr ?_)
    have hfz := frozen_ne_nil_of_tol hinv1.activeSmall hpt htol
    exact hfz
  · rw [if_neg htol]
    exact ⟨_, rfl, hinv1⟩

theorem lsmRemove_inv [Inhabited K] {C : LsmConf K} {w : K → Option Value}
    {st : EngineState K} (inv : EngineInv C w st) {k : K}
    (hfresh : w k = none) (hper : 0 < C.perMemSizeLimit) :
    EngineInv C (updFn w k (some ([] : Value))) (lsmRemove C st k) :=
  mtPut_inv inv hfresh hper

theorem freshEngine_inv [Inhabited K] {C : LsmConf K} (hper : 0 < C.perMemSizeLimit) :
    EngineInv C (fun _ => none) (freshEngine : EngineState K) := by
  refine ⟨?_, ?_, ?_, ?_, ?_, ?_, ?_, ?_, ?_, ?_, ?_, ?_⟩
  · simp [freshEngine, MemTable.empty, SortedKeys]
  · intro t ht
    simp [freshEngine, MemTable.empty] at ht
  · simpa [freshEngine, MemTable.empty, slSize] using hper
  · intro t ht e he
    simp [freshEngine, MemTable.empty] at ht
    subst ht
    simp at he
  · intro l id hid
    simp [freshEngine] at hid
  · intro k v hk
    simp at hk
  · intro l _
    simp [freshEngine, concatEntries, SortedKeys]
  · intro l _ id hid
    simp [freshEngine] at hid
  · intro id hid
    simp [freshEngine] at hid
  · intro l id hid
    simp [freshEngine] at hid
  · intro l _
    rfl
  · intro l l' _ id hid
    simp [freshEngine] at hid

theorem wfold_notMem {ops : List (WriteOp K)} {x : K} (w0 : K → Option Value)
    (h : ∀ op ∈ ops, op.opKey ≠ x) :
    (ops.foldl (fun w op => updFn w op.opKey (some op.written)) w0) x = w0 x := by
  induction ops generalizing w0 with
  | nil => rfl
  | cons op ops ih =>
    simp only [List.foldl_cons]
    rw [ih _ (fun op' hop' => h op' (List.mem_cons_of_mem _ hop'))]
    exact updFn_ne _ _ (Ne.symm (h op (List.mem_cons_self op ops)))

theorem wfold_mem {ops : List (WriteOp K)} {op : WriteOp K} (w0 : K → Option Value)
    (hmem : op ∈ ops)
    (hnd : List.Pairwise (fun a b : WriteOp K => a.opKey ≠ b.opKey) ops) :
    (ops.foldl (fun w op => updFn w op.opKey (some op.written)) w0) op.opKey
      = some op.written := by
  induction ops generalizing w0 with
  | nil => simp at hmem
  | cons op0 ops ih =>
    rcases List.pairwise_cons.mp hnd with ⟨hhead, htail⟩
    rcases List.mem_cons.mp hmem with rfl | hmem
    · simp only [List.foldl_cons]
      rw [wfold_notMem _ (fun op' hop' => Ne.symm (hhead op' hop'))]
      exact updFn_self _ _ _
    · simp only [List.foldl_cons]
      exact ih _ hmem htail

theorem runWrites_inv [Inhabited K] {C : LsmConf K} (hper : 0 < C.perMemSizeLimit)
    (hpt : C.perMemSizeLimit ≤ C.tolMemSizeLimit) :
    ∀ (ops : List (WriteOp K)) {w : K → Option Value} {st : EngineState K},
      EngineInv C w st → (∀ op ∈ ops, w op.opKey = none) →
      List.Pairwise (fun a b : WriteOp K => a.opKey ≠ b.opKey) ops →
      ∃ st', runOps C (ops.map WriteOp.toPub) st = .ok st' ∧
        EngineInv C (ops.foldl (fun w op => updFn w op.opKey (some op.written)) w) st' := by
  intro ops
  induction ops with
  | nil =>
    intro w st inv _ _
    exact ⟨st, rfl, inv⟩
  | cons op ops ih =>
    intro w st inv hfresh hnd
    rcases List.pairwise_cons.mp hnd with ⟨hhead, htail⟩
    have hfreshtail : ∀ op' ∈ ops,
        (updFn w op.opKey (some op.written)) op'.opKey = none := by
      intro op' hop'
      rw [updFn_ne _ _ (Ne.symm (hhead op' hop'))]
      exact hfresh op' (List.mem_cons_of_mem _ hop')
    cases op with
    | wput k v =>
      have hf0 : w k = none := hfresh _ (List.mem_cons_self _ _)
      rcases lsmPut_inv inv hf0 hper hpt (v := v) with ⟨st1, heq, hinv1⟩
      rcases ih hinv1 hfreshtail htail with ⟨st', heq', hinv'⟩
      refine ⟨st', ?_, hinv'⟩
      simp only [List.map_cons, runOps, WriteOp.toPub, stepOp]
      rw [heq]
      exact heq'
    | wremove k =>
      have hinv1 := lsmRemove_inv inv (hfresh _ (List.mem_cons_self _ _)) hper
      rcases ih hinv1 hfreshtail htail with ⟨st', heq', hinv'⟩
      refine ⟨st', ?_, hinv'⟩
      simp only [List.map_cons, runOps, WriteOp.toPub, stepOp]
      exact heq'

theorem compactBody_l0inv {C : LsmConf K} {st1 : EngineState K} (src : Nat)
    (inv : L0Inv st1) : L0Inv (compactBody C src st1) := by
  have hlevels := compactBody_levels C src st1
  constructor
  · rw [hlevels, if_neg (show (0 : Nat) ≠ src + 1 by omega)]
    by_cases h2 : (0 : Nat) = src
    · rw [if_pos h2]
      exact List.Pairwise.nil
    · rw [if_neg h2]
      exact inv.desc
  · intro l id hid
    rw [hlevels] at hid
    rw [compactBody_curMaxSstId]
    by_cases h1 : l = src + 1
    · rw [if_pos h1] at hid
      exact (compactNewIds_bounds hid).2
    · rw [if_neg h1] at hid
      by_cases h2 : l = src
      · rw [if_pos h2] at hid
        simp at hid
      · rw [if_neg h2] at hid
        have := inv.below l id hid
        omega

theorem fullCompact_l0inv {C : LsmConf K} :
    ∀ (fuel src : Nat) {st : EngineState K}, L0Inv st →
      L0Inv (fullCompact C fuel src st) := by
  intro fuel
  induction fuel with
  | zero => intro src st inv; exact inv
  | succ fuel ih =>
    intro src st inv
    show L0Inv (compactBody C src _)
    by_cases h : C.sstLevelRatio ≤ (st.levels (src + 1)).length
    · rw [if_pos h]
      exact compactBody_l0inv src (ih (src + 1) inv)
    · rw [if_neg h]
      exact compactBody_l0inv src inv

theorem flushResult_l0inv {st1 : EngineState K} {oldest : List (Entry K)}
    (inv : L0Inv st1) : L0Inv (flushResult st1 oldest) := by
  constructor
  · show List.Pairwise (· > ·) (updFn st1.levels 0 (st1.curMaxSstId :: st1.levels 0) 0)
    rw [updFn_self]
    exact List.pairwise_cons.mpr ⟨fun id hid => inv.below 0 id hid, inv.desc⟩
  · intro l id hid
    show id < st1.curMaxSstId + 1
    by_cases hl : l = 0
    · subst hl
      have : updFn st1.levels 0 (st1.curMaxSstId :: st1.levels 0) 0 =
          st1.curMaxSstId :: st1.levels 0 := updFn_self _ _ _
      rw [show (flushResult st1 oldest).levels 0 =
        st1.curMaxSstId :: st1.levels 0 from this] at hid
      rcases List.mem_cons.mp hid with rfl | hid
      · omega
      · have := inv.below 0 id hid
        omega
    · have : (flushResult st1 oldest).levels l = st1.levels l := updFn_ne _ _ hl
      rw [this] at hid
      have := inv.below l id hid
      omega

theorem lsmFlushBody_l0inv {st1 st' : EngineState K} (inv : L0Inv st1)
    (h : lsmFlushBody st1 = .ok st') : L0Inv st' := by
  unfold lsmFlushBody at h
  rcases Option.eq_none_or_eq_some (st1.memtable.frozen.getLast?) with hlast | ⟨oldest, hlast⟩
  · rw [hlast] at h
    exact Except.noConfusion h
  · rw [hlast] at h
    injection h with h
    rw [← h]
    exact flushResult_l0inv inv

theorem lsmFlush_l0inv {C : LsmConf K} {st st' : EngineState K} (inv : L0Inv st)
    (h : lsmFlush C st = .ok st') : L0Inv st' := by
  unfold lsmFlush at h
  by_cases h0 : mtTotalSize C st.memtable = 0
  · rw [if_pos h0] at h
    injection h with h
    rw [← h]
    exact inv
  · rw [if_neg h0] at h
    by_cases hcomp : C.sstLevelRatio ≤ (st.levels 0).length
    · rw [if_pos hcomp] at h
      exact lsmFlushBody_l0inv (fullCompact_l0inv _ _ inv) h
    · rw [if_neg hcomp] at h
      exact lsmFlushBody_l0inv inv h

theorem memtable_update_l0inv {st : EngineState K} {m : MemTable K} (inv : L0Inv st) :
    L0Inv ({ st with memtable := m }) :=
  ⟨inv.desc, inv.below⟩

theorem lsmFlushAllGo_l0inv {C : LsmConf K} :
    ∀ (n : Nat) {st st' : EngineState K}, L0Inv st →
      lsmFlushAllGo C n st = .ok st' → L0Inv st' := by
  intro n
  induction n with
  | zero =>
    intro st st' inv h
    unfold lsmFlushAllGo at h
    by_cases h0 : mtTotalSize C st.memtable = 0
    · rw [if_pos h0] at h
      injection h with h
      rw [← h]
      exact inv
    · rw [if_neg h0] at h
      exact Except.noConfusion h
  | succ n ih =>
    intro st st' inv h
    unfold lsmFlushAllGo at h
    by_cases h0 : mtTotalSize C st.memtable = 0
    · rw [if_pos h0] at h
      injection h with h
      rw [← h]
      exact inv
    · rw [if_neg h0] at h
      rcases Option.eq_none_or_eq_some ((lsmFlush C st).toOption) with hfl | ⟨st1, hfl⟩
      · rcases hcase : lsmFlush C st with e | st1
        · rw [hcase] at h
          exact Except.noConfusion h
        · rw [hcase] at hfl
          simp [Except.toOption] at hfl
      · rcases hcase : lsmFlush C st with e | st1'
        · rw [hcase] at hfl
          simp [Except.toOption] at hfl
        · rw [hcase] at h
          exact ih (lsmFlush_l0inv inv hcase) h

theorem lsmClear_l0inv (st : EngineState K) : L0Inv (lsmClear st) := by
  constructor
  · exact List.Pairwise.nil
  · intro l id hid
    simp [lsmClear] at hid

theorem stepOp_l0inv {C : LsmConf K} {st st' : EngineState K} {op : PubOp K}
    (inv : L0Inv st) (h : stepOp C st op = .ok st') : L0Inv st' := by
  cases op with
  | put k v =>
    have h' : (if C.tolMemSizeLimit ≤ mtTotalSize C
          ({ st with memtable := mtPut C st.memtable k v } : EngineState K).memtable
        then lsmFlush C ({ st with memtable := mtPut C st.memtable k v })
        else .ok ({ st with memtable := mtPut C st.memtable k v })) = .ok st' := h
    by_cases htol : C.tolMemSizeLimit ≤
        mtTotalSize C ({ st with memtable := mtPut C st.memtable k v } : EngineState K).memtable
    · rw [if_pos htol] at h'
      exact lsmFlush_l0inv (memtable_update_l0inv inv) h'
    · rw [if_neg htol] at h'
      injection h' with h'
      rw [← h']
      exact memtable_update_l0inv inv
  | putBatch kvs =>
    have h' : (if C.tolMemSizeLimit ≤ mtTotalSize C
          ({ st with memtable := kvs.foldl (fun mt e => mtPut C mt e.1 e.2) st.memtable } :
            EngineState K).memtable
        then lsmFlush C
          ({ st with memtable := kvs.foldl (fun mt e => mtPut C mt e.1 e.2) st.memtable })
        else .ok
          ({ st with memtable := kvs.foldl (fun mt e => mtPut C mt e.1 e.2) st.memtable })) =
        .ok st' := h
    by_cases htol : C.tolMemSizeLimit ≤
        mtTotalSize C ({ st with
          memtable := kvs.foldl (fun mt e => mtPut C mt e.1 e.2) st.memtable } :
            EngineState K).memtable
    · rw [if_pos htol] at h'
      exact lsmFlush_l0inv (memtable_update_l0inv inv) h'
    · rw [if_neg htol] at h'
      injection h' with h'
      rw [← h']
      exact memtable_update_l0inv inv
  | remove k =>
    unfold stepOp at h
    injection h with h
    rw [← h]
    exact memtable_update_l0inv inv
  | removeBatch ks =>
    unfold stepOp at h
    injection h with h
    rw [← h]
    exact memtable_update_l0inv inv
  | flush =>
    exact lsmFlush_l0inv inv h
  | flushAll =>
    exact lsmFlushAllGo_l0inv _ inv h
  | clear =>
    unfold stepOp at h
    injection h with h
    rw [← h]
    exact lsmClear_l0inv st

theorem runOps_l0inv {C : LsmConf K} :
    ∀ (ops : List (PubOp K)) {st st' : EngineState K}, L0Inv st →
      runOps C ops st = .ok st' → L0Inv st' := by
  intro ops
  induction ops with
  | nil =>
    intro st st' inv h
    injection h with h
    rw [← h]
    exact inv
  | cons op ops ih =>
    intro st st' inv h
    unfold runOps at h
    rcases hcase : stepOp C st op with e | st1
    · rw [hcase] at h
      exact Except.noConfusion h
    · rw [hcase] at h
      exact ih (stepOp_l0inv inv hcase) h

theorem freshEngine_l0inv : L0Inv (freshEngine : EngineState K) := by
  constructor
  · exact List.Pairwise.nil
  · intro l id hid
    simp [freshEngine] at hid

theorem mtPut_activeSmall {C : LsmConf K} (hper : 0 < C.perMemSizeLimit)
    (mt : MemTable K) (k : K) (v : Value) :
    slSize C (mtPut C mt k v).active < C.perMemSizeLimit := by
  have hmt : mtPut C mt k v =
      if C.perMemSizeLimit ≤ slSize C (slPut mt.active k v) then
        (⟨[], slPut mt.active k v :: mt.frozen⟩ : MemTable K)
      else ⟨slPut mt.active k v, mt.frozen⟩ := rfl
  rw [hmt]
  by_cases h : C.perMemSizeLimit ≤ slSize C (slPut mt.active k v)
  · rw [if_pos h]
    simpa [slSize] using hper
  · rw [if_neg h]
    show slSize C (slPut mt.active k v) < C.perMemSizeLimit
    omega

theorem foldPut_activeSmall {C : LsmConf K} (hper : 0 < C.perMemSizeLimit) :
    ∀ (kvs : List (Entry K)) (mt : MemTable K),
      slSize C mt.active < C.perMemSizeLimit →
      slSize C (kvs.foldl (fun mt e => mtPut C mt e.1 e.2) mt).active <
        C.perMemSizeLimit := by
  intro kvs
  induction kvs with
  | nil => intro mt h; exact h
  | cons e kvs ih =>
    intro mt h
    exact ih (mtPut C mt e.1 e.2) (mtPut_activeSmall hper mt e.1 e.2)

theorem foldRemove_activeSmall {C : LsmConf K} (hper : 0 < C.perMemSizeLimit) :
    ∀ (ks : List K) (mt : MemTable K),
      slSize C mt.active < C.perMemSizeLimit →
      slSize C (ks.foldl (mtRemove C) mt).active < C.perMemSizeLimit := by
  intro ks
  induction ks with
  | nil => intro mt h; exact h
  | cons k ks ih =>
    intro mt h
    exact ih (mtRemove C mt k) (mtPut_activeSmall hper mt k [])

theorem lsmFlush_ok_of_frozen {C : LsmConf K} {st : EngineState K}
    (hfz : mtTotalSize C st.memtable = 0 ∨ st.memtable.frozen ≠ []) :
    ∃ st', lsmFlush C st = .ok st' ∧
      st'.memtable.active = st.memtable.active := by
  by_cases h0 : mtTotalSize C st.memtable = 0
  · refine ⟨st, ?_, rfl⟩
    unfold lsmFlush
    rw [if_pos h0]
  · have hfz' : st.memtable.frozen ≠ [] := hfz.resolve_left h0
    have hmem : (if C.sstLevelRatio ≤ (st.levels 0).length then
        fullCompact C (st.curMaxLevel + 2) 0 st else st).memtable = st.memtable := by
      split
      · exact fullCompact_memtable C _ 0 st
      · rfl
    rcases Option.eq_none_or_eq_some ((if C.sstLevelRatio ≤ (st.levels 0).length then
        fullCompact C (st.curMaxLevel + 2) 0 st else st).memtable.frozen.getLast?)
      with hlast | ⟨oldest, hlast⟩
    · rw [List.getLast?_eq_none_iff, hmem] at hlast
      exact absurd hlast hfz'
    · refine ⟨flushResult (if C.sstLevelRatio ≤ (st.levels 0).length then
          fullCompact C (st.curMaxLevel + 2) 0 st else st) oldest, ?_, ?_⟩
      · show lsmFlush C st = .ok (flushResult _ oldest)
        unfold lsmFlush
        rw [if_neg h0]
        unfold lsmFlushBody
        rw [hlast]
      · show (if C.sstLevelRatio ≤ (st.levels 0).length then
          fullCompact C (st.curMaxLevel + 2) 0 st else st).memtable.active =
            st.memtable.active
        rw [hmem]

theorem stepOp_ok_small {C : LsmConf K} {st : EngineState K} {op : PubOp K}
    (hper : 0 < C.perMemSizeLimit) (hpt : C.perMemSizeLimit ≤ C.tolMemSizeLimit)
    (hsmall : slSize C st.memtable.active < C.perMemSizeLimit)
    (hff : op.flushFree) :
    ∃ st', stepOp C st op = .ok st' ∧
      slSize C st'.memtable.active < C.perMemSizeLimit := by
  cases op with
  | put k v =>
    have hsm1 : slSize C (mtPut C st.memtable k v).active < C.perMemSizeLimit :=
      mtPut_activeSmall hper st.memtable k v
    show ∃ st', lsmPut C st k v = .ok st' ∧ _
    unfold lsmPut
    by_cases htol : C.tolMemSizeLimit ≤
        mtTotalSize C ({ st with memtable := mtPut C st.memtable k v } : EngineState K).memtable
    · rw [if_pos htol]
      have hfz : ({ st with memtable := mtPut C st.memtable k v } :
          EngineState K).memtable.frozen ≠ [] :=
        frozen_ne_nil_of_tol hsm1 hpt htol
      rcases lsmFlush_ok_of_frozen (Or.inr hfz) with ⟨st', heq, hact⟩
      refine ⟨st', heq, ?_⟩
      rw [hact]
      exact hsm1
    · rw [if_neg htol]
      exact ⟨_, rfl, hsm1⟩
  | putBatch kvs =>
    have hsm1 : slSize C
        (kvs.foldl (fun mt e => mtPut C mt e.1 e.2) st.memtable).active <
          C.perMemSizeLimit :=
      foldPut_activeSmall hper kvs st.memtable hsmall
    show ∃ st', lsmPutBatch C st kvs = .ok st' ∧ _
    unfold lsmPutBatch
    by_cases htol : C.tolMemSizeLimit ≤
        mtTotalSize C ({ st with
          memtable := kvs.foldl (fun mt e => mtPut C mt e.1 e.2) st.memtable } :
            EngineState K).memtable
    · rw [if_pos htol]
      have hfz : ({ st with
          memtable := kvs.foldl (fun mt e => mtPut C mt e.1 e.2) st.memtable } :
            EngineState K).memtable.frozen ≠ [] :=
        frozen_ne_nil_of_tol hsm1 hpt htol
      rcases lsmFlush_ok_of_frozen (Or.inr hfz) with ⟨st', heq, hact⟩
      refine ⟨st', heq, ?_⟩
      rw [hact]
      exact hsm1
    · rw [if_neg htol]
      exact ⟨_, rfl, hsm1⟩
  | remove k =>
    exact ⟨lsmRemove C st k, rfl, mtPut_activeSmall hper st.memtable k []⟩
  | removeBatch ks =>
    exact ⟨lsmRemoveBatch C st ks, rfl, foldRemove_activeSmall hper ks st.memtable hsmall⟩
  | flush => exact False.elim hff
  | flushAll => exact False.elim hff
  | clear =>
    refine ⟨lsmClear st, rfl, ?_⟩
    show slSize C ([] : List (Entry K)) < C.perMemSizeLimit
    simpa [slSize] using hper

theorem runOps_ok_small {C : LsmConf K}
    (hper : 0 < C.perMemSizeLimit) (hpt : C.perMemSizeLimit ≤ C.tolMemSizeLimit) :
    ∀ (ops : List (PubOp K)) {st : EngineState K},
      slSize C st.memtable.active < C.perMemSizeLimit →
      (∀ op ∈ ops, op.flushFree) →
      ∃ st', runOps C ops st = .ok st' ∧
        slSize C st'.memtable.active < C.perMemSizeLimit := by
  intro ops
  induction ops with
  | nil => intro st h _; exact ⟨st, rfl, h⟩
  | cons op ops ih =>
    intro st h hff
    rcases stepOp_ok_small hper hpt h (hff op (List.mem_cons_self _ _)) with ⟨st1, heq, h1⟩
    rcases ih h1 (fun o ho => hff o (List.mem_cons_of_mem _ ho)) with ⟨st', heq', h'⟩
    refine ⟨st', ?_, h'⟩
    show (match stepOp C st op with
      | Except.error e => (Except.error e : Except LsmErr (EngineState K))
      | Except.ok st1 => runOps C ops st1) = Except.ok st'
    rw [heq]
    exact heq'

theorem liveValue_ne_empty (v : Value) : liveValue v ≠ some [] := by
  unfold liveValue
  by_cases h : 0 < v.length
  · rw [if_pos h]
    intro he
    injection he with he
    rw [he] at h
    simp at h
  · rw [if_neg h]
    exact fun he => Option.noConfusion he

theorem l0GetScan_ne_empty {st : EngineState K} :
    ∀ (ids : List Nat) (k : K) {r : Option Value},
      l0GetScan st ids k = some r → r ≠ some [] := by
  intro ids
  induction ids with
  | nil => intro k r h; exact Option.noConfusion h
  | cons id rest ih =>
    intro k r h
    unfold l0GetScan at h
    rcases hcase : SSTm.get (st.ssts id) k with _ | v
    · rw [hcase] at h
      exact ih k h
    · rw [hcase] at h
      injection h with h
      rw [← h]
      exact liveValue_ne_empty v

theorem levelSearchF_ne_empty [Inhabited K] {st : EngineState K} {ids : List Nat} {k : K} :
    ∀ (f left right : Nat) {r : Option Value},
      levelSearchF st ids k f left right = some r → r ≠ some [] := by
  intro f
  induction f with
  | zero => intro left right r h; exact Option.noConfusion h
  | succ f ih =>
    intro left right r h
    simp only [levelSearchF] at h
    by_cases hlr : left < right
    · rw [if_pos hlr] at h
      by_cases hc : sstContains (st.ssts (ids.getD (left + (right - left) / 2) 0)) k
      · rw [if_pos hc] at h
        rcases hcase : SSTm.get (st.ssts (ids.getD (left + (right - left) / 2) 0)) k
          with _ | v
        · rw [hcase] at h
          exact Option.noConfusion h
        · rw [hcase] at h
          injection h with h
          rw [← h]
          exact liveValue_ne_empty v
      · rw [if_neg hc] at h
        by_cases hlast : (st.ssts (ids.getD (left + (right - left) / 2) 0)).lastKey < k
        · rw [if_pos hlast] at h
          exact ih _ _ h
        · rw [if_neg hlast] at h
          exact ih _ _ h
    · rw [if_neg hlr] at h
      exact Option.noConfusion h

theorem levelsGet_ne_empty [Inhabited K] {st : EngineState K} {k : K} :
    ∀ (ls : List Nat), levelsGet st k ls ≠ some [] := by
  intro ls
  induction ls with
  | nil => exact fun h => Option.noConfusion h
  | cons l ls ih =>
    unfold levelsGet
    rcases hcase : levelSearch st (st.levels l) k with _ | r
    · exact ih
    · exact levelSearchF_ne_empty _ _ _ hcase

theorem lsmGet_ne_empty [Inhabited K] (st : EngineState K) (k : K) :
    lsmGet st k ≠ some [] := by
  unfold lsmGet
  rcases hmt : mtGet st.memtable k with _ | v
  · rcases hl0 : l0GetScan st (st.levels 0) k with _ | r
    · exact levelsGet_ne_empty _
    · exact l0GetScan_ne_empty _ _ hl0
  · exact liveValue_ne_empty v

theorem builds_before_dels_of_shape {bs rest : List CompEff}
    (hr : ∀ e ∈ rest, CompEff.isBuild e = false)
    (hbd : ∀ e ∈ bs, CompEff.isDel e = false) :
    ∀ t1 t2, bs ++ rest = t1 ++ t2 →
      (∃ e ∈ t1, CompEff.isDel e = true) → ∀ e ∈ t2, CompEff.isBuild e = false := by
  intro t1 t2 heq hdel e he
  rcases hdel with ⟨d, hd1, hdel⟩
  rcases List.append_eq_append_iff.mp heq with ⟨a, ha1, ha2⟩ | ⟨c, hc1, hc2⟩
  · refine hr e ?_
    rw [ha2]
    exact List.mem_append_right _ he
  · rw [hc1] at hbd
    have := hbd d (List.mem_append_left _ hd1)
    rw [this] at hdel
    exact Bool.noConfusion hdel

theorem runEffFiles_mem_of_noDel {id : Nat} :
    ∀ (effs : List CompEff) (fs : List Nat), (∀ e ∈ effs, CompEff.isDel e = false) →
      id ∈ fs → id ∈ runEffFiles fs effs := by
  intro effs
  induction effs with
  | nil => intro fs _ h; exact h
  | cons e effs ih =>
    intro fs hnd h
    have h1 : id ∈ applyEffFiles fs e := by
      cases e with
      | buildNew j => exact List.mem_append_left _ h
      | delOld j =>
        have := hnd _ (List.mem_cons_self _ _)
        simp [CompEff.isDel] at this
      | registerNew j => exact h
    exact ih _ (fun e' he' => hnd e' (List.mem_cons_of_mem _ he')) h1

theorem runEffRegs_mem_of_noDel {id : Nat} :
    ∀ (effs : List CompEff) (rs : List Nat), (∀ e ∈ effs, CompEff.isDel e = false) →
      id ∈ rs → id ∈ runEffRegs rs effs := by
  intro effs
  induction effs with
  | nil => intro rs _ h; exact h
  | cons e effs ih =>
    intro rs hnd h
    have h1 : id ∈ applyEffRegs rs e := by
      cases e with
      | buildNew j => exact h
      | delOld j =>
        have := hnd _ (List.mem_cons_self _ _)
        simp [CompEff.isDel] at this
      | registerNew j => exact List.mem_append_left _ h
    exact ih _ (fun e' he' => hnd e' (List.mem_cons_of_mem _ he')) h1

theorem compactOwnEffects_shape (C : LsmConf K) (src : Nat) (st1 : EngineState K) :
    compactOwnEffects C src st1 =
      (compactNewIds C src st1).map CompEff.buildNew ++
        ((st1.levels src).map CompEff.delOld ++ (st1.levels (src + 1)).map CompEff.delOld
          ++ (compactNewIds C src st1).map CompEff.registerNew) := by
  unfold compactOwnEffects
  simp [List.append_assoc]

theorem buildCount_ownEffects (C : LsmConf K) (src : Nat) (st1 : EngineState K) :
    buildCount (compactOwnEffects C src st1) = (compactNewIds C src st1).length := by
  unfold buildCount compactOwnEffects
  simp [List.filter_append, List.filter_map, Function.comp_def, CompEff.isBuild]

theorem compactTrace_norec {C : LsmConf K} {src : Nat} {st : EngineState K}
    (hnorec : ¬C.sstLevelRatio ≤ (st.levels (src + 1)).length) (fuel : Nat) :
    compactTrace C (fuel + 1) src st = compactOwnEffects C src st := by
  unfold compactTrace
  rw [if_neg hnorec]

theorem take_ownEffects_noDel {C : LsmConf K} {src : Nat} {st : EngineState K}
    {n : Nat} (hn : n ≤ buildCount (compactOwnEffects C src st)) :
    ∀ e ∈ (compactOwnEffects C src st).take n, CompEff.isDel e = false := by
  intro e he
  rw [buildCount_ownEffects] at hn
  rw [compactOwnEffects_shape] at he
  rw [List.take_append_of_le_length (by simpa using hn)] at he
  have := List.take_subset n _ he
  rcases List.mem_map.mp this with ⟨id, _, rfl⟩
  rfl

/-- C1 (amended): for every finite sequence of `put(k,v)` and `remove(k)`
operations applied to a fresh engine over pairwise-distinct keys, where
every put stores a non-empty value, a subsequent `get(k)` returns the
value of the last `put(k,v)` and returns nullopt if the last operation
on `k` was `remove(k)`.  The non-empty-value proviso is the correction:
a `put(k, "")` stores the tombstone representation, so `get(k)` then
returns nullopt rather than the empty value that was put (see the
counterexample). -/
theorem c1_distinct_key_writes [Inhabited K] (C : LsmConf K)
    (hper : 0 < C.perMemSizeLimit) (hpt : C.perMemSizeLimit ≤ C.tolMemSizeLimit)
    (ops : List (WriteOp K))
    (hnd : List.Pairwise (fun a b : WriteOp K => a.opKey ≠ b.opKey) ops)
    (hval : ∀ op ∈ ops, op.liveWrite) :
    ∃ st', runOps C (ops.map WriteOp.toPub) (freshEngine : EngineState K) = .ok st' ∧
      ∀ op ∈ ops, lsmGet st' op.opKey = op.readback := by
  have hfresh : ∀ op ∈ ops, (fun _ => (none : Option Value)) op.opKey = none :=
    fun _ _ => rfl
  rcases runWrites_inv hper hpt ops (freshEngine_inv hper) hfresh hnd with ⟨st', heq, hinv⟩
  refine ⟨st', heq, ?_⟩
  intro op hop
  have hw := wfold_mem (fun _ => none) hop hnd
  have hg := lsmGet_correct hinv op.opKey
  rw [hg, hw]
  cases op with
  | wput k v =>
    have hv : v ≠ [] := hval _ hop
    show liveValue v = some v
    unfold liveValue
    rw [if_pos (List.length_pos.mpr hv)]
  | wremove k =>
    show liveValue [] = none
    rfl

/-- Witness for C1: three distinct-key live writes on a fresh engine;
reading each key back gives the last write. -/
theorem c1_distinct_key_writes_witness :
    ∃ st', runOps (⟨4, 8, 2, fun _ => 1⟩ : LsmConf Nat)
        ([WriteOp.wput 1 ['a'], WriteOp.wremove 2, WriteOp.wput 3 ['c']].map WriteOp.toPub)
        freshEngine = .ok st' ∧
      ∀ op ∈ [WriteOp.wput 1 ['a'], WriteOp.wremove 2, WriteOp.wput 3 ['c']],
        lsmGet st' op.opKey = op.readback :=
  c1_distinct_key_writes (⟨4, 8, 2, fun _ => 1⟩ : LsmConf Nat) (by decide) (by decide)
    [WriteOp.wput 1 ['a'], WriteOp.wremove 2, WriteOp.wput 3 ['c']] (by decide) (by decide)

/-- Counterexample to C1 as stated: on a fresh engine, the single
sequence `put(1, "")` over the (trivially pairwise-distinct) key 1 is
followed by `get(1) = nullopt`, not the last-put value `""`: the engine
stores empty values as tombstones at every layer of `get`. -/
theorem c1_counterexample :
    (runOps (⟨4, 8, 2, fun _ => 1⟩ : LsmConf Nat) [PubOp.put 1 []] freshEngine).map
        (fun st => lsmGet st 1) = .ok none ∧ (none : Option Value) ≠ some [] :=
  ⟨rfl, by decide⟩

/-- C2 (confirmed): `get(k)` consults the MemTable, then the level-0
SSTs in stored order, then levels `1..cur_max_level`, where the level
binary search refines the spec's "locate the SST whose
`[first_key, last_key]` range contains k and call `sst.get(k)`"
(formalised by `specGet`, written from the spec's words), under the
engine's level invariants (each deeper level's runs sorted and
non-overlapping, registered SSTs non-empty); and a hit with an empty
value is never returned: `get` never yields `some ""` in any state. -/
theorem c2_get_layering [Inhabited K] (st : EngineState K) (k : K)
    (hlv : ∀ l : Nat, 1 ≤ l → SortedKeys (concatEntries st (st.levels l)))
    (hne : ∀ l : Nat, 1 ≤ l → ∀ id ∈ st.levels l, (st.ssts id).entries ≠ []) :
    lsmGet st k = specGet st k ∧ lsmGet st k ≠ some [] :=
  ⟨lsmGet_eq_specGet k hlv hne, lsmGet_ne_empty st k⟩

/-- Witness for C2: a state with one SST at level 1; the code's binary
search agrees with the spec's containing-range lookup and the stored
tombstone invisibility holds. -/
theorem c2_get_layering_witness :
    lsmGet (⟨MemTable.empty, updFn (fun _ => sstDefault) 3 ⟨3, [(5, ['x'])]⟩,
        updFn (fun _ => ([] : List Nat)) 1 [3], 4, 1, [3]⟩ : EngineState Nat) 5 =
      specGet (⟨MemTable.empty, updFn (fun _ => sstDefault) 3 ⟨3, [(5, ['x'])]⟩,
        updFn (fun _ => ([] : List Nat)) 1 [3], 4, 1, [3]⟩ : EngineState Nat) 5 ∧
    lsmGet (⟨MemTable.empty, updFn (fun _ => sstDefault) 3 ⟨3, [(5, ['x'])]⟩,
        updFn (fun _ => ([] : List Nat)) 1 [3], 4, 1, [3]⟩ : EngineState Nat) 5 ≠
      some [] :=
  c2_get_layering (⟨MemTable.empty, updFn (fun _ => sstDefault) 3 ⟨3, [(5, ['x'])]⟩,
      updFn (fun _ => ([] : List Nat)) 1 [3], 4, 1, [3]⟩ : EngineState Nat) 5
    (fun l hl => by
      by_cases h1 : l = 1
      · subst h1
        simp [SortedKeys, concatEntries, updFn]
      · show SortedKeys ((List.map (fun id =>
          (((⟨MemTable.empty, updFn (fun _ => sstDefault) 3 ⟨3, [(5, ['x'])]⟩,
            updFn (fun _ => ([] : List Nat)) 1 [3], 4, 1, [3]⟩ :
              EngineState Nat)).ssts id).entries)
          (updFn (fun _ => ([] : List Nat)) 1 [3] l)).flatten)
        rw [updFn_ne _ _ h1]
        exact List.Pairwise.nil)
    (fun l hl id hid => by
      by_cases h1 : l = 1
      · subst h1
        have hid' : id ∈ [3] := hid
        rcases List.mem_singleton.mp hid' with rfl
        decide
      · have hid' : id ∈ updFn (fun _ => ([] : List Nat)) 1 [3] l := hid
        rw [updFn_ne _ _ h1] at hid'
        simp at hid')

/-- C3 (amended): flushes reached through the write path always find a
frozen skiplist, so no sequence of the engine's public operations that
avoids calling `flush`/`flush_all` directly can hit the `flush_last`
panic: a fresh engine runs any such sequence without error.  (The
correction is the scope: the claim as stated covers the public `flush`
itself, whose panic branch is reachable — see the counterexample.) -/
theorem c3_write_path_no_panic (C : LsmConf K) (hper : 0 < C.perMemSizeLimit)
    (hpt : C.perMemSizeLimit ≤ C.tolMemSizeLimit) (ops : List (PubOp K))
    (hff : ∀ op ∈ ops, op.flushFree) :
    ∃ st', runOps C ops (freshEngine : EngineState K) = .ok st' := by
  have h0 : slSize C (freshEngine : EngineState K).memtable.active < C.perMemSizeLimit := by
    show slSize C ([] : List (Entry K)) < C.perMemSizeLimit
    simpa [slSize] using hper
  rcases runOps_ok_small hper hpt ops h0 hff with ⟨st', heq, _⟩
  exact ⟨st', heq⟩

/-- Witness for C3: a write sequence whose first put crosses both the
freeze watermark and the flush threshold, so the internally triggered
flush runs (and succeeds, having a frozen skiplist to pop). -/
theorem c3_write_path_no_panic_witness :
    ∃ st', runOps (⟨2, 4, 2, fun _ => 1⟩ : LsmConf Nat)
      [PubOp.put 1 ['a', 'b', 'c'], PubOp.remove 2, PubOp.putBatch [(3, ['d'])],
        PubOp.clear] freshEngine = .ok st' :=
  c3_write_path_no_panic (⟨2, 4, 2, fun _ => 1⟩ : LsmConf Nat) (by decide) (by decide)
    [PubOp.put 1 ['a', 'b', 'c'], PubOp.remove 2, PubOp.putBatch [(3, ['d'])],
      PubOp.clear] (by decide)

/-- Counterexample to C3 as stated: after the public operation
`put(1, "v")` on a fresh engine (watermarks 100), the MemTable holds 2
bytes (so `get_total_size() > 0`) and the frozen list is empty, and the
public `flush` then executes its flush path and hits the `flush_last`
panic branch — the panic is reachable from the engine's public
operations. -/
theorem c3_counterexample :
    (lsmPut (⟨100, 100, 4, fun _ => 1⟩ : LsmConf Nat) freshEngine 1 ['v']).map
        (fun st => (mtTotalSize (⟨100, 100, 4, fun _ => 1⟩ : LsmConf Nat) st.memtable,
          st.memtable.frozen,
          lsmFlush (⟨100, 100, 4, fun _ => 1⟩ : LsmConf Nat) st)) =
      .ok (2, [], Except.error LsmErr.frozenEmpty) ∧ (0 : Nat) < 2 :=
  ⟨rfl, by decide⟩

/-- C4 (amended): `remove(k)` performs exactly the MemTable tombstone
insert `put(k, "")` performs, and the two leave the engine in identical
states whenever the post-insert MemTable total stays below
`LSM_TOL_MEM_SIZE_LIMIT`.  The correction: `put` follows the insert
with a flush check and `remove` does not, so at the threshold the two
public operations diverge (see the counterexample). -/
theorem c4_remove_put_tombstone (C : LsmConf K) (st : EngineState K) (k : K)
    (h : mtTotalSize C (mtPut C st.memtable k []) < C.tolMemSizeLimit) :
    lsmRemove C st k = { st with memtable := mtPut C st.memtable k [] } ∧
    lsmPut C st k [] = .ok (lsmRemove C st k) := by
  refine ⟨rfl, ?_⟩
  unfold lsmPut
  rw [if_neg (not_le.mpr h)]
  rfl

/-- Witness for C4: on a fresh engine below the flush threshold,
`put(1, "")` and `remove(1)` produce the same state. -/
theorem c4_remove_put_tombstone_witness :
    lsmRemove (⟨5, 10, 4, fun _ => 1⟩ : LsmConf Nat) freshEngine 1 =
      { (freshEngine : EngineState Nat) with
        memtable := mtPut (⟨5, 10, 4, fun _ => 1⟩ : LsmConf Nat)
          (freshEngine : EngineState Nat).memtable 1 [] } ∧
    lsmPut (⟨5, 10, 4, fun _ => 1⟩ : LsmConf Nat) freshEngine 1 [] =
      .ok (lsmRemove (⟨5, 10, 4, fun _ => 1⟩ : LsmConf Nat) freshEngine 1) :=
  c4_remove_put_tombstone (⟨5, 10, 4, fun _ => 1⟩ : LsmConf Nat) freshEngine 1 (by decide)

/-- Counterexample to C4 as stated: with `PER = 5`, `TOL = 10`, after
`put(1, "abcdefgh")` (9 bytes, frozen), the tombstone brings the total
to 10, so `put(2, "")` triggers a flush and registers SST 0 on level 0
while `remove(2)` leaves level 0 empty: the two states are not
identical. -/
theorem c4_counterexample :
    ((runOps (⟨5, 10, 4, fun _ => 1⟩ : LsmConf Nat)
        [PubOp.put 1 ['a', 'b', 'c', 'd', 'e', 'f', 'g', 'h']] freshEngine).map
        (fun st0 =>
          ((lsmPut (⟨5, 10, 4, fun _ => 1⟩ : LsmConf Nat) st0 2 []).map
              (fun s => s.levels 0),
            (lsmRemove (⟨5, 10, 4, fun _ => 1⟩ : LsmConf Nat) st0 2).levels 0))) =
      .ok (.ok [0], []) ∧ ([0] : List Nat) ≠ [] :=
  ⟨rfl, by decide⟩

/-- C5 (amended): starting from a fresh engine (empty data directory),
after every successful sequence of public operations the level-0 id
list is ordered by `sst_id` descending, and every registered id is
below the mint counter `cur_max_sst_id`.  The correction is the
starting point: after the constructor's directory scan the claim can
fail, because `cur_max_sst_id` is set to the maximum id seen rather
than one past it, so the next flush re-mints an id that is already on
level 0 (see the counterexample). -/
theorem c5_l0_descending (C : LsmConf K) (ops : List (PubOp K)) {st' : EngineState K}
    (h : runOps C ops (freshEngine : EngineState K) = .ok st') :
    List.Pairwise (· > ·) (st'.levels 0) ∧
      ∀ l : Nat, ∀ id ∈ st'.levels l, id < st'.curMaxSstId := by
  have hinv := runOps_l0inv ops freshEngine_l0inv h
  exact ⟨hinv.desc, hinv.below⟩

/-- Witness for C5: put then flush on a fresh engine; level 0 holds the
single minted id 0 and the counter has moved past it. -/
theorem c5_l0_descending_witness :
    List.Pairwise (· > ·)
      ((⟨⟨[], []⟩, updFn (fun _ => sstDefault) 0 ⟨0, [((1 : Nat), ['a', 'b'])]⟩,
          updFn (fun _ => ([] : List Nat)) 0 [0], 1, 0, [0]⟩ : EngineState Nat).levels 0) ∧
    ∀ l : Nat, ∀ id ∈ (⟨⟨[], []⟩,
        updFn (fun _ => sstDefault) 0 ⟨0, [((1 : Nat), ['a', 'b'])]⟩,
        updFn (fun _ => ([] : List Nat)) 0 [0], 1, 0, [0]⟩ : EngineState Nat).levels l,
      id < (⟨⟨[], []⟩, updFn (fun _ => sstDefault) 0 ⟨0, [((1 : Nat), ['a', 'b'])]⟩,
        updFn (fun _ => ([] : List Nat)) 0 [0], 1, 0, [0]⟩ :
          EngineState Nat).curMaxSstId :=
  c5_l0_descending (⟨2, 4, 2, fun _ => 1⟩ : LsmConf Nat)
    [PubOp.put 1 ['a', 'b'], PubOp.flush] rfl

/-- Counterexample to C5 as stated: opening on a directory holding SST
0 at level 0 sets `cur_max_sst_id = 0`, and the next flush mints id 0
again and push-fronts it, leaving `level_sst_ids[0] = [0, 0]`, which is
not strictly descending (and the minted id was not fresh). -/
theorem c5_counterexample :
    ((runOps (⟨1, 1, 9, fun _ => 1⟩ : LsmConf Nat) [PubOp.put 5 ['v']]
        (initFromScan [(0, 0, [(7, ['q'])])])).map (fun st => st.levels 0)) =
      .ok [0, 0] ∧ ¬ List.Pairwise (· > ·) [(0 : Nat), 0] :=
  ⟨rfl, by decide⟩

/-- C6 (confirmed): every merged iterator emits a strictly ascending
key sequence with newest-wins values: (a) a heap merge emits strictly
ascending keys; (b) each emitted record comes from the input item with
the minimal recency index among all items of that key (the heap's
`idx` tie-break); (c) the two-merge of two sorted runs is sorted and,
on every key, side A (the MemTable side) wins ties; (d) `begin`'s
stream is strictly ascending; (e) over level-0 SST items, whose index
is `-sst_id`, the winning record of each key comes from the largest
`sst_id` containing that key. -/
theorem c6_merged_iterators :
    (∀ items : List (SearchItem K), SortedKeys (heapMergePairs items)) ∧
    (∀ items : List (SearchItem K), ∀ e ∈ heapMergePairs items,
      ∃ it ∈ items, it.key = e.1 ∧ it.value = e.2 ∧
        ∀ it2 ∈ items, it2.key = e.1 → it.idx ≤ it2.idx) ∧
    (∀ a b : List (Entry K), SortedKeys a → SortedKeys b →
      SortedKeys (twoMerge a b) ∧
        ∀ k, slGet (twoMerge a b) k = (slGet a k).or (slGet b k)) ∧
    (∀ st : EngineState K, SortedKeys (lsmBegin st)) ∧
    (∀ (st : EngineState K) (ids : List Nat),
      ∀ e ∈ heapMergePairs (sstItemsOfL0 st ids),
        ∃ id ∈ ids, e ∈ (st.ssts id).entries ∧
          ∀ id2 ∈ ids, e.1 ∈ keysOf (st.ssts id2).entries → id2 ≤ id) := by
  refine ⟨heapMergePairs_sortedKeys, heapMergePairs_newest, ?_, ?_, ?_⟩
  · intro a b ha hb
    exact ⟨twoMerge_sortedKeys ha hb, fun k => twoMerge_slGet k ha hb⟩
  · intro st
    show SortedKeys (twoMerge (heapMergePairs (mtItems st.memtable))
      (heapMergePairs (sstItemsOfL0 st (st.levels 0))))
    exact twoMerge_sortedKeys (heapMergePairs_sortedKeys _) (heapMergePairs_sortedKeys _)
  · intro st ids e he
    rcases heapMergePairs_newest _ e he with ⟨it, hit, hk, hv, hmin⟩
    simp only [sstItemsOfL0, List.mem_flatten, List.mem_map] at hit
    rcases hit with ⟨_, ⟨id, hid, rfl⟩, hit⟩
    rcases List.mem_map.mp hit with ⟨e', he', rfl⟩
    refine ⟨id, hid, ?_, ?_⟩
    · have he1 : e'.1 = e.1 := hk
      have he2 : e'.2 = e.2 := hv
      have : e' = e := Prod.ext he1 he2
      rw [← this]
      exact he'
    · intro id2 hid2 hkey2
      rcases List.mem_map.mp hkey2 with ⟨e2, he2, hke2⟩
      have hit2 : (SearchItem.mk e2.1 e2.2 (-(id2 : Int)) 0) ∈ sstItemsOfL0 st ids := by
        simp only [sstItemsOfL0, List.mem_flatten, List.mem_map]
        exact ⟨_, ⟨id2, hid2, rfl⟩, List.mem_map.mpr ⟨e2, he2, rfl⟩⟩
      have hle := hmin _ hit2 hke2
      have : -(id : Int) ≤ -(id2 : Int) := hle
      have h2 : (id2 : Int) ≤ (id : Int) := by omega
      exact_mod_cast h2

/-- Witness for C6: the two-merge clause at two concrete sorted runs
sharing the key 2; the merge is sorted and side A wins the tie. -/
theorem c6_merged_iterators_witness :
    SortedKeys [((1 : Nat), ['a']), (2, ['b'])] ∧
    SortedKeys [((2 : Nat), ['c']), (3, ['d'])] ∧
    (SortedKeys (twoMerge [((1 : Nat), ['a']), (2, ['b'])] [(2, ['c']), (3, ['d'])]) ∧
      ∀ k, slGet (twoMerge [((1 : Nat), ['a']), (2, ['b'])] [(2, ['c']), (3, ['d'])]) k =
        (slGet [((1 : Nat), ['a']), (2, ['b'])] k).or (slGet [(2, ['c']), (3, ['d'])] k)) :=
  ⟨by decide, by decide,
    c6_merged_iterators.2.2.1 [((1 : Nat), ['a']), (2, ['b'])] [(2, ['c']), (3, ['d'])]
      (by decide) (by decide)⟩

/-- C7 (corrected): within one compaction body the effect order is all
builds, then the old-file deletions, then the registrations of the new
SSTs — so no replacement SST is built after any old file has been
deleted, and stopping anywhere in the build phase (a build failure)
leaves every old file on disk and every old id registered.  The
correction: registration happens after `del_sst`, not before, so the
claim's "deleted only after ... registered" ordering is false (see the
counterexample). -/
theorem c7_compaction_order (C : LsmConf K) (fuel src : Nat) (st : EngineState K)
    (hnorec : ¬C.sstLevelRatio ≤ (st.levels (src + 1)).length) :
    compactTrace C (fuel + 1) src st = compactOwnEffects C src st ∧
    (∀ t1 t2 : List CompEff, compactTrace C (fuel + 1) src st = t1 ++ t2 →
      (∃ e ∈ t1, CompEff.isDel e = true) → ∀ e ∈ t2, CompEff.isBuild e = false) ∧
    (∀ n : Nat, n ≤ buildCount (compactTrace C (fuel + 1) src st) →
      ∀ id : Nat,
        (id ∈ st.files →
          id ∈ runEffFiles st.files ((compactTrace C (fuel + 1) src st).take n)) ∧
        ∀ rs : List Nat, id ∈ rs →
          id ∈ runEffRegs rs ((compactTrace C (fuel + 1) src st).take n)) := by
  have htr := compactTrace_norec hnorec fuel
  refine ⟨htr, ?_, ?_⟩
  · rw [htr, compactOwnEffects_shape]
    refine builds_before_dels_of_shape ?_ ?_
    · intro e he
      rcases List.mem_append.mp he with he | he
      · rcases List.mem_append.mp he with he | he
        · rcases List.mem_map.mp he with ⟨id, _, rfl⟩
          rfl
        · rcases List.mem_map.mp he with ⟨id, _, rfl⟩
          rfl
      · rcases List.mem_map.mp he with ⟨id, _, rfl⟩
        rfl
    · intro e he
      rcases List.mem_map.mp he with ⟨id, _, rfl⟩
      rfl
  · intro n hn id
    rw [htr] at hn
    rw [htr]
    have hnd := take_ownEffects_noDel hn
    exact ⟨fun hid => runEffFiles_mem_of_noDel _ st.files hnd hid,
      fun rs hid => runEffRegs_mem_of_noDel _ rs hnd hid⟩

/-- Witness for C7: a state with one SST (id 0) at level 1 and an empty
level 2, compacted from `src = 1`: the trace equals the body effects,
deletions never precede a build that follows them, and every prefix
within the build phase preserves old files and registrations. -/
theorem c7_compaction_order_witness :
    compactTrace (⟨4, 8, 4, fun _ => 1⟩ : LsmConf Nat) 3 1
        (⟨MemTable.empty, updFn (fun _ => sstDefault) 0 ⟨0, [(5, ['x'])]⟩,
          updFn (fun _ => ([] : List Nat)) 1 [0], 1, 1, [0]⟩ : EngineState Nat) =
      compactOwnEffects (⟨4, 8, 4, fun _ => 1⟩ : LsmConf Nat) 1
        (⟨MemTable.empty, updFn (fun _ => sstDefault) 0 ⟨0, [(5, ['x'])]⟩,
          updFn (fun _ => ([] : List Nat)) 1 [0], 1, 1, [0]⟩ : EngineState Nat) ∧
    (∀ t1 t2 : List CompEff,
      compactTrace (⟨4, 8, 4, fun _ => 1⟩ : LsmConf Nat) 3 1
        (⟨MemTable.empty, updFn (fun _ => sstDefault) 0 ⟨0, [(5, ['x'])]⟩,
          updFn (fun _ => ([] : List Nat)) 1 [0], 1, 1, [0]⟩ : EngineState Nat) =
            t1 ++ t2 →
      (∃ e ∈ t1, CompEff.isDel e = true) → ∀ e ∈ t2, CompEff.isBuild e = false) ∧
    (∀ n : Nat, n ≤ buildCount (compactTrace (⟨4, 8, 4, fun _ => 1⟩ : LsmConf Nat) 3 1
        (⟨MemTable.empty, updFn (fun _ => sstDefault) 0 ⟨0, [(5, ['x'])]⟩,
          updFn (fun _ => ([] : List Nat)) 1 [0], 1, 1, [0]⟩ : EngineState Nat)) →
      ∀ id : Nat,
        (id ∈ (⟨MemTable.empty, updFn (fun _ => sstDefault) 0 ⟨0, [(5, ['x'])]⟩,
            updFn (fun _ => ([] : List Nat)) 1 [0], 1, 1, [0]⟩ : EngineState Nat).files →
          id ∈ runEffFiles (⟨MemTable.empty,
              updFn (fun _ => sstDefault) 0 ⟨0, [(5, ['x'])]⟩,
              updFn (fun _ => ([] : List Nat)) 1 [0], 1, 1, [0]⟩ :
                EngineState Nat).files
            ((compactTrace (⟨4, 8, 4, fun _ => 1⟩ : LsmConf Nat) 3 1
              (⟨MemTable.empty, updFn (fun _ => sstDefault) 0 ⟨0, [(5, ['x'])]⟩,
                updFn (fun _ => ([] : List Nat)) 1 [0], 1, 1, [0]⟩ :
                  EngineState Nat)).take n)) ∧
        ∀ rs : List Nat, id ∈ rs →
          id ∈ runEffRegs rs ((compactTrace (⟨4, 8, 4, fun _ => 1⟩ : LsmConf Nat) 3 1
            (⟨MemTable.empty, updFn (fun _ => sstDefault) 0 ⟨0, [(5, ['x'])]⟩,
              updFn (fun _ => ([] : List Nat)) 1 [0], 1, 1, [0]⟩ :
                EngineState Nat)).take n)) :=
  c7_compaction_order (⟨4, 8, 4, fun _ => 1⟩ : LsmConf Nat) 2 1
    (⟨MemTable.empty, updFn (fun _ => sstDefault) 0 ⟨0, [(5, ['x'])]⟩,
      updFn (fun _ => ([] : List Nat)) 1 [0], 1, 1, [0]⟩ : EngineState Nat) (by decide)

/-- Counterexample to C7 as stated: compacting the single SST 0 from
level 1 produces the effect trace `[build 1, delete 0, register 1]` —
the old file is deleted before the replacement SST is registered, so
the claim's "deleted only after successfully built and registered" is
false for registration. -/
theorem c7_counterexample :
    compactTrace (⟨4, 8, 4, fun _ => 1⟩ : LsmConf Nat) 3 1
      (⟨MemTable.empty, updFn (fun _ => sstDefault) 0 ⟨0, [(5, ['x'])]⟩,
        updFn (fun _ => ([] : List Nat)) 1 [0], 1, 1, [0]⟩ : EngineState Nat) =
      [CompEff.buildNew 1, CompEff.delOld 0, CompEff.registerNew 1] ∧
    List.findIdx CompEff.isDel
        [CompEff.buildNew 1, CompEff.delOld 0, CompEff.registerNew 1] <
      List.findIdx CompEff.isReg
        [CompEff.buildNew 1, CompEff.delOld 0, CompEff.registerNew 1] :=
  ⟨rfl, by decide⟩

/-- C8 (confirmed): `gen_sst_from_iter` finalizes the open builder
exactly when its estimated size reaches `target_size` after an add —
every produced chunk is non-empty, every proper prefix of a chunk is
below target, every chunk but the last reached target, and the chunks
partition the stream — and the compaction target sizes are
`per_memtable_limit` at level 0 and `per_memtable_limit * ratio^level`
at level ≥ 1 (a compaction from `src` builds for level `src + 1`). -/
theorem c8_sst_rollover (C : LsmConf K) (sz : Entry K → Nat) (hsz : ∀ e, 0 < sz e)
    (target : Nat) (l : List (Entry K)) :
    ((genChunks sz target l).flatten = l ∧
      (∀ c ∈ genChunks sz target l, c ≠ []) ∧
      (∀ c ∈ genChunks sz target l, ∀ i, 0 < i → i < c.length →
        chunkSize sz (c.take i) < target) ∧
      (∀ c ∈ (genChunks sz target l).dropLast, target ≤ chunkSize sz c)) ∧
    getSstSize C 0 = C.perMemSizeLimit ∧
    (∀ lvl : Nat, 1 ≤ lvl →
      getSstSize C lvl = C.perMemSizeLimit * C.sstLevelRatio ^ lvl) ∧
    ∀ src : Nat,
      compactTargetSize C src = C.perMemSizeLimit * C.sstLevelRatio ^ (src + 1) := by
  refine ⟨⟨flatten_genChunks sz hsz target l,
    fun c hc => ne_nil_of_mem_genChunks hsz hc,
    genChunks_proper_prefix, genChunks_full_chunks⟩, rfl, ?_, ?_⟩
  · intro lvl hl
    unfold getSstSize
    rw [if_neg (by omega)]
  · intro src
    unfold compactTargetSize
    by_cases h : src = 0
    · subst h
      rw [if_pos rfl]
      show C.perMemSizeLimit * C.sstLevelRatio = C.perMemSizeLimit * C.sstLevelRatio ^ 1
      rw [pow_one]
    · rw [if_neg h]
      unfold getSstSize
      rw [if_neg (by omega)]

/-- Witness for C8: rollover of a two-record stream at target 3 with
the real builder size estimate. -/
theorem c8_sst_rollover_witness :
    ((genChunks (sstEntrySize (⟨4, 8, 2, fun _ => 1⟩ : LsmConf Nat)) 3
        [(1, ['a']), (2, ['b', 'c'])]).flatten = [(1, ['a']), (2, ['b', 'c'])] ∧
      (∀ c ∈ genChunks (sstEntrySize (⟨4, 8, 2, fun _ => 1⟩ : LsmConf Nat)) 3
        [(1, ['a']), (2, ['b', 'c'])], c ≠ []) ∧
      (∀ c ∈ genChunks (sstEntrySize (⟨4, 8, 2, fun _ => 1⟩ : LsmConf Nat)) 3
        [(1, ['a']), (2, ['b', 'c'])], ∀ i, 0 < i → i < c.length →
          chunkSize (sstEntrySize (⟨4, 8, 2, fun _ => 1⟩ : LsmConf Nat)) (c.take i) < 3) ∧
      (∀ c ∈ (genChunks (sstEntrySize (⟨4, 8, 2, fun _ => 1⟩ : LsmConf Nat)) 3
        [(1, ['a']), (2, ['b', 'c'])]).dropLast,
          3 ≤ chunkSize (sstEntrySize (⟨4, 8, 2, fun _ => 1⟩ : LsmConf Nat)) c)) ∧
    getSstSize (⟨4, 8, 2, fun _ => 1⟩ : LsmConf Nat) 0 =
      (⟨4, 8, 2, fun _ => 1⟩ : LsmConf Nat).perMemSizeLimit ∧
    (∀ lvl : Nat, 1 ≤ lvl → getSstSize (⟨4, 8, 2, fun _ => 1⟩ : LsmConf Nat) lvl =
      (⟨4, 8, 2, fun _ => 1⟩ : LsmConf Nat).perMemSizeLimit *
        (⟨4, 8, 2, fun _ => 1⟩ : LsmConf Nat).sstLevelRatio ^ lvl) ∧
    ∀ src : Nat, compactTargetSize (⟨4, 8, 2, fun _ => 1⟩ : LsmConf Nat) src =
      (⟨4, 8, 2, fun _ => 1⟩ : LsmConf Nat).perMemSizeLimit *
        (⟨4, 8, 2, fun _ => 1⟩ : LsmConf Nat).sstLevelRatio ^ (src + 1) :=
  c8_sst_rollover (⟨4, 8, 2, fun _ => 1⟩ : LsmConf Nat)
    (sstEntrySize (⟨4, 8, 2, fun _ => 1⟩ : LsmConf Nat)) (sstEntrySize_pos _) 3
    [(1, ['a']), (2, ['b', 'c'])]

theorem kvGet_kvPutBatch_notMem :
    ∀ (kvs : List (String × String)) (st : KV) (x : String),
      (∀ p ∈ kvs, p.1 ≠ x) → kvGet (kvPutBatch st kvs) x = kvGet st x := by
  intro kvs
  induction kvs with
  | nil => intro st x _; rfl
  | cons p kvs ih =>
    intro st x h
    have h1 := ih (kvPut st p.1 p.2) x (fun q hq => h q (List.mem_cons_of_mem _ hq))
    have h2 : kvGet (kvPut st p.1 p.2) x = kvGet st x := by
      show (if x = p.1 then (if 0 < p.2.length then some p.2 else none)
        else kvGet st x) = kvGet st x
      rw [if_neg (fun he => h p (List.mem_cons_self _ _) he.symm)]
    rw [show kvPutBatch st (p :: kvs) = kvPutBatch (kvPut st p.1 p.2) kvs from rfl]
    rw [h1, h2]

/-- C9 (confirmed): in `redis_zadd`, when an element already in the
sorted set is given a changed score, the old score key is pushed onto
`remove_keys`, but `remove_batch` runs on the distinct `del_keys`
vector, which stays empty; so the stale score record survives: a
lookup of the old score key reads exactly what it read before the
zadd (the hypotheses keep the old score key distinct from the records
the zadd writes, which hold the element and prefix keys and the new
score key). -/
theorem c9_zadd_stale_score (R : RedisConf) (st : KV)
    (key elem oldScore newScore : String)
    (hold : kvGet st (zsetKeyElem R key elem) = some oldScore)
    (hne : oldScore ≠ newScore)
    (hkey : zsetKeyScore R key oldScore ≠ key)
    (hnew : zsetKeyScore R key oldScore ≠ zsetKeyScore R key newScore)
    (helem : zsetKeyScore R key oldScore ≠ zsetKeyElem R key elem) :
    (redisZadd R st key [(newScore, elem)]).2.1.removeKeys =
      [zsetKeyScore R key oldScore] ∧
    (redisZadd R st key [(newScore, elem)]).2.2 = [] ∧
    kvGet (redisZadd R st key [(newScore, elem)]).1 (zsetKeyScore R key oldScore) =
      kvGet st (zsetKeyScore R key oldScore) := by
  have hstep : zaddStep R st key
      ⟨(if (kvGet st (zsetKeyPrefixOf R key)).isSome then []
        else [(key, zsetKeyPrefixOf R key)]), [], 0⟩ (newScore, elem) =
      ⟨(if (kvGet st (zsetKeyPrefixOf R key)).isSome then []
        else [(key, zsetKeyPrefixOf R key)]) ++
          [(zsetKeyScore R key newScore, elem), (zsetKeyElem R key elem, newScore)],
        [zsetKeyScore R key oldScore], 1⟩ := by
    simp only [zaddStep, hold, if_neg hne, List.nil_append]
  have hz : redisZadd R st key [(newScore, elem)] =
      (kvPutBatch st ((if (kvGet st (zsetKeyPrefixOf R key)).isSome then []
          else [(key, zsetKeyPrefixOf R key)]) ++
          [(zsetKeyScore R key newScore, elem), (zsetKeyElem R key elem, newScore)]),
        ⟨(if (kvGet st (zsetKeyPrefixOf R key)).isSome then []
          else [(key, zsetKeyPrefixOf R key)]) ++
          [(zsetKeyScore R key newScore, elem), (zsetKeyElem R key elem, newScore)],
          [zsetKeyScore R key oldScore], 1⟩, []) := by
    simp only [redisZadd, List.foldl_cons, List.foldl_nil, hstep]
    rfl
  refine ⟨by rw [hz], by rw [hz], ?_⟩
  rw [hz]
  refine kvGet_kvPutBatch_notMem _ st _ ?_
  intro p hp
  rcases List.mem_append.mp hp with hp | hp
  · by_cases hpre : (kvGet st (zsetKeyPrefixOf R key)).isSome
    · rw [if_pos hpre] at hp
      simp at hp
    · rw [if_neg hpre] at hp
      rcases List.mem_singleton.mp hp with rfl
      exact Ne.symm hkey
  · rcases List.mem_cons.mp hp with rfl | hp
    · exact Ne.symm hnew
    · rcases List.mem_singleton.mp hp with rfl
      exact Ne.symm helem

/-- Witness for C9: element `e` of zset `k` stored with score 1 (both
its records present) is re-added with score 2; `remove_keys` holds the
old score key, the issued `del_keys` is empty, and the stale score
record for score 1 still reads back as it did before the zadd. -/
theorem c9_zadd_stale_score_witness :
    (redisZadd ⟨"Z", 3⟩ [(zsetKeyElem ⟨"Z", 3⟩ "k" "e", "1"),
        (zsetKeyScore ⟨"Z", 3⟩ "k" "1", "e")] "k"
        [("2", "e")]).2.1.removeKeys = [zsetKeyScore ⟨"Z", 3⟩ "k" "1"] ∧
    (redisZadd ⟨"Z", 3⟩ [(zsetKeyElem ⟨"Z", 3⟩ "k" "e", "1"),
        (zsetKeyScore ⟨"Z", 3⟩ "k" "1", "e")] "k" [("2", "e")]).2.2 = [] ∧
    kvGet (redisZadd ⟨"Z", 3⟩ [(zsetKeyElem ⟨"Z", 3⟩ "k" "e", "1"),
          (zsetKeyScore ⟨"Z", 3⟩ "k" "1", "e")] "k" [("2", "e")]).1
        (zsetKeyScore ⟨"Z", 3⟩ "k" "1") =
      kvGet [(zsetKeyElem ⟨"Z", 3⟩ "k" "e", "1"),
        (zsetKeyScore ⟨"Z", 3⟩ "k" "1", "e")] (zsetKeyScore ⟨"Z", 3⟩ "k" "1") :=
  c9_zadd_stale_score ⟨"Z", 3⟩ [(zsetKeyElem ⟨"Z", 3⟩ "k" "e", "1"),
      (zsetKeyScore ⟨"Z", 3⟩ "k" "1", "e")] "k" "e" "1" "2"
    (by decide) (by decide) (by decide) (by decide) (by decide)

/-- C10 (confirmed): for an existing element, `redis_zincrby` computes
`new_score` as the stored score parsed as a signed long plus the
increment parsed as a double, stored into a `uint64_t` and rendered in
decimal; the old score record is removed and the element and new score
records are written.  The conversion is lossy: `3 + 2.5` stores as
`5` (the fraction truncated), and `3 + (-5)` stores as
`18446744073709551614` (the negative value wrapped modulo `2^64`). -/
theorem c10_zincrby_lossy (R : RedisConf) (st : KV) (key inc elem oldScore : String)
    (hold : kvGet st (zsetKeyElem R key elem) = some oldScore) :
    ((redisZincrby R st key inc elem).2 =
        natDecString (toUInt64Wrap (decTruncToZero
          (addIntDecimal (stolModel oldScore) (stodModel inc)))) ∧
      (redisZincrby R st key inc elem).1 =
        kvPut (kvPut (kvRemove st (zsetKeyScore R key oldScore)) (zsetKeyElem R key elem)
            (natDecString (toUInt64Wrap (decTruncToZero
              (addIntDecimal (stolModel oldScore) (stodModel inc))))))
          (zsetKeyScore R key (natDecString (toUInt64Wrap (decTruncToZero
            (addIntDecimal (stolModel oldScore) (stodModel inc)))))) elem) ∧
    addIntDecimal (stolModel "3") (stodModel "2.5") = ⟨55, 1⟩ ∧
    decTruncToZero (addIntDecimal (stolModel "3") (stodModel "2.5")) = 5 ∧
    decTruncToZero (addIntDecimal (stolModel "3") (stodModel "-5")) = -2 ∧
    natDecString (toUInt64Wrap (decTruncToZero
      (addIntDecimal (stolModel "3") (stodModel "-5")))) = "18446744073709551614" := by
  have hz : redisZincrby R st key inc elem =
      (kvPut (kvPut (kvRemove st (zsetKeyScore R key oldScore)) (zsetKeyElem R key elem)
          (natDecString (toUInt64Wrap (decTruncToZero
            (addIntDecimal (stolModel oldScore) (stodModel inc))))))
        (zsetKeyScore R key (natDecString (toUInt64Wrap (decTruncToZero
          (addIntDecimal (stolModel oldScore) (stodModel inc)))))) elem,
        natDecString (toUInt64Wrap (decTruncToZero
          (addIntDecimal (stolModel oldScore) (stodModel inc))))) := by
    simp only [redisZincrby, hold]
  exact ⟨⟨by rw [hz], by rw [hz]⟩, by decide, by decide, by decide, by decide⟩

/-- Witness for C10: element `e` of zset `k` stored with score 3,
incremented by `-5`: the stored result is the two's-complement wrap
`18446744073709551614`. -/
theorem c10_zincrby_lossy_witness :
    (redisZincrby ⟨"Z", 3⟩ [(zsetKeyElem ⟨"Z", 3⟩ "k" "e", "3")] "k" "-5" "e").2 =
      natDecString (toUInt64Wrap (decTruncToZero
        (addIntDecimal (stolModel "3") (stodModel "-5")))) :=
  (c10_zincrby_lossy ⟨"Z", 3⟩ [(zsetKeyElem ⟨"Z", 3⟩ "k" "e", "3")] "k" "-5" "e" "3"
    (by decide)).1.1

end EngineLemmas

end LsmModel
